import Mathlib

/-!
# Verification of the `cbor` C++ library (yowidin/cbor)

A shallow embedding, in Lean 4, of the typed CBOR codec engine of the
`cbor` C++20 library, together with theorems settling the frozen claims
about its specification.

Bytes are modelled as natural numbers below 256, byte sequences as
`List Nat`.  Machine integers are modelled as `Nat`/`Int` with explicit
bounds.  Fallible operations return `Except Err`.  The write side of an
encoder against an unlimited sink is modelled as the pure list of bytes
appended (every `buffer::write` on an uncapped dynamic buffer succeeds,
and rollback scopes only matter on failure paths); the capped dynamic
buffer (`dynamic_buffer` of `src/src/buffer.cpp`) is modelled separately
with its capacity state.  The read side (`read_buffer` of
`src/src/buffer.cpp`) is a byte list plus a cursor.
-/

namespace CBOR

/-- The closed error set of `include/cbor/error.h` (revision with
`ill_formed`, used by `src/src/decoding.cpp`).  `success` is represented
by `Except.ok`, the remaining enumerators by this type. -/
inductive Err where
  | encodingError
  | decodingError
  | bufferUnderflow
  | bufferOverflow
  | valueNotRepresentable
  | invalidUsage
  | unexpectedType
  | illFormed
deriving DecidableEq, Repr

instance {ε α : Type} [DecidableEq ε] [DecidableEq α] : DecidableEq (Except ε α) :=
  fun a b =>
    match a, b with
    | .ok x, .ok y => if h : x = y then .isTrue (by rw [h]) else .isFalse (by simp [h])
    | .error x, .error y => if h : x = y then .isTrue (by rw [h]) else .isFalse (by simp [h])
    | .ok _, .error _ => .isFalse (by simp)
    | .error _, .ok _ => .isFalse (by simp)

/-- `cbor::read_buffer`: an immutable byte view plus a read cursor
(`read_position_`). -/
structure ReadBuf where
  data : List Nat
  pos : Nat
deriving DecidableEq, Repr

/-- `read_buffer::read(std::byte &v)`: consume one byte, advancing the
cursor; `buffer_underflow` (without advancing) if none remain. -/
def read1 (buf : ReadBuf) : Except Err Nat × ReadBuf :=
  if buf.data.length - buf.pos = 0 then (.error .bufferUnderflow, buf)
  else (.ok (buf.data.getD buf.pos 0), ⟨buf.data, buf.pos + 1⟩)

/-- `read_buffer::read(buffer::span_t v)`: fill a whole destination span of
`n` bytes or fail `buffer_underflow` without advancing. -/
def readN (n : Nat) (buf : ReadBuf) : Except Err (List Nat) × ReadBuf :=
  if buf.data.length - buf.pos < n then (.error .bufferUnderflow, buf)
  else (.ok ((buf.data.drop buf.pos).take n), ⟨buf.data, buf.pos + n⟩)

/-- The bytes not yet consumed by a read buffer. -/
def ReadBuf.remaining (buf : ReadBuf) : List Nat :=
  buf.data.drop buf.pos

/-- Cursor advance: the state of a read buffer after consuming `n` bytes. -/
def ReadBuf.advance (buf : ReadBuf) (n : Nat) : ReadBuf :=
  ⟨buf.data, buf.pos + n⟩

----------------------------------------------------------------------------
-- Dynamic write buffer (src/src/buffer.cpp)
----------------------------------------------------------------------------

/-- The caller-owned `std::vector<std::uint8_t>` backing a dynamic buffer:
its committed contents plus its allocated `capacity()`. -/
structure CallerVec where
  data : List Nat
  cap : Nat
deriving DecidableEq, Repr

/-- `std::vector::reserve(n)`: grows the allocation to `n` when `n`
exceeds the current capacity, otherwise leaves it unchanged. -/
def CallerVec.reserve (v : CallerVec) (n : Nat) : CallerVec :=
  { v with cap := max v.cap n }

/-- `std::vector::insert(end, ...)` of `bytes.length` elements: appends,
growing the allocation geometrically (libstdc++ doubles, at least to the
required size) when the current capacity does not suffice. -/
def CallerVec.append (v : CallerVec) (bytes : List Nat) : CallerVec :=
  let newSize := v.data.length + bytes.length
  { data := v.data ++ bytes
    cap := if newSize ≤ v.cap then v.cap else max (2 * v.cap) newSize }

/-- `CBOR_DYNAMIC_BUFFER_INITIAL_SIZE` (CMakeLists.txt default: 8). -/
def dynamicBufferInitialSize : Nat := 8

/-- `cbor::dynamic_buffer`: a borrowed caller vector plus the optional cap
(`max_capacity_`; `none` models `buffer::unlimited_capacity`). -/
structure DynamicBuffer where
  vec : CallerVec
  maxCapacity : Option Nat
deriving DecidableEq, Repr

/-- The `dynamic_buffer` constructor: when the configured initial size is
non-zero and a finite cap was supplied, reserves
`min(dynamic_buffer_initial_size, max_capacity)` bytes. -/
def dynamicBufferMake (vec : CallerVec) (maxCapacity : Option Nat) : DynamicBuffer :=
  match maxCapacity with
  | some c => ⟨vec.reserve (min dynamicBufferInitialSize c), some c⟩
  | none => ⟨vec, none⟩

/-- `dynamic_buffer::ensure_capacity(num_bytes)` from `src/src/buffer.cpp`
lines 48-60: succeed when the vector's unallocated remainder
(`capacity() - size()`) covers the request; otherwise fail
`buffer_overflow` when `capacity() + num_bytes` would exceed the cap. -/
def DynamicBuffer.ensureCapacity (b : DynamicBuffer) (numBytes : Nat) : Except Err Unit :=
  let remainder := b.vec.cap - b.vec.data.length
  if remainder ≥ numBytes then .ok ()
  else
    let targetCapacity := b.vec.cap + numBytes
    match b.maxCapacity with
    | some mc => if targetCapacity > mc then .error .bufferOverflow else .ok ()
    | none => .ok ()

/-- `dynamic_buffer::write(const_span_t)` from `src/src/buffer.cpp` lines
28-36: check capacity, then append the whole span. -/
def DynamicBuffer.write (b : DynamicBuffer) (bytes : List Nat) :
    Except Err Unit × DynamicBuffer :=
  match b.ensureCapacity bytes.length with
  | .error e => (.error e, b)
  | .ok _ => (.ok (), { b with vec := b.vec.append bytes })

----------------------------------------------------------------------------
-- Head encoding: detail::encode_argument (src/unnamed/part_009, encoding.cpp)
----------------------------------------------------------------------------

/-- `detail::ZERO_EXTRA_BYTES_VALUE_LIMIT`. -/
def ZERO_EXTRA_BYTES_VALUE_LIMIT : Nat := 23

/-- `detail::ONE_EXTRA_BYTE_VALUE_LIMIT`. -/
def ONE_EXTRA_BYTE_VALUE_LIMIT : Nat := 0xFF

/-- `detail::TWO_EXTRA_BYTES_VALUE_LIMIT`. -/
def TWO_EXTRA_BYTES_VALUE_LIMIT : Nat := 0xFFFF

/-- `detail::FOUR_EXTRA_BYTES_VALUE_LIMIT`. -/
def FOUR_EXTRA_BYTES_VALUE_LIMIT : Nat := 0xFFFFFFFF

/-- `detail::encode_argument(buffer&, major_type, std::uint8_t, bool)`.
`ty` is the numeric value of the `major_type` enumerator (top three bits);
the function returns the bytes appended to the buffer. -/
def encodeArgument8 (ty v : Nat) (compress : Bool) : List Nat :=
  if compress ∧ v ≤ ZERO_EXTRA_BYTES_VALUE_LIMIT then
    [ty ||| v]
  else
    [ty ||| 0x18, v]

/-- `detail::encode_argument(buffer&, major_type, std::uint16_t, bool)`. -/
def encodeArgument16 (ty v : Nat) (compress : Bool) : List Nat :=
  if compress ∧ v ≤ ONE_EXTRA_BYTE_VALUE_LIMIT then
    encodeArgument8 ty v compress
  else
    [ty ||| 0x19, (v >>> 8) &&& 0xFF, v &&& 0xFF]

/-- `detail::encode_argument(buffer&, major_type, std::uint32_t, bool)`. -/
def encodeArgument32 (ty v : Nat) (compress : Bool) : List Nat :=
  if compress ∧ v ≤ ONE_EXTRA_BYTE_VALUE_LIMIT then
    encodeArgument8 ty v compress
  else if compress ∧ v ≤ TWO_EXTRA_BYTES_VALUE_LIMIT then
    encodeArgument16 ty v compress
  else
    [ty ||| 0x1A, (v >>> 24) &&& 0xFF, (v >>> 16) &&& 0xFF, (v >>> 8) &&& 0xFF, v &&& 0xFF]

/-- `detail::encode_argument(buffer&, major_type, std::uint64_t, bool)`. -/
def encodeArgument64 (ty v : Nat) (compress : Bool) : List Nat :=
  if compress ∧ v ≤ ONE_EXTRA_BYTE_VALUE_LIMIT then
    encodeArgument8 ty v compress
  else if compress ∧ v ≤ TWO_EXTRA_BYTES_VALUE_LIMIT then
    encodeArgument16 ty v compress
  else if compress ∧ v ≤ FOUR_EXTRA_BYTES_VALUE_LIMIT then
    encodeArgument32 ty v compress
  else
    [ty ||| 0x1B,
     (v >>> 56) &&& 0xFF, (v >>> 48) &&& 0xFF, (v >>> 40) &&& 0xFF, (v >>> 32) &&& 0xFF,
     (v >>> 24) &&& 0xFF, (v >>> 16) &&& 0xFF, (v >>> 8) &&& 0xFF, v &&& 0xFF]

/-- The template `encode_argument<UnsignedInt T>(buffer&, major_type, T)` of
`include/cbor/encoding.h` (lines 193-212): dispatch to the narrowest
`detail::encode_argument` overload by value range.  The final
`value_not_representable` branch of the template is unreachable for
arguments below `2^64`, which is a precondition carried by the theorems. -/
def encodeArgument (ty v : Nat) : List Nat :=
  if v ≤ 0xFF then encodeArgument8 ty v true
  else if v ≤ 0xFFFF then encodeArgument16 ty v true
  else if v ≤ 0xFFFFFFFF then encodeArgument32 ty v true
  else encodeArgument64 ty v true

----------------------------------------------------------------------------
-- Head decoding: detail::head (src/src/decoding.cpp)
----------------------------------------------------------------------------

/-- `detail::head`: the decoded 1-9-byte CBOR head.  `type` and `simple`
hold the masked-out major type and simple-type bits of the raw byte;
`argument` holds the `extraBytes` argument bytes that were read. -/
structure Head where
  raw : Nat
  type : Nat
  simple : Nat
  extraBytes : Nat
  argument : List Nat
deriving DecidableEq, Repr

/-- `detail::head::read(read_buffer&)` as in `src/src/decoding.cpp`
(lines 13-65): read the initial byte, classify the 5-bit additional
information (1/2/4/8 extra bytes for info 24-27, `ill_formed` for the
reserved info values 28-30, zero extra bytes otherwise), then read the
argument bytes. -/
def headRead (buf : ReadBuf) : Except Err Head × ReadBuf :=
  match read1 buf with
  | (.error e, buf1) => (.error e, buf1)
  | (.ok b0, buf1) =>
    let raw := b0
    let info := raw &&& 0x1F
    if info = 0x1C ∨ info = 0x1D ∨ info = 0x1E then
      (.error .illFormed, buf1)
    else
      let extra : Nat :=
        if info = 0x18 then 1
        else if info = 0x19 then 2
        else if info = 0x1A then 4
        else if info = 0x1B then 8
        else 0
      match readN extra buf1 with
      | (.error e, buf2) => (.error e, buf2)
      | (.ok bytes, buf2) =>
        (.ok ⟨raw, raw &&& 0xE0, raw &&& 0x1F, extra, bytes⟩, buf2)

/-- `detail::head::decode_argument()`: assemble the big-endian argument as
a 64-bit unsigned value (the low five bits of the raw byte if no extra
bytes were read). -/
def Head.decodeArgument (h : Head) : Nat :=
  if h.extraBytes = 0 then h.raw &&& 0x1F
  else
    (List.range h.extraBytes).foldl
      (fun result i => result ||| ((h.argument.getD i 0) <<< (8 * (h.extraBytes - (i + 1))))) 0

----------------------------------------------------------------------------
-- Integer codec (include/cbor/encoding.h, include/cbor/decoding.h)
----------------------------------------------------------------------------

/-- `encode<UnsignedInt T>(buffer&, T)`: encode with major type 0. -/
def encodeUInt (v : Nat) : List Nat :=
  encodeArgument 0x00 v

/-- `encode<SignedInt T>(buffer&, T)`: negative values encode as major
type 1 with argument `-1 - v`, non-negative values as major type 0. -/
def encodeSInt (v : Int) : List Nat :=
  if v < 0 then encodeArgument 0x20 ((-1 - v).toNat)
  else encodeArgument 0x00 v.toNat

/-- `encode(buffer&, bool)`: `major_type::simple | true_type/false_type`. -/
def encodeBool (v : Bool) : List Nat :=
  [0xE0 ||| (if v then 0x15 else 0x14)]

/-- `encode(buffer&, std::nullptr_t)`: `major_type::simple | null_type`. -/
def encodeNull : List Nat :=
  [0xE0 ||| 0x16]

/-- `decode<UnsignedInt T>(read_buffer&, T&)` for the unsigned type of
width `w` bits (`max_int_v<T> = 2^w - 1`), from `include/cbor/decoding.h`
lines 44-64.  Returns the decoded value together with the final buffer
state (the C++ reports the value through an out-parameter). -/
def decodeUIntW (w : Nat) (buf : ReadBuf) : Except Err Nat × ReadBuf :=
  match headRead buf with
  | (.error e, buf1) => (.error e, buf1)
  | (.ok h, buf1) =>
    if h.type ≠ 0x00 then (.error .unexpectedType, buf1)
    else
      let u64 := h.decodeArgument
      if u64 > 2 ^ w - 1 then (.error .valueNotRepresentable, buf1)
      else (.ok u64, buf1)

/-- `decode<SignedInt T>(read_buffer&, T&)` for the signed type of width
`w` bits (`max_int_v<T> = 2^(w-1) - 1`, `min_int_v<T> = -2^(w-1)`), from
`include/cbor/decoding.h` lines 66-105: a major-0 head is accepted as a
positive value, a major-1 head yields `-1 - argument` computed in 64-bit
signed arithmetic, anything else is `unexpected_type`. -/
def decodeSIntW (w : Nat) (buf : ReadBuf) : Except Err Int × ReadBuf :=
  match headRead buf with
  | (.error e, buf1) => (.error e, buf1)
  | (.ok h, buf1) =>
    if h.type = 0x00 then
      let u64 := h.decodeArgument
      if u64 > 2 ^ (w - 1) - 1 then (.error .valueNotRepresentable, buf1)
      else (.ok (u64 : Int), buf1)
    else if h.type ≠ 0x20 then (.error .unexpectedType, buf1)
    else
      let u64 := h.decodeArgument
      if u64 > 2 ^ 63 - 1 then (.error .valueNotRepresentable, buf1)
      else
        let n : Int := -1 - (u64 : Int)
        if n < -(2 ^ (w - 1) : Int) then (.error .valueNotRepresentable, buf1)
        else (.ok n, buf1)

----------------------------------------------------------------------------
-- IEEE 754 floating point: bit patterns and exact semantics
----------------------------------------------------------------------------

/-- The semantic value of an IEEE 754 bit pattern, shared across the
half/single/double formats.  A nonzero finite value is carried as the
integer `value * 2^1074` (every finite value of the three formats is an
integer multiple of `2^-1074`); zeroes keep their sign bit so that the
emitted bit patterns stay observable. -/
inductive FVal where
  | nan
  | inf (neg : Bool)
  | zero (neg : Bool)
  | fin (v : Int)
deriving DecidableEq, Repr

/-- C++ floating-point `==` on semantic values: NaN compares unequal to
everything (itself included), `-0.0 == 0.0`, and finite values compare by
value. -/
def FVal.beqF : FVal → FVal → Bool
  | .inf a, .inf b => a = b
  | .zero _, .zero _ => true
  | .fin a, .fin b => a = b
  | _, _ => false

/-- An IEEE 754 binary interchange format: exponent and mantissa field
widths. -/
structure FFmt where
  expBits : Nat
  mantBits : Nat
deriving DecidableEq, Repr

/-- IEEE 754 binary16. -/
def fmt16 : FFmt := ⟨5, 10⟩

/-- IEEE 754 binary32. -/
def fmt32 : FFmt := ⟨8, 23⟩

/-- IEEE 754 binary64. -/
def fmt64 : FFmt := ⟨11, 52⟩

/-- The exponent bias of a format. -/
def FFmt.bias (f : FFmt) : Nat := 2 ^ (f.expBits - 1) - 1

/-- Position of the format's subnormal unit `2^(1 - bias - mantBits)` on
the shared `2^-1074` scale: `offset = 1075 - bias - mantBits` (0 for
binary64, 925 for binary32, 1050 for binary16). -/
def FFmt.offset (f : FFmt) : Nat := 1074 + 1 - (f.bias + f.mantBits)

/-- The format sanity conditions under which the bit-level lemmas hold;
satisfied by binary16, binary32 and binary64. -/
def FFmt.Good (f : FFmt) : Prop :=
  2 ≤ f.expBits ∧ 1 ≤ f.mantBits ∧ f.bias + f.mantBits ≤ 1075

/-- Interpret a bit pattern of format `f` (IEEE 754 semantics of
`std::bit_cast` to the corresponding native type).  The field extraction
is written with division and remainder by powers of two. -/
def semBits (f : FFmt) (b : Nat) : FVal :=
  let s := b / 2 ^ (f.expBits + f.mantBits) % 2
  let e := b / 2 ^ f.mantBits % 2 ^ f.expBits
  let m := b % 2 ^ f.mantBits
  if e = 2 ^ f.expBits - 1 then
    if m = 0 then .inf (s = 1) else .nan
  else if e = 0 then
    if m = 0 then .zero (s = 1)
    else .fin ((if s = 1 then -1 else 1) * ((m * 2 ^ f.offset : Nat) : Int))
  else
    .fin ((if s = 1 then -1 else 1) * (((2 ^ f.mantBits + m) * 2 ^ (e - 1 + f.offset) : Nat) : Int))

/-- `semBits` at binary16. -/
def sem16 : Nat → FVal := semBits fmt16

/-- `semBits` at binary32. -/
def sem32 : Nat → FVal := semBits fmt32

/-- `semBits` at binary64. -/
def sem64 : Nat → FVal := semBits fmt64

/-- The bit pattern of format `f` holding the nonzero finite value
`v * 2^-1074` exactly, or `none` when `v` is not exactly representable in
`f` (insufficient precision, below the subnormal unit, or above the
largest finite value). -/
def finToBits (f : FFmt) (v : Int) : Option Nat :=
  let a := v.natAbs
  let s : Nat := if v < 0 then 1 else 0
  if a = 0 then none
  else
    let idx := a.size - 1
    if 1074 + f.bias < idx then none
    else if f.offset + f.mantBits ≤ idx then
      let shift := idx - f.mantBits
      if (a >>> shift) <<< shift = a then
        some ((s * 2 ^ f.expBits + (idx - (f.offset + f.mantBits) + 1)) * 2 ^ f.mantBits
          + ((a >>> shift) - 2 ^ f.mantBits))
      else none
    else
      if (a >>> f.offset) <<< f.offset = a then
        some (s * 2 ^ (f.expBits + f.mantBits) + (a >>> f.offset))
      else none

/-- The canonical bit pattern of format `f` holding a semantic value
exactly, or `none` when the value is NaN or not exactly representable. -/
def toBits (f : FFmt) : FVal → Option Nat
  | .nan => none
  | .inf neg =>
    some (((if neg then 1 else 0) * 2 ^ f.expBits + (2 ^ f.expBits - 1)) * 2 ^ f.mantBits)
  | .zero neg => some ((if neg then 1 else 0) * 2 ^ (f.expBits + f.mantBits))
  | .fin v => finToBits f v

/-- Positive quiet NaN pattern of a format. -/
def qNaNBits (f : FFmt) : Nat :=
  (2 ^ f.expBits - 1) * 2 ^ f.mantBits + 2 ^ (f.mantBits - 1)

/-- Negative quiet NaN pattern of a format (`-quiet_NaN()`). -/
def negQNaNBits (f : FFmt) : Nat :=
  2 ^ (f.expBits + f.mantBits) + qNaNBits f

/-- Round-to-nearest-even of the nonzero value `v * 2^-1074` onto format
`f`'s grid, for values that are not exactly representable: the IEEE
rounding performed by a narrowing `static_cast` or by `fhf::pack`.
Overflow produces the signed infinity pattern; total underflow produces
the signed zero pattern. -/
def rtneFin (f : FFmt) (v : Int) : Nat :=
  let a := v.natAbs
  let neg := v < 0
  let idx := a.size - 1
  let shift := max (idx - f.mantBits) f.offset
  let qn := a >>> shift
  let r := a - (qn <<< shift)
  let half := 2 ^ (shift - 1)
  let rounded := if half < r ∨ (r = half ∧ qn % 2 = 1) then qn + 1 else qn
  if rounded = 0 then (toBits f (.zero neg)).getD 0
  else
    match finToBits f ((if neg then -1 else 1) * ((rounded <<< shift : Nat) : Int)) with
    | some b => b
    | none => (toBits f (.inf neg)).getD 0

/-- IEEE conversion of a value of format `f` into format `g`: exact when
the value is representable (widening conversions always are), otherwise
round-to-nearest-even; NaN maps to the quiet NaN pattern.  This models
`static_cast` between the native floating-point types and the
`fhf::pack`/`fhf::unpack` binary16 conversions of the external `fhf`
library (per spec §4.5: packing to / unpacking from IEEE 754 binary16). -/
def fconvert (f g : FFmt) (b : Nat) : Nat :=
  match semBits f b with
  | .nan => qNaNBits g
  | fv =>
    match toBits g fv with
    | some bg => bg
    | none =>
      match fv with
      | .fin v => rtneFin g v
      | _ => 0

/-- `fhf::unpack`: binary16 bits to `float`. -/
def unpackHalf (b16 : Nat) : Nat := fconvert fmt16 fmt32 b16

/-- `fhf::pack`: `float` to binary16 bits. -/
def packHalf (b32 : Nat) : Nat := fconvert fmt32 fmt16 b32

/-- `static_cast<double>(float)`. -/
def promoteSingle (b32 : Nat) : Nat := fconvert fmt32 fmt64 b32

/-- `static_cast<float>(double)`. -/
def demoteDouble (b64 : Nat) : Nat := fconvert fmt64 fmt32 b64

----------------------------------------------------------------------------
-- Floating-point encoding (src/unnamed/part_009, encoding.cpp)
----------------------------------------------------------------------------

/-- `encode(buffer&, float)`: NaN and the infinities get canonical
half-float bytes; otherwise pack to binary16, unpack again, and emit
half-float when the unpacked value equals the original (`half == v`),
single-float otherwise.  Float payloads are never argument-compressed
(`compress = false`). -/
def encodeFloat32 (b32 : Nat) : List Nat :=
  match sem32 b32 with
  | .nan => [0xE0 ||| 0x19, 0x7E, 0x00]
  | .inf neg =>
    if neg then [0xE0 ||| 0x19, 0xFC, 0x00] else [0xE0 ||| 0x19, 0x7C, 0x00]
  | _ =>
    let binaryHalf := packHalf b32
    let half := unpackHalf binaryHalf
    if FVal.beqF (sem32 half) (sem32 b32) then
      encodeArgument16 0xE0 binaryHalf false
    else
      encodeArgument32 0xE0 b32 false

/-- `encode(buffer&, double)`: NaN and the infinities get canonical
half-float bytes; otherwise demote to `float` (`single = (float)v`,
compared against the original through the exact float-to-double
promotion), then further attempt the binary16 demotion as in the `float`
overload; emit at the narrowest width whose round-trip compares equal. -/
def encodeFloat64 (b64 : Nat) : List Nat :=
  match sem64 b64 with
  | .nan => [0xE0 ||| 0x19, 0x7E, 0x00]
  | .inf neg =>
    if neg then [0xE0 ||| 0x19, 0xFC, 0x00] else [0xE0 ||| 0x19, 0x7C, 0x00]
  | _ =>
    let single := demoteDouble b64
    if FVal.beqF (sem64 (promoteSingle single)) (sem64 b64) then
      let binaryHalf := packHalf single
      let half := unpackHalf binaryHalf
      if FVal.beqF (sem32 half) (sem32 single) then
        encodeArgument16 0xE0 binaryHalf false
      else
        encodeArgument32 0xE0 single false
    else
      encodeArgument64 0xE0 b64 false

/-- `decode(read_buffer&, bool&)` from `src/unnamed/part_006`
(decoding.cpp): require major type 7 and simple value true/false. -/
def decodeBool (buf : ReadBuf) : Except Err Bool × ReadBuf :=
  match headRead buf with
  | (.error e, buf1) => (.error e, buf1)
  | (.ok h, buf1) =>
    if h.type ≠ 0xE0 then (.error .unexpectedType, buf1)
    else if h.simple = 0x15 then (.ok true, buf1)
    else if h.simple = 0x14 then (.ok false, buf1)
    else (.error .unexpectedType, buf1)

----------------------------------------------------------------------------
-- Byte strings, text strings (encoding.h / type_traits.h decode overloads)
----------------------------------------------------------------------------

/-- `encode(buffer&, buffer::const_span_t)` (byte string): major-2 head
with the length as argument, then the raw bytes. -/
def encodeBytes (v : List Nat) : List Nat :=
  encodeArgument 0x40 v.length ++ v

/-- `encode(buffer&, std::string_view)` (text string): major-3 head with
the length as argument, then the bytes.  `std::string` encodes through
this overload; no UTF-8 validation, no NUL trimming on `string_view`. -/
def encodeText (v : List Nat) : List Nat :=
  encodeArgument 0x60 v.length ++ v

/-- `decode(read_buffer&, std::vector<std::byte>&, max_size)`: major-2
head, length capped by `maxSize`, then that many raw bytes. -/
def decodeBytes (maxSize : Nat) (buf : ReadBuf) : Except Err (List Nat) × ReadBuf :=
  match headRead buf with
  | (.error e, buf1) => (.error e, buf1)
  | (.ok h, buf1) =>
    if h.type ≠ 0x40 then (.error .unexpectedType, buf1)
    else
      let u64 := h.decodeArgument
      if u64 > maxSize then (.error .bufferOverflow, buf1)
      else if u64 ≠ 0 then
        match readN u64 buf1 with
        | (.ok bytes, buf2) => (.ok bytes, buf2)
        | (.error e, buf2) => (.error e, buf2)
      else (.ok [], buf1)

/-- `decode(read_buffer&, std::array<std::byte, Extent>&)`: the decoded
length must equal the extent (`buffer_overflow` if larger,
`buffer_underflow` if smaller). -/
def decodeBytesN (extent : Nat) (buf : ReadBuf) : Except Err (List Nat) × ReadBuf :=
  match headRead buf with
  | (.error e, buf1) => (.error e, buf1)
  | (.ok h, buf1) =>
    if h.type ≠ 0x40 then (.error .unexpectedType, buf1)
    else
      let u64 := h.decodeArgument
      if u64 > extent then (.error .bufferOverflow, buf1)
      else if u64 < extent then (.error .bufferUnderflow, buf1)
      else if u64 ≠ 0 then
        match readN u64 buf1 with
        | (.ok bytes, buf2) => (.ok bytes, buf2)
        | (.error e, buf2) => (.error e, buf2)
      else (.ok [], buf1)

/-- `decode(read_buffer&, std::basic_string&, max_size)`: major-3 head,
length capped by `maxSize`, then the raw bytes (a transparent octet
pipe). -/
def decodeText (maxSize : Nat) (buf : ReadBuf) : Except Err (List Nat) × ReadBuf :=
  match headRead buf with
  | (.error e, buf1) => (.error e, buf1)
  | (.ok h, buf1) =>
    if h.type ≠ 0x60 then (.error .unexpectedType, buf1)
    else
      let u64 := h.decodeArgument
      if u64 > maxSize then (.error .bufferOverflow, buf1)
      else if u64 ≠ 0 then
        match readN u64 buf1 with
        | (.ok bytes, buf2) => (.ok bytes, buf2)
        | (.error e, buf2) => (.error e, buf2)
      else (.ok [], buf1)

----------------------------------------------------------------------------
-- Floating-point decoding (src/unnamed/part_006, decoding.cpp)
----------------------------------------------------------------------------

/-- The signed-infinity pattern of a format. -/
def infBits (f : FFmt) (neg : Bool) : Nat :=
  (toBits f (.inf neg)).getD 0

/-- `detail::decode_hp<T>`: the three canonical half-float special
patterns are recognised explicitly; every other half unpacks through
`fhf::unpack` and is cast exactly to the target width (`tw` is 32 or
64). -/
def decodeHPBits (h : Head) (tw : Nat) : Nat :=
  let f := if tw = 32 then fmt32 else fmt64
  if h.extraBytes = 2 ∧ h.argument = [0x7C, 0x00] then infBits f false
  else if h.extraBytes = 2 ∧ h.argument = [0xFC, 0x00] then infBits f true
  else if h.extraBytes = 2 ∧ h.argument = [0x7E, 0x00] then qNaNBits f
  else
    let binaryHalf := h.decodeArgument % 2 ^ 16
    if tw = 32 then unpackHalf binaryHalf
    else promoteSingle (unpackHalf binaryHalf)

/-- `detail::decode_sp<T>`: canonical single-float specials (the NaN
pattern yields `-quiet_NaN()`), otherwise bitcast and widen exactly. -/
def decodeSPBits (h : Head) (tw : Nat) : Nat :=
  let f := if tw = 32 then fmt32 else fmt64
  if h.extraBytes = 4 ∧ h.argument = [0x7F, 0x80, 0x00, 0x00] then infBits f false
  else if h.extraBytes = 4 ∧ h.argument = [0xFF, 0x80, 0x00, 0x00] then infBits f true
  else if h.extraBytes = 4 ∧ h.argument = [0x7F, 0xC0, 0x00, 0x00] then negQNaNBits f
  else
    let binarySingle := h.decodeArgument % 2 ^ 32
    if tw = 32 then binarySingle else promoteSingle binarySingle

/-- `detail::decode_dp<T>`: canonical double-float specials (the NaN
pattern yields `-quiet_NaN()`), otherwise bitcast and narrow with the
`casted != result` precision check (`value_not_representable` when
narrowing loses precision, which by NaN-compare semantics also rejects
non-canonical NaNs). -/
def decodeDPBits (h : Head) (tw : Nat) : Except Err Nat :=
  let f := if tw = 32 then fmt32 else fmt64
  if h.extraBytes = 8 ∧ h.argument = [0x7F, 0xF0, 0x00, 0x00, 0x00, 0x00, 0x00, 0x00] then
    .ok (infBits f false)
  else if h.extraBytes = 8 ∧ h.argument = [0xFF, 0xF0, 0x00, 0x00, 0x00, 0x00, 0x00, 0x00] then
    .ok (infBits f true)
  else if h.extraBytes = 8 ∧ h.argument = [0x7F, 0xF8, 0x00, 0x00, 0x00, 0x00, 0x00, 0x00] then
    .ok (negQNaNBits f)
  else
    let result := h.decodeArgument
    let casted := if tw = 32 then demoteDouble result else result
    if ¬ FVal.beqF (semBits f casted) (sem64 result) then .error .valueNotRepresentable
    else .ok casted

/-- `detail::decode_float<T>` / `decode(read_buffer&, float& or double&)`:
read the head, require major 7, dispatch on the simple subtype. -/
def decodeFloatW (tw : Nat) (buf : ReadBuf) : Except Err Nat × ReadBuf :=
  match headRead buf with
  | (.error e, buf1) => (.error e, buf1)
  | (.ok h, buf1) =>
    if h.type ≠ 0xE0 then (.error .unexpectedType, buf1)
    else if h.simple = 0x19 then (.ok (decodeHPBits h tw), buf1)
    else if h.simple = 0x1A then (.ok (decodeSPBits h tw), buf1)
    else if h.simple = 0x1B then (decodeDPBits h tw, buf1)
    else (.error .unexpectedType, buf1)

----------------------------------------------------------------------------
-- Map keys: C++ operator< for the supported key types
----------------------------------------------------------------------------

/-- `std::string` `operator<`: lexicographic byte comparison. -/
def lexLtBytes : List Nat → List Nat → Bool
  | [], [] => false
  | [], _ :: _ => true
  | _ :: _, [] => false
  | a :: as, b :: bs => a < b || (a = b && lexLtBytes as bs)

/-- The static universe of value shapes the codec dispatches over
(unsigned/signed integers by width, bool, float/double, dynamic and
fixed-extent byte strings, text strings, vectors, `std::map`, optionals,
reflected records, and type-ID-tagged variants). -/
inductive Ty where
  | uintT (w : Nat)
  | sintT (w : Nat)
  | boolT
  | f32T
  | f64T
  | bytesT
  | bytesNT (n : Nat)
  | textT
  | arrT (t : Ty)
  | mapT (k v : Ty)
  | optT (t : Ty)
  | recT (fields : List Ty)
  | variantT (alts : List (Nat × Ty))

/-- A runtime value of some shape of the universe.  `variantV` records
the active alternative's type ID, `boxedV` is the `cbor::boxed<T>`
wrapper. -/
inductive Item where
  | uintV (n : Nat)
  | sintV (i : Int)
  | boolV (b : Bool)
  | f32V (bits : Nat)
  | f64V (bits : Nat)
  | bytesV (l : List Nat)
  | bytesNV (l : List Nat)
  | textV (l : List Nat)
  | arrV (es : List Item)
  | mapV (ps : List (Item × Item))
  | optV (o : Option Item)
  | recV (fs : List Item)
  | variantV (id : Nat) (payload : Item)
  | boxedV (id : Nat) (payload : Item)

/-- `operator<` on map keys of the supported key shapes. -/
def keyLt : Item → Item → Bool
  | .uintV a, .uintV b => a < b
  | .sintV a, .sintV b => a < b
  | .boolV a, .boolV b => !a && b
  | .textV a, .textV b => lexLtBytes a b
  | _, _ => false

/-- `std::map::insert`: ordered insertion that keeps an existing key. -/
def mapInsert : List (Item × Item) → Item → Item → List (Item × Item)
  | [], k, v => [(k, v)]
  | (k0, v0) :: rest, k, v =>
    if keyLt k k0 then (k, v) :: (k0, v0) :: rest
    else if keyLt k0 k then (k0, v0) :: mapInsert rest k v
    else (k0, v0) :: rest

----------------------------------------------------------------------------
-- Generic encoding (include/cbor/encoding.h)
----------------------------------------------------------------------------

mutual

/-- The `cbor::encode` overload set applied to a universe value, against
an unlimited sink: integers and enums through the argument encoder,
strings and byte strings length-prefixed, arrays (major 4) and maps
(major 5) with their element and pair counts, absent optionals as `F6`
and present ones as the bare payload, reflected records as their members
in index order with no array head, variants as the type ID followed by
the active alternative's payload (`encoding.h` lines 335-355, which write
no array head), and `boxed<T>` as the two-element `[id, payload]` array
(`encoding.h` lines 471-493). -/
def encodeItem : Item → List Nat
  | .uintV n => encodeUInt n
  | .sintV i => encodeSInt i
  | .boolV b => encodeBool b
  | .f32V bits => encodeFloat32 bits
  | .f64V bits => encodeFloat64 bits
  | .bytesV l => encodeBytes l
  | .bytesNV l => encodeBytes l
  | .textV l => encodeText l
  | .arrV es => encodeArgument 0x80 es.length ++ encodeItems es
  | .mapV ps => encodeArgument 0xA0 ps.length ++ encodePairs ps
  | .optV none => encodeNull
  | .optV (some x) => encodeItem x
  | .recV fs => encodeItems fs
  | .variantV id p => encodeUInt id ++ encodeItem p
  | .boxedV id p => encodeArgument 0x80 2 ++ encodeUInt id ++ encodeItem p

/-- Elements of an array or members of a record, in order. -/
def encodeItems : List Item → List Nat
  | [] => []
  | x :: xs => encodeItem x ++ encodeItems xs

/-- Map entries: key then value, in the container's iteration order. -/
def encodePairs : List (Item × Item) → List Nat
  | [] => []
  | (k, v) :: ps => encodeItem k ++ encodeItem v ++ encodePairs ps

end

----------------------------------------------------------------------------
-- Well-typedness of a value at a shape
----------------------------------------------------------------------------

mutual

/-- The value inhabits the C++ static type described by the shape:
integers in range of their width, byte values below 256, fixed extents
matched, container sizes within `size_t`, variant payloads well-typed at
the alternative carrying their type ID. -/
def wt : Ty → Item → Bool
  | .uintT w, .uintV n => decide (n < 2 ^ w)
  | .sintT w, .sintV i => decide (-(2 ^ (w - 1) : Int) ≤ i ∧ i < 2 ^ (w - 1))
  | .boolT, .boolV _ => true
  | .f32T, .f32V bits => decide (bits < 2 ^ 32)
  | .f64T, .f64V bits => decide (bits < 2 ^ 64)
  | .bytesT, .bytesV l => decide (l.length < 2 ^ 64) && l.all (· < 256)
  | .bytesNT n, .bytesNV l => decide (l.length = n ∧ n < 2 ^ 64) && l.all (· < 256)
  | .textT, .textV l => decide (l.length < 2 ^ 64) && l.all (· < 256)
  | .arrT t, .arrV es => decide (es.length < 2 ^ 64) && es.all (fun x => wt t x)
  | .mapT k v, .mapV ps =>
    decide (ps.length < 2 ^ 64) && ps.all (fun kv => wt k kv.1 && wt v kv.2)
  | .optT _, .optV none => true
  | .optT t, .optV (some x) => wt t x
  | .recT fs, .recV vs => wtFields fs vs
  | .variantT alts, .variantV id p => wtAlt alts id p
  | _, _ => false

/-- Record members are well-typed field by field. -/
def wtFields : List Ty → List Item → Bool
  | [], [] => true
  | f :: fs, x :: xs => wt f x && wtFields fs xs
  | _, _ => false

/-- The variant's payload is well-typed at the alternative declaring its
type ID. -/
def wtAlt : List (Nat × Ty) → Nat → Item → Bool
  | [], _, _ => false
  | (tid, t) :: rest, id, p =>
    if tid = id then wt t p else wtAlt rest id p

end

----------------------------------------------------------------------------
-- Generic decoding (type_traits.h decode overloads + part_003/part_006)
----------------------------------------------------------------------------

/-- `static_cast<std::uint64_t>` of a signed 64-bit value (the decoded
variant type ID is passed to `try_decode` as `std::uint64_t`). -/
def toU64 (i : Int) : Nat := (i.emod (2 ^ 64)).toNat

/-- The element loop of `decode(read_buffer&, std::vector<T>&)`: decode
`n` elements in order with the element decoder. -/
def decodeListN (dec : ReadBuf → Except Err Item × ReadBuf) :
    Nat → ReadBuf → Except Err (List Item) × ReadBuf
  | 0, buf => (.ok [], buf)
  | n + 1, buf =>
    match dec buf with
    | (.error e, b) => (.error e, b)
    | (.ok x, b) =>
      match decodeListN dec n b with
      | (.ok xs, b2) => (.ok (x :: xs), b2)
      | (.error e, b2) => (.error e, b2)

/-- The pair loop of the dictionary decoder: decode `n` key/value pairs
in order, inserting each into the accumulated `std::map` state. -/
def decodePairsN (decK decV : ReadBuf → Except Err Item × ReadBuf) :
    Nat → List (Item × Item) → ReadBuf → Except Err (List (Item × Item)) × ReadBuf
  | 0, acc, buf => (.ok acc, buf)
  | n + 1, acc, buf =>
    match decK buf with
    | (.error e, b) => (.error e, b)
    | (.ok k, b) =>
      match decV b with
      | (.error e, b2) => (.error e, b2)
      | (.ok v, b2) => decodePairsN decK decV n (mapInsert acc k v) b2

mutual

/-- The `cbor::decode` overload set at a shape of the universe:
integers/bool/floats/strings through their decoders above; arrays
(part_003 vector decode: major-4 head, count-bounded element loop); maps
(part_003 dictionary decode: major-5 head, pair loop with `std::map`
insertion); optionals (`type_traits.h` lines 312-344: probe one byte for
`F6` under a rollback scope, otherwise decode the payload from the
original position); records (`type_traits.h` lines 464-473: members in
order, no array head); variants (`type_traits.h` lines 410-438: exact
`0x82` header byte, signed-64 type ID, first matching alternative). -/
def decodeTy : Ty → ReadBuf → Except Err Item × ReadBuf
  | .uintT w, buf =>
    (match decodeUIntW w buf with
     | (.ok n, b) => (.ok (.uintV n), b)
     | (.error e, b) => (.error e, b))
  | .sintT w, buf =>
    (match decodeSIntW w buf with
     | (.ok i, b) => (.ok (.sintV i), b)
     | (.error e, b) => (.error e, b))
  | .boolT, buf =>
    (match decodeBool buf with
     | (.ok b0, b) => (.ok (.boolV b0), b)
     | (.error e, b) => (.error e, b))
  | .f32T, buf =>
    (match decodeFloatW 32 buf with
     | (.ok bits, b) => (.ok (.f32V bits), b)
     | (.error e, b) => (.error e, b))
  | .f64T, buf =>
    (match decodeFloatW 64 buf with
     | (.ok bits, b) => (.ok (.f64V bits), b)
     | (.error e, b) => (.error e, b))
  | .bytesT, buf =>
    (match decodeBytes (2 ^ 64 - 1) buf with
     | (.ok l, b) => (.ok (.bytesV l), b)
     | (.error e, b) => (.error e, b))
  | .bytesNT n, buf =>
    (match decodeBytesN n buf with
     | (.ok l, b) => (.ok (.bytesNV l), b)
     | (.error e, b) => (.error e, b))
  | .textT, buf =>
    (match decodeText (2 ^ 64 - 1) buf with
     | (.ok l, b) => (.ok (.textV l), b)
     | (.error e, b) => (.error e, b))
  | .arrT t, buf =>
    (match headRead buf with
     | (.error e, b) => (.error e, b)
     | (.ok h, b) =>
       if h.type ≠ 0x80 then (.error .unexpectedType, b)
       else
         let u64 := h.decodeArgument
         if u64 > 2 ^ 64 - 1 then (.error .bufferOverflow, b)
         else
           match decodeListN (fun bb => decodeTy t bb) u64 b with
           | (.ok es, b2) => (.ok (.arrV es), b2)
           | (.error e, b2) => (.error e, b2))
  | .mapT k v, buf =>
    (match headRead buf with
     | (.error e, b) => (.error e, b)
     | (.ok h, b) =>
       if h.type ≠ 0xA0 then (.error .unexpectedType, b)
       else
         let numPairs := h.decodeArgument
         if numPairs > 2 ^ 64 - 1 then (.error .bufferOverflow, b)
         else
           match decodePairsN (fun bb => decodeTy k bb) (fun bb => decodeTy v bb)
               numPairs [] b with
           | (.ok ps, b2) => (.ok (.mapV ps), b2)
           | (.error e, b2) => (.error e, b2))
  | .optT t, buf =>
    (match read1 buf with
     | (.error e, b) => (.error e, b)
     | (.ok byte, b) =>
       if byte = 0xF6 then (.ok (.optV none), b)
       else
         match decodeTy t buf with
         | (.ok x, b2) => (.ok (.optV (some x)), b2)
         | (.error e, b2) => (.error e, b2))
  | .recT fs, buf =>
    (match decodeFields fs buf with
     | (.ok vs, b) => (.ok (.recV vs), b)
     | (.error e, b) => (.error e, b))
  | .variantT alts, buf =>
    (match read1 buf with
     | (.error e, b) => (.error e, b)
     | (.ok headByte, b) =>
       if headByte ≠ 0x82 then (.error .decodingError, b)
       else
         match decodeSIntW 64 b with
         | (.error e, b2) => (.error e, b2)
         | (.ok typeId, b2) =>
           match tryDecodeAll alts (toU64 typeId) b2 (.recV []) with
           | (.ok _, v2, b3) => (.ok v2, b3)
           | (.error e, _, b3) => (.error e, b3))

/-- `detail::decode_all` of the struct decoder: members in order into
their mutable accessors. -/
def decodeFields : List Ty → ReadBuf → Except Err (List Item) × ReadBuf
  | [], buf => (.ok [], buf)
  | f :: fs, buf =>
    (match decodeTy f buf with
     | (.error e, b) => (.error e, b)
     | (.ok x, b) =>
       match decodeFields fs b with
       | (.ok xs, b2) => (.ok (x :: xs), b2)
       | (.error e, b2) => (.error e, b2))

/-- `detail::try_decode` folded over the variant's alternatives
(`type_traits.h` lines 363-391): skip alternatives whose type ID differs,
decode the payload of the first match, assign the out-parameter only on
success, and report `unexpected_type` when no alternative matches. -/
def tryDecodeAll : List (Nat × Ty) → Nat → ReadBuf → Item →
    Except Err Unit × Item × ReadBuf
  | [], _, buf, v => (.error .unexpectedType, v, buf)
  | (tid, t) :: rest, typeId, buf, v =>
    if tid ≠ typeId then tryDecodeAll rest typeId buf v
    else
      match decodeTy t buf with
      | (.ok res, b2) => (.ok (), .variantV tid res, b2)
      | (.error e, b2) => (.error e, v, b2)

end

/-- `decode(read_buffer&, std::variant<T...>&)` viewed with its
out-parameter (`type_traits.h` lines 410-438): the returned `Item` is the
final state of the caller's variant `v`. -/
def decodeVariantInto (alts : List (Nat × Ty)) (buf : ReadBuf) (v : Item) :
    Except Err Unit × Item × ReadBuf :=
  match read1 buf with
  | (.error e, b) => (.error e, v, b)
  | (.ok headByte, b) =>
    if headByte ≠ 0x82 then (.error .decodingError, v, b)
    else
      match decodeSIntW 64 b with
      | (.error e, b2) => (.error e, v, b2)
      | (.ok typeId, b2) => tryDecodeAll alts (toU64 typeId) b2 v

----------------------------------------------------------------------------
-- Spec-side head shape (for the smallest-form claim)
----------------------------------------------------------------------------

/-- Spec §8 *Smallest-form*: the number of extra argument bytes the claim
predicts for an unsigned argument `a`.  This follows the claim text and is
compared against the source-derived `encodeArgument`. -/
def specHeadWidth (a : Nat) : Nat :=
  if a ≤ 23 then 0
  else if a ≤ 0xFF then 1
  else if a ≤ 0xFFFF then 2
  else if a ≤ 0xFFFFFFFF then 4
  else 8

/-- The big-endian `w`-byte rendering of `a` (claim-side formalisation of
"the following w bytes hold a in big-endian order"). -/
def beBytes (w a : Nat) : List Nat :=
  (List.range w).map (fun i => (a >>> (8 * (w - 1 - i))) &&& 0xFF)

/-- The additional-information value announcing `w` extra argument bytes:
`0x18 + log2-index of w`. -/
def widthTag (w : Nat) : Nat :=
  if w = 1 then 0x18 else if w = 2 then 0x19 else if w = 4 then 0x1A else 0x1B

----------------------------------------------------------------------------
-- Round-trip side conditions (for the amended round-trip claim)
----------------------------------------------------------------------------

/-- The first byte of an encoding exists and differs from the null byte
`F6`: the optional decoder probes one byte and takes any `F6` as an absent
optional, so a present optional round-trips only under this condition. -/
def headNotNull : List Nat → Bool
  | [] => false
  | b :: _ => b ≠ 0xF6

/-- Strictly increasing map keys: the iteration-order invariant of the
`std::map` the encoder walks. -/
def sortedKeys : List (Item × Item) → Bool
  | [] => true
  | [_] => true
  | a :: b :: rest => keyLt a.1 b.1 && sortedKeys (b :: rest)

/-- Shapes usable as dictionary keys: those whose `operator<` the
`std::map` decode relies on (machine-width integers, bool, strings). -/
def keyKindB : Ty → Bool
  | .uintT w => decide (w ≤ 64)
  | .sintT w => decide (1 ≤ w ∧ w ≤ 64)
  | .boolT => true
  | .textT => true
  | _ => false

mutual

/-- Shapes whose decode inverts encode: machine integer widths, key-kind
map keys, and no variant anywhere (the variant decoder demands the `0x82`
header byte the variant encoder never writes). -/
def goodTy : Ty → Bool
  | .uintT w => decide (w ≤ 64)
  | .sintT w => decide (1 ≤ w ∧ w ≤ 64)
  | .boolT => true
  | .f32T => true
  | .f64T => true
  | .bytesT => true
  | .bytesNT _ => true
  | .textT => true
  | .arrT t => goodTy t
  | .mapT k v => keyKindB k && goodTy v
  | .optT t => goodTy t
  | .recT fs => goodTyList fs
  | .variantT _ => false

/-- `goodTy` over record member shapes. -/
def goodTyList : List Ty → Bool
  | [] => true
  | t :: ts => goodTy t && goodTyList ts

end

mutual

/-- Value-level round-trip conditions: no NaN floats (a NaN re-reads as
the canonical quiet NaN pattern and compares unequal anyway), map entries
strictly key-sorted (the `std::map` container invariant), and no present
optional whose payload encoding starts with the null byte `F6` (the
nested-optional ambiguity). -/
def valOk : Item → Bool
  | .uintV _ => true
  | .sintV _ => true
  | .boolV _ => true
  | .f32V bits => decide (sem32 bits ≠ FVal.nan)
  | .f64V bits => decide (sem64 bits ≠ FVal.nan)
  | .bytesV _ => true
  | .bytesNV _ => true
  | .textV _ => true
  | .arrV es => valOkList es
  | .mapV ps => sortedKeys ps && valOkPairs ps
  | .optV none => true
  | .optV (some x) => headNotNull (encodeItem x) && valOk x
  | .recV fs => valOkList fs
  | .variantV _ _ => false
  | .boxedV _ _ => false

/-- `valOk` over array elements or record members. -/
def valOkList : List Item → Bool
  | [] => true
  | x :: xs => valOk x && valOkList xs

/-- `valOk` over map entries. -/
def valOkPairs : List (Item × Item) → Bool
  | [] => true
  | (k, v) :: ps => valOk k && valOk v && valOkPairs ps

end

----------------------------------------------------------------------------
-- Read-buffer primitive lemmas
----------------------------------------------------------------------------

theorem List.getD_of_drop_eq_cons {l : List Nat} {n b : Nat} {rest : List Nat}
    (h : l.drop n = b :: rest) : l.getD n 0 = b := by
  induction l generalizing n with
  | nil => simp at h
  | cons a t ih =>
    cases n with
    | zero => simp at h; simp [h.1]
    | succ m =>
      simp only [List.drop_succ_cons] at h
      simpa using ih h

theorem ReadBuf.remaining_length (buf : ReadBuf) :
    buf.remaining.length = buf.data.length - buf.pos := by
  simp [ReadBuf.remaining]

theorem ReadBuf.remaining_advance (buf : ReadBuf) (n : Nat) :
    (buf.advance n).remaining = buf.remaining.drop n := by
  simp [ReadBuf.advance, ReadBuf.remaining, List.drop_drop, Nat.add_comm]

/-- A one-byte read on a non-exhausted buffer succeeds and advances the
cursor by one. -/
theorem read1_cons (buf : ReadBuf) (b : Nat) (rest : List Nat)
    (h : buf.remaining = b :: rest) :
    read1 buf = (.ok b, buf.advance 1) := by
  have hlen : ¬ (buf.data.length - buf.pos = 0) := by
    have hc := congrArg List.length h
    simp only [ReadBuf.remaining, List.length_drop, List.length_cons] at hc
    omega
  unfold read1
  rw [if_neg hlen]
  have hb : buf.data.getD buf.pos 0 = b :=
    List.getD_of_drop_eq_cons (l := buf.data) (n := buf.pos) h
  rw [hb]
  rfl

/-- A span read for `n` available bytes succeeds, returns exactly those
bytes and advances the cursor by `n`. -/
theorem readN_split (buf : ReadBuf) (n : Nat) (pre rest : List Nat)
    (h : buf.remaining = pre ++ rest) (hl : pre.length = n) :
    readN n buf = (.ok pre, buf.advance n) := by
  have hlen : ¬ (buf.data.length - buf.pos < n) := by
    have hc := congrArg List.length h
    simp only [ReadBuf.remaining, List.length_drop, List.length_append] at hc
    omega
  unfold readN
  rw [if_neg hlen]
  have htake : (buf.data.drop buf.pos).take n = pre := by
    have : buf.data.drop buf.pos = pre ++ rest := h
    rw [this, ← hl, List.take_left]
  simp [htake, ReadBuf.advance]

----------------------------------------------------------------------------
-- Byte-arithmetic helpers
----------------------------------------------------------------------------

theorem and_255_of_le (a : Nat) (h : a ≤ 255) : a &&& 255 = a := by
  have h2 := Nat.and_pow_two_sub_one_eq_mod a 8
  norm_num at h2
  omega

theorem beBytes_one (a : Nat) : beBytes 1 a = [a &&& 0xFF] := by
  simp [beBytes]

theorem beBytes_two (a : Nat) :
    beBytes 2 a = [(a >>> 8) &&& 0xFF, a &&& 0xFF] := by
  simp [beBytes, List.range_succ]

theorem beBytes_four (a : Nat) :
    beBytes 4 a =
      [(a >>> 24) &&& 0xFF, (a >>> 16) &&& 0xFF, (a >>> 8) &&& 0xFF, a &&& 0xFF] := by
  simp [beBytes, List.range_succ]

theorem beBytes_eight (a : Nat) :
    beBytes 8 a =
      [(a >>> 56) &&& 0xFF, (a >>> 48) &&& 0xFF, (a >>> 40) &&& 0xFF, (a >>> 32) &&& 0xFF,
       (a >>> 24) &&& 0xFF, (a >>> 16) &&& 0xFF, (a >>> 8) &&& 0xFF, a &&& 0xFF] := by
  simp [beBytes, List.range_succ]

----------------------------------------------------------------------------
-- C4: smallest-form head encoding
----------------------------------------------------------------------------

/-- C4: for every unsigned 64-bit argument `a` and every major type, the
encoded head occupies exactly `1 + w` bytes with
`w = specHeadWidth a ∈ {0,1,2,4,8}`; for `a ≤ 23` the single byte is
`(major<<5)|a`, otherwise the first byte is `(major<<5)|(0x18 + log2-index
of w)` followed by the `w` big-endian bytes of `a`. -/
theorem encode_argument_smallest_form (m a : Nat) (hm : m < 8) (ha : a < 2 ^ 64) :
    (encodeArgument (m <<< 5) a).length = 1 + specHeadWidth a ∧
    (a ≤ 23 → encodeArgument (m <<< 5) a = [(m <<< 5) ||| a]) ∧
    (24 ≤ a →
      encodeArgument (m <<< 5) a =
        ((m <<< 5) ||| widthTag (specHeadWidth a)) :: beBytes (specHeadWidth a) a) := by
  by_cases h0 : a ≤ 23
  · have h1 : a ≤ 0xFF := by omega
    refine ⟨?_, fun _ => ?_, fun h => by omega⟩ <;>
      simp [encodeArgument, encodeArgument8, specHeadWidth, ZERO_EXTRA_BYTES_VALUE_LIMIT,
        h0, h1]
  · by_cases h1 : a ≤ 0xFF
    · have e : encodeArgument (m <<< 5) a = [(m <<< 5) ||| 0x18, a] := by
        simp [encodeArgument, encodeArgument8, ZERO_EXTRA_BYTES_VALUE_LIMIT, h0, h1]
      have hsw : specHeadWidth a = 1 := by simp [specHeadWidth, h0, h1]
      refine ⟨by simp [e, hsw], fun h => by omega, fun _ => ?_⟩
      rw [e, hsw, beBytes_one, and_255_of_le a h1]
      simp [widthTag]
    · by_cases h2 : a ≤ 0xFFFF
      · have e : encodeArgument (m <<< 5) a =
            [(m <<< 5) ||| 0x19, (a >>> 8) &&& 0xFF, a &&& 0xFF] := by
          simp [encodeArgument, encodeArgument16, ONE_EXTRA_BYTE_VALUE_LIMIT, h1, h2]
        have hsw : specHeadWidth a = 2 := by simp [specHeadWidth, h0, h1, h2]
        refine ⟨by simp [e, hsw], fun h => by omega, fun _ => ?_⟩
        rw [e, hsw, beBytes_two]
        simp [widthTag]
      · by_cases h3 : a ≤ 0xFFFFFFFF
        · have e : encodeArgument (m <<< 5) a =
              [(m <<< 5) ||| 0x1A, (a >>> 24) &&& 0xFF, (a >>> 16) &&& 0xFF,
               (a >>> 8) &&& 0xFF, a &&& 0xFF] := by
            simp [encodeArgument, encodeArgument32, ONE_EXTRA_BYTE_VALUE_LIMIT,
              TWO_EXTRA_BYTES_VALUE_LIMIT, h1, h2, h3]
          have hsw : specHeadWidth a = 4 := by simp [specHeadWidth, h0, h1, h2, h3]
          refine ⟨by simp [e, hsw], fun h => by omega, fun _ => ?_⟩
          rw [e, hsw, beBytes_four]
          simp [widthTag]
        · have e : encodeArgument (m <<< 5) a =
              [(m <<< 5) ||| 0x1B,
               (a >>> 56) &&& 0xFF, (a >>> 48) &&& 0xFF, (a >>> 40) &&& 0xFF,
               (a >>> 32) &&& 0xFF, (a >>> 24) &&& 0xFF, (a >>> 16) &&& 0xFF,
               (a >>> 8) &&& 0xFF, a &&& 0xFF] := by
            simp [encodeArgument, encodeArgument64, ONE_EXTRA_BYTE_VALUE_LIMIT,
              TWO_EXTRA_BYTES_VALUE_LIMIT, FOUR_EXTRA_BYTES_VALUE_LIMIT, h1, h2, h3]
          have hsw : specHeadWidth a = 8 := by simp [specHeadWidth, h0, h1, h2, h3]
          refine ⟨by simp [e, hsw], fun h => by omega, fun _ => ?_⟩
          rw [e, hsw, beBytes_eight]
          simp [widthTag]

/-- C4 witness: the head for argument 1000 with major type 0 is
`19 03 E8`, two extra bytes. -/
theorem encode_argument_smallest_form_witness :
    (0 : Nat) < 8 ∧ (1000 : Nat) < 2 ^ 64 ∧
    (encodeArgument (0 <<< 5) 1000).length = 1 + specHeadWidth 1000 ∧
    (24 ≤ 1000 →
      encodeArgument (0 <<< 5) 1000 =
        ((0 <<< 5) ||| widthTag (specHeadWidth 1000)) :: beBytes (specHeadWidth 1000) 1000) :=
  ⟨by norm_num, by norm_num,
   (encode_argument_smallest_form 0 1000 (by norm_num) (by norm_num)).1,
   (encode_argument_smallest_form 0 1000 (by norm_num) (by norm_num)).2.2⟩

----------------------------------------------------------------------------
-- C5: reserved additional-information values / break stop code
----------------------------------------------------------------------------

/-- C5 counterexample: the byte `0xFF` carries additional information 31
(the break stop code), yet `head::read` accepts it (it falls into the
`default:` branch of the switch with zero extra bytes) instead of failing
with `ill_formed` as the claim states. -/
theorem head_break_info_accepted :
    headRead ⟨[0xFF], 0⟩ = (.ok ⟨0xFF, 0xE0, 0x1F, 0, []⟩, ⟨[0xFF], 1⟩) := by
  decide

/-- C5 amended: a head byte with additional information 28, 29 or 30 fails
with `ill_formed`; a head byte with additional information 31 is accepted
by `head::read` with zero extra argument bytes (its argument decodes as
31), not rejected. -/
theorem head_reserved_ill_formed_break_accepted (buf : ReadBuf) (b : Nat)
    (rest : List Nat) (hb : buf.remaining = b :: rest) :
    ((b &&& 0x1F = 28 ∨ b &&& 0x1F = 29 ∨ b &&& 0x1F = 30) →
      headRead buf = (.error .illFormed, buf.advance 1)) ∧
    (b &&& 0x1F = 31 →
      headRead buf = (.ok ⟨b, b &&& 0xE0, b &&& 0x1F, 0, []⟩, buf.advance 1)) := by
  have hr := read1_cons buf b rest hb
  constructor
  · intro hres
    unfold headRead
    rw [hr]
    simp only
    rw [if_pos (by omega)]
  · intro h31
    unfold headRead
    rw [hr]
    simp only
    rw [if_neg (by omega)]
    have hextra :
        (if b &&& 0x1F = 0x18 then 1
         else if b &&& 0x1F = 0x19 then 2
         else if b &&& 0x1F = 0x1A then 4
         else if b &&& 0x1F = 0x1B then 8
         else 0) = 0 := by
      rw [h31]; norm_num
    rw [hextra, readN_split (buf.advance 1) 0 [] (buf.advance 1).remaining (by simp) rfl]
    simp [ReadBuf.advance]

/-- C5 witness: byte `0x7C` (major 3, info 28) is rejected as ill-formed. -/
theorem head_reserved_ill_formed_witness :
    headRead ⟨[0x7C], 0⟩ = (.error .illFormed, ⟨[0x7C], 1⟩) :=
  (head_reserved_ill_formed_break_accepted ⟨[0x7C], 0⟩ 0x7C [] (by decide)).1
    (by decide)

----------------------------------------------------------------------------
-- C3: cursor position on decode failure
----------------------------------------------------------------------------

/-- C3 counterexample: decoding an unsigned integer from the truncated
input `19 01` (a two-extra-byte head with only one argument byte present)
fails with `buffer_underflow`, but the cursor is left at position 1, not
at its pre-call position 0: the head byte consumed by `head::read` is not
rolled back. -/
theorem failed_decode_moves_cursor :
    (decodeUIntW 64 ⟨[0x19, 0x01], 0⟩).1 = .error .bufferUnderflow ∧
    ((decodeUIntW 64 ⟨[0x19, 0x01], 0⟩).2).pos = 1 ∧
    ¬ ((decodeUIntW 64 ⟨[0x19, 0x01], 0⟩).2).pos = 0 := by
  decide

/-- C3 amended: cursor invariance on failure holds for the read-buffer
primitives (a failing `read_buffer::read` advances nothing), but not for
composite decodes, which may leave the cursor after the bytes consumed
before the failure was detected. -/
theorem read_buffer_primitive_reads_atomic (buf : ReadBuf) (n : Nat) :
    (∀ e, (read1 buf).1 = .error e → (read1 buf).2 = buf) ∧
    (∀ e, (readN n buf).1 = .error e → (readN n buf).2 = buf) := by
  constructor
  · intro e h
    unfold read1 at h ⊢
    by_cases hc : buf.data.length - buf.pos = 0
    · rw [if_pos hc]
    · rw [if_neg hc] at h
      simp at h
  · intro e h
    unfold readN at h ⊢
    by_cases hc : buf.data.length - buf.pos < n
    · rw [if_pos hc]
    · rw [if_neg hc] at h
      simp at h

/-- C3 amended witness: a one-byte read on an exhausted buffer fails and
leaves the buffer untouched. -/
theorem read_buffer_primitive_reads_atomic_witness :
    (read1 ⟨[0x01], 1⟩).2 = ⟨[0x01], 1⟩ :=
  (read_buffer_primitive_reads_atomic ⟨[0x01], 1⟩ 0).1 .bufferUnderflow (by decide)

----------------------------------------------------------------------------
-- C7: decoding into a signed integer type
----------------------------------------------------------------------------

/-- C7: decoding into the signed `w`-bit integer type: a major-0 head
yields its argument when it is at most `max(T) = 2^(w-1)-1` and fails with
`value_not_representable` otherwise; a major-1 head with argument `a`
yields `-1-a` when `a ≤ i64::MAX` and `-1-a ≥ min(T) = -2^(w-1)`, fails
with `value_not_representable` when `a > i64::MAX` or `-1-a < min(T)`; any
other major type fails with `unexpected_type`. -/
theorem signed_decode_spec (w : Nat) (hw : w = 8 ∨ w = 16 ∨ w = 32 ∨ w = 64)
    (buf buf1 : ReadBuf) (h : Head) (hread : headRead buf = (.ok h, buf1)) :
    (h.type = 0x00 → h.decodeArgument ≤ 2 ^ (w - 1) - 1 →
        decodeSIntW w buf = (.ok (h.decodeArgument : Int), buf1)) ∧
    (h.type = 0x00 → 2 ^ (w - 1) - 1 < h.decodeArgument →
        decodeSIntW w buf = (.error .valueNotRepresentable, buf1)) ∧
    (h.type = 0x20 → h.decodeArgument ≤ 2 ^ 63 - 1 →
        -(2 ^ (w - 1) : Int) ≤ -1 - (h.decodeArgument : Int) →
        decodeSIntW w buf = (.ok (-1 - (h.decodeArgument : Int)), buf1)) ∧
    (h.type = 0x20 → 2 ^ 63 - 1 < h.decodeArgument →
        decodeSIntW w buf = (.error .valueNotRepresentable, buf1)) ∧
    (h.type = 0x20 → h.decodeArgument ≤ 2 ^ 63 - 1 →
        -1 - (h.decodeArgument : Int) < -(2 ^ (w - 1) : Int) →
        decodeSIntW w buf = (.error .valueNotRepresentable, buf1)) ∧
    (h.type ≠ 0x00 → h.type ≠ 0x20 →
        decodeSIntW w buf = (.error .unexpectedType, buf1)) := by
  refine ⟨?_, ?_, ?_, ?_, ?_, ?_⟩
  · intro ht hle
    unfold decodeSIntW
    simp only [hread]
    rw [if_pos ht, if_neg (by omega)]
  · intro ht hgt
    unfold decodeSIntW
    simp only [hread]
    rw [if_pos ht, if_pos (by omega)]
  · intro ht hle hge
    unfold decodeSIntW
    simp only [hread]
    rw [if_neg (by rw [ht]; norm_num), if_neg (by simp [ht]), if_neg (by omega),
      if_neg (by omega)]
  · intro ht hgt
    unfold decodeSIntW
    simp only [hread]
    rw [if_neg (by rw [ht]; norm_num), if_neg (by simp [ht]), if_pos (by omega)]
  · intro ht hle hlt
    unfold decodeSIntW
    simp only [hread]
    rw [if_neg (by rw [ht]; norm_num), if_neg (by simp [ht]), if_neg (by omega),
      if_pos (by omega)]
  · intro ht0 ht1
    unfold decodeSIntW
    simp only [hread]
    rw [if_neg ht0, if_pos ht1]

/-- C7 witness: decoding `38 80` (major 1, argument 0x80) into a 16-bit
signed integer yields -129, and into an 8-bit signed integer fails with
`value_not_representable`. -/
theorem signed_decode_spec_witness :
    decodeSIntW 16 ⟨[0x38, 0x80], 0⟩ = (.ok (-129 : Int), ⟨[0x38, 0x80], 2⟩) ∧
    decodeSIntW 8 ⟨[0x38, 0x80], 0⟩ =
      (.error .valueNotRepresentable, ⟨[0x38, 0x80], 2⟩) := by
  constructor
  · have hm := (signed_decode_spec 16 (by norm_num) ⟨[0x38, 0x80], 0⟩ ⟨[0x38, 0x80], 2⟩
      ⟨0x38, 0x20, 0x18, 1, [0x80]⟩ (by decide)).2.2.1 (by decide) (by decide) (by decide)
    simpa using hm
  · exact (signed_decode_spec 8 (by norm_num) ⟨[0x38, 0x80], 0⟩ ⟨[0x38, 0x80], 2⟩
      ⟨0x38, 0x20, 0x18, 1, [0x80]⟩ (by decide)).2.2.2.2.1 (by decide) (by decide)
      (by decide)

----------------------------------------------------------------------------
-- IEEE 754 bit-level lemmas
----------------------------------------------------------------------------

theorem fmt16_good : fmt16.Good := by
  norm_num [FFmt.Good, FFmt.bias, fmt16]

theorem fmt32_good : fmt32.Good := by
  norm_num [FFmt.Good, FFmt.bias, fmt32]

theorem fmt64_good : fmt64.Good := by
  norm_num [FFmt.Good, FFmt.bias, fmt64]

theorem size_bounds (a : Nat) (ha : a ≠ 0) : 2 ^ (a.size - 1) ≤ a ∧ a < 2 ^ a.size := by
  constructor
  · apply Nat.lt_size.mp
    have h0 : a.size ≠ 0 := by simpa [Nat.size_eq_zero] using ha
    omega
  · exact Nat.size_le.mp le_rfl

theorem size_of_bounds {a k : Nat} (hlo : 2 ^ k ≤ a) (hhi : a < 2 ^ (k + 1)) :
    a.size = k + 1 := by
  have h1 : a.size ≤ k + 1 := Nat.size_le.mpr hhi
  have h2 : k < a.size := Nat.lt_size.mpr hlo
  omega

/-- Extraction of the sign, exponent and mantissa fields of a composed
IEEE bit pattern. -/
theorem semBits_fields (f : FFmt) (s e m : Nat) (hs : s ≤ 1) (he : e < 2 ^ f.expBits)
    (hm : m < 2 ^ f.mantBits) :
    semBits f ((s * 2 ^ f.expBits + e) * 2 ^ f.mantBits + m) =
      (if e = 2 ^ f.expBits - 1 then (if m = 0 then FVal.inf (s = 1) else FVal.nan)
       else if e = 0 then
         (if m = 0 then FVal.zero (s = 1)
          else FVal.fin ((if s = 1 then -1 else 1) * ((m * 2 ^ f.offset : Nat) : Int)))
       else FVal.fin ((if s = 1 then -1 else 1) *
         (((2 ^ f.mantBits + m) * 2 ^ (e - 1 + f.offset) : Nat) : Int))) := by
  have hmB : 0 < 2 ^ f.mantBits := Nat.two_pow_pos _
  have heB : 0 < 2 ^ f.expBits := Nat.two_pow_pos _
  have hmod : ((s * 2 ^ f.expBits + e) * 2 ^ f.mantBits + m) % 2 ^ f.mantBits = m := by
    rw [Nat.add_comm, Nat.add_mul_mod_self_right, Nat.mod_eq_of_lt hm]
  have hdiv : ((s * 2 ^ f.expBits + e) * 2 ^ f.mantBits + m) / 2 ^ f.mantBits
      = s * 2 ^ f.expBits + e := by
    rw [Nat.add_comm, Nat.add_mul_div_right _ _ hmB, Nat.div_eq_of_lt hm, Nat.zero_add]
  have hemod : (s * 2 ^ f.expBits + e) % 2 ^ f.expBits = e := by
    rw [Nat.add_comm, Nat.add_mul_mod_self_right, Nat.mod_eq_of_lt he]
  have hsdiv : ((s * 2 ^ f.expBits + e) * 2 ^ f.mantBits + m) / 2 ^ (f.expBits + f.mantBits)
      = s := by
    rw [Nat.pow_add, Nat.mul_comm (2 ^ f.expBits), ← Nat.div_div_eq_div_mul, hdiv,
      Nat.add_comm, Nat.add_mul_div_right _ _ heB, Nat.div_eq_of_lt he, Nat.zero_add]
  have hsmod : s % 2 = s := Nat.mod_eq_of_lt (by omega)
  unfold semBits
  simp only [hmod, hdiv, hemod, hsdiv, hsmod]

/-- Any bit pattern below `2^(1+expBits+mantBits)` is the composition of
its fields. -/
theorem pattern_decompose (f : FFmt) (b : Nat) (hb : b < 2 ^ (1 + f.expBits + f.mantBits)) :
    b = ((b / 2 ^ (f.expBits + f.mantBits)) * 2 ^ f.expBits
          + b / 2 ^ f.mantBits % 2 ^ f.expBits) * 2 ^ f.mantBits + b % 2 ^ f.mantBits ∧
    b / 2 ^ (f.expBits + f.mantBits) ≤ 1 := by
  constructor
  · have h2 : b / 2 ^ f.mantBits / 2 ^ f.expBits = b / 2 ^ (f.expBits + f.mantBits) := by
      rw [Nat.div_div_eq_div_mul, ← Nat.pow_add, Nat.add_comm]
    calc b = (b / 2 ^ f.mantBits) * 2 ^ f.mantBits + b % 2 ^ f.mantBits :=
            (Nat.div_add_mod' _ _).symm
      _ = _ := by
            rw [← h2]
            congr 2
            exact (Nat.div_add_mod' _ _).symm
  · have hlt : b < 2 ^ (f.expBits + f.mantBits) * 2 := by
      rw [show 1 + f.expBits + f.mantBits = (f.expBits + f.mantBits) + 1 by omega,
        Nat.pow_succ] at hb
      omega
    have := Nat.div_lt_of_lt_mul hlt
    omega

/-- Canonicity: interpreting a non-NaN bit pattern and re-encoding it
returns the same pattern. -/
theorem toBits_sem (f : FFmt) (hf : f.Good) (b : Nat)
    (hb : b < 2 ^ (1 + f.expBits + f.mantBits)) (hnan : semBits f b ≠ .nan) :
    toBits f (semBits f b) = some b := by
  obtain ⟨hfe, hfm, hfb⟩ := hf
  have hB1 : 1 ≤ f.bias := by
    have h2 : 2 ≤ 2 ^ (f.expBits - 1) := by
      calc 2 = 2 ^ 1 := rfl
        _ ≤ 2 ^ (f.expBits - 1) := Nat.pow_le_pow_right (by norm_num) (by omega)
    simp only [FFmt.bias]
    omega
  have hOsum : f.offset + (f.bias + f.mantBits) = 1075 := by
    simp only [FFmt.offset]
    omega
  have h2B : 2 * f.bias + 2 = 2 ^ f.expBits := by
    have h2 : 2 * 2 ^ (f.expBits - 1) = 2 ^ f.expBits := by
      rw [← Nat.pow_succ']
      congr 1
      omega
    have h1 : 1 ≤ 2 ^ (f.expBits - 1) := Nat.one_le_two_pow
    simp only [FFmt.bias]
    omega
  obtain ⟨s, e, m, hsle, he, hm, hid⟩ :
      ∃ s e m, s ≤ 1 ∧ e < 2 ^ f.expBits ∧ m < 2 ^ f.mantBits ∧
        b = (s * 2 ^ f.expBits + e) * 2 ^ f.mantBits + m := by
    obtain ⟨h1, h2⟩ := pattern_decompose f b hb
    exact ⟨_, _, _, h2, Nat.mod_lt _ (Nat.two_pow_pos _),
      Nat.mod_lt _ (Nat.two_pow_pos _), h1⟩
  subst hid
  rw [semBits_fields f s e m hsle he hm] at hnan ⊢
  by_cases hemax : e = 2 ^ f.expBits - 1
  · by_cases hm0 : m = 0
    · rw [if_pos hemax, if_pos hm0, hemax, hm0]
      simp only [toBits]
      rcases (by omega : s = 0 ∨ s = 1) with h | h <;> subst h <;> simp
    · exfalso
      apply hnan
      rw [if_pos hemax, if_neg hm0]
  · by_cases he0 : e = 0
    · by_cases hm0 : m = 0
      · rw [if_neg hemax, if_pos he0, if_pos hm0, he0, hm0]
        simp only [toBits]
        rcases (by omega : s = 0 ∨ s = 1) with h | h <;> subst h <;>
          simp [Nat.pow_add, Nat.mul_assoc]
      · -- subnormal pattern
        rw [if_neg hemax, if_pos he0, if_neg hm0, he0]
        have hvpos : (0 : Nat) < m * 2 ^ f.offset :=
          Nat.mul_pos (by omega) (Nat.two_pow_pos _)
        have hN : (if s = 1 then (-1 : Int) else 1).natAbs = 1 := by
          rcases (by omega : s = 0 ∨ s = 1) with h | h <;> subst h <;> simp
        have habs : ((if s = 1 then (-1 : Int) else 1)
              * ((m * 2 ^ f.offset : Nat) : Int)).natAbs = m * 2 ^ f.offset := by
          rw [Int.natAbs_mul, hN, Nat.one_mul, Int.natAbs_ofNat]
        have hsgn : (if ((if s = 1 then (-1 : Int) else 1)
              * ((m * 2 ^ f.offset : Nat) : Int) < 0) then (1 : Nat) else 0) = s := by
          rcases (by omega : s = 0 ∨ s = 1) with h | h <;> subst h
          · rw [if_neg]
            rw [if_neg (by norm_num : ¬ (0 : Nat) = 1)]
            omega
          · rw [if_pos]
            have hx : (0 : Int) < ((m * 2 ^ f.offset : Nat) : Int) := by
              exact_mod_cast hvpos
            rw [if_pos rfl]
            omega
        have hsize : (m * 2 ^ f.offset).size = m.size + f.offset := by
          rw [← Nat.shiftLeft_eq, Nat.size_shiftLeft hm0]
        have hmsz : m.size ≤ f.mantBits := Nat.size_le.mpr hm
        have hmsz1 : 1 ≤ m.size := by
          rcases Nat.eq_zero_or_pos m.size with h | h
          · exact absurd (Nat.size_eq_zero.mp h) hm0
          · exact h
        have hshr : (m * 2 ^ f.offset) >>> f.offset = m := by
          rw [Nat.shiftRight_eq_div_pow]
          exact Nat.mul_div_cancel m (Nat.two_pow_pos _)
        simp only [toBits, finToBits, habs, hsgn, hsize]
        rw [if_neg (by omega), if_neg (by omega), if_neg (by omega),
          if_pos (by rw [hshr, Nat.shiftLeft_eq]), hshr]
        congr 1
        rw [Nat.pow_add]
        ring
    · -- normal pattern
      rw [if_neg hemax, if_neg he0]
      have hval : (0 : Nat) < 2 ^ f.mantBits + m := by positivity
      have hvpos : (0 : Nat) < (2 ^ f.mantBits + m) * 2 ^ (e - 1 + f.offset) :=
        Nat.mul_pos hval (Nat.two_pow_pos _)
      have hN : (if s = 1 then (-1 : Int) else 1).natAbs = 1 := by
        rcases (by omega : s = 0 ∨ s = 1) with h | h <;> subst h <;> simp
      have habs : ((if s = 1 then (-1 : Int) else 1)
            * (((2 ^ f.mantBits + m) * 2 ^ (e - 1 + f.offset) : Nat) : Int)).natAbs
          = (2 ^ f.mantBits + m) * 2 ^ (e - 1 + f.offset) := by
        rw [Int.natAbs_mul, hN, Nat.one_mul, Int.natAbs_ofNat]
      have hsgn : (if ((if s = 1 then (-1 : Int) else 1)
            * (((2 ^ f.mantBits + m) * 2 ^ (e - 1 + f.offset) : Nat) : Int) < 0)
          then (1 : Nat) else 0) = s := by
        rcases (by omega : s = 0 ∨ s = 1) with h | h <;> subst h
        · rw [if_neg]
          rw [if_neg (by norm_num : ¬ (0 : Nat) = 1)]
          omega
        · rw [if_pos]
          have hx : (0 : Int) < (((2 ^ f.mantBits + m) * 2 ^ (e - 1 + f.offset) : Nat) : Int) := by
            exact_mod_cast hvpos
          rw [if_pos rfl]
          omega
      have hszm : (2 ^ f.mantBits + m).size = f.mantBits + 1 :=
        size_of_bounds (by omega) (by rw [Nat.pow_succ]; omega)
      have hsize : ((2 ^ f.mantBits + m) * 2 ^ (e - 1 + f.offset)).size
          = f.mantBits + 1 + (e - 1 + f.offset) := by
        rw [← Nat.shiftLeft_eq, Nat.size_shiftLeft (by omega), hszm]
      have he2 : e ≤ 2 ^ f.expBits - 2 := by omega
      have he1 : 1 ≤ e := by omega
      have hshr : ((2 ^ f.mantBits + m) * 2 ^ (e - 1 + f.offset)) >>> (e - 1 + f.offset)
          = 2 ^ f.mantBits + m := by
        rw [Nat.shiftRight_eq_div_pow]
        exact Nat.mul_div_cancel _ (Nat.two_pow_pos _)
      have hsheq : f.mantBits + 1 + (e - 1 + f.offset) - 1 - f.mantBits = e - 1 + f.offset := by
        omega
      simp only [toBits, finToBits, habs, hsgn, hsize, hsheq]
      rw [if_neg (by omega), if_neg (by omega), if_pos (by omega),
        if_pos (by rw [hshr, Nat.shiftLeft_eq]), hshr]
      have hef : f.mantBits + 1 + (e - 1 + f.offset) - 1 - (f.offset + f.mantBits) + 1 = e := by
        omega
      rw [hef]
      congr 2
      omega

theorem compose_lt (f : FFmt) (s e m : Nat) (hs : s ≤ 1) (he : e < 2 ^ f.expBits)
    (hm : m < 2 ^ f.mantBits) :
    (s * 2 ^ f.expBits + e) * 2 ^ f.mantBits + m < 2 ^ (1 + f.expBits + f.mantBits) := by
  have hX : s * 2 ^ f.expBits + e + 1 ≤ 2 ^ (1 + f.expBits) := by
    rw [Nat.pow_add, Nat.pow_one]
    have : s * 2 ^ f.expBits ≤ 2 ^ f.expBits := by
      calc s * 2 ^ f.expBits ≤ 1 * 2 ^ f.expBits := Nat.mul_le_mul_right _ hs
        _ = 2 ^ f.expBits := Nat.one_mul _
    omega
  calc (s * 2 ^ f.expBits + e) * 2 ^ f.mantBits + m
      < (s * 2 ^ f.expBits + e) * 2 ^ f.mantBits + 2 ^ f.mantBits := by omega
    _ = (s * 2 ^ f.expBits + e + 1) * 2 ^ f.mantBits := by ring
    _ ≤ 2 ^ (1 + f.expBits) * 2 ^ f.mantBits := Nat.mul_le_mul_right _ hX
    _ = 2 ^ (1 + f.expBits + f.mantBits) := by rw [← Nat.pow_add]

/-- Correctness: a pattern produced by `toBits` means exactly the encoded
value, and is in range of the format's width. -/
theorem sem_toBits (f : FFmt) (hf : f.Good) (fv : FVal) (b : Nat)
    (h : toBits f fv = some b) :
    semBits f b = fv ∧ b < 2 ^ (1 + f.expBits + f.mantBits) := by
  obtain ⟨hfe, hfm, hfb⟩ := hf
  have hB1 : 1 ≤ f.bias := by
    have h2 : 2 ≤ 2 ^ (f.expBits - 1) := by
      calc 2 = 2 ^ 1 := rfl
        _ ≤ 2 ^ (f.expBits - 1) := Nat.pow_le_pow_right (by norm_num) (by omega)
    simp only [FFmt.bias]
    omega
  have hOsum : f.offset + (f.bias + f.mantBits) = 1075 := by
    simp only [FFmt.offset]
    omega
  have h2B : 2 * f.bias + 2 = 2 ^ f.expBits := by
    have h2 : 2 * 2 ^ (f.expBits - 1) = 2 ^ f.expBits := by
      rw [← Nat.pow_succ']
      congr 1
      omega
    have h1 : 1 ≤ 2 ^ (f.expBits - 1) := Nat.one_le_two_pow
    simp only [FFmt.bias]
    omega
  have heBpos : (1 : Nat) ≤ 2 ^ f.expBits := Nat.one_le_two_pow
  have hmBpos : (0 : Nat) < 2 ^ f.mantBits := Nat.two_pow_pos _
  cases fv with
  | nan => simp [toBits] at h
  | inf neg =>
    simp only [toBits, Option.some.injEq] at h
    subst h
    have hs : (if neg then (1 : Nat) else 0) ≤ 1 := by cases neg <;> simp
    have hfields := semBits_fields f (if neg then 1 else 0) (2 ^ f.expBits - 1) 0
      hs (by omega) hmBpos
    rw [Nat.add_zero] at hfields
    constructor
    · rw [hfields, if_pos rfl, if_pos rfl]
      cases neg <;> simp
    · have := compose_lt f (if neg then 1 else 0) (2 ^ f.expBits - 1) 0 hs (by omega) hmBpos
      omega
  | zero neg =>
    simp only [toBits, Option.some.injEq] at h
    subst h
    have hs : (if neg then (1 : Nat) else 0) ≤ 1 := by cases neg <;> simp
    have hfields := semBits_fields f (if neg then 1 else 0) 0 0 hs (by omega) hmBpos
    constructor
    · have hb0 : (if neg then (1 : Nat) else 0) * 2 ^ (f.expBits + f.mantBits)
          = ((if neg then (1 : Nat) else 0) * 2 ^ f.expBits + 0) * 2 ^ f.mantBits + 0 := by
        rw [Nat.pow_add]
        ring
      rw [hb0, hfields, if_neg (by omega), if_pos rfl, if_pos rfl]
      cases neg <;> simp
    · have := compose_lt f (if neg then 1 else 0) 0 0 hs (by omega) hmBpos
      have hb0 : (if neg then (1 : Nat) else 0) * 2 ^ (f.expBits + f.mantBits)
          = ((if neg then (1 : Nat) else 0) * 2 ^ f.expBits + 0) * 2 ^ f.mantBits + 0 := by
        rw [Nat.pow_add]
        ring
      omega
  | fin v =>
    simp only [toBits] at h
    unfold finToBits at h
    by_cases ha0 : v.natAbs = 0
    · rw [if_pos ha0] at h
      exact absurd h (by simp)
    · rw [if_neg ha0] at h
      have hszpos : 1 ≤ v.natAbs.size := by
        rcases Nat.eq_zero_or_pos v.natAbs.size with hz | hz
        · exact absurd (Nat.size_eq_zero.mp hz) ha0
        · exact hz
      obtain ⟨halo, hahi⟩ := size_bounds v.natAbs ha0
      by_cases hov : 1074 + f.bias < v.natAbs.size - 1
      · rw [if_pos hov] at h
        exact absurd h (by simp)
      · rw [if_neg hov] at h
        by_cases hnrm : f.offset + f.mantBits ≤ v.natAbs.size - 1
        · -- normal encoding
          rw [if_pos hnrm] at h
          by_cases hex : (v.natAbs >>> (v.natAbs.size - 1 - f.mantBits))
              <<< (v.natAbs.size - 1 - f.mantBits) = v.natAbs
          · rw [if_pos hex] at h
            simp only [Option.some.injEq] at h
            subst h
            have hXlo : 2 ^ f.mantBits ≤ v.natAbs >>> (v.natAbs.size - 1 - f.mantBits) := by
              rw [Nat.shiftRight_eq_div_pow]
              calc 2 ^ f.mantBits
                  = 2 ^ (v.natAbs.size - 1) / 2 ^ (v.natAbs.size - 1 - f.mantBits) := by
                    rw [Nat.pow_div (by omega) (by norm_num)]
                    congr 1
                    omega
                _ ≤ v.natAbs / 2 ^ (v.natAbs.size - 1 - f.mantBits) :=
                    Nat.div_le_div_right halo
            have hXhi : v.natAbs >>> (v.natAbs.size - 1 - f.mantBits) < 2 ^ (f.mantBits + 1) := by
              rw [Nat.shiftRight_eq_div_pow]
              rw [Nat.div_lt_iff_lt_mul (Nat.two_pow_pos _)]
              calc v.natAbs < 2 ^ v.natAbs.size := hahi
                _ = 2 ^ (f.mantBits + 1) * 2 ^ (v.natAbs.size - 1 - f.mantBits) := by
                    rw [← Nat.pow_add]
                    congr 1
                    omega
            have hs : (if v < 0 then (1 : Nat) else 0) ≤ 1 := by split <;> simp
            have hef1 : 1 ≤ v.natAbs.size - 1 - (f.offset + f.mantBits) + 1 := by omega
            have hefhi : v.natAbs.size - 1 - (f.offset + f.mantBits) + 1 < 2 ^ f.expBits := by
              omega
            have hmf : v.natAbs >>> (v.natAbs.size - 1 - f.mantBits) - 2 ^ f.mantBits
                < 2 ^ f.mantBits := by
              rw [Nat.pow_succ] at hXhi
              omega
            have hfields := semBits_fields f (if v < 0 then 1 else 0)
              (v.natAbs.size - 1 - (f.offset + f.mantBits) + 1)
              (v.natAbs >>> (v.natAbs.size - 1 - f.mantBits) - 2 ^ f.mantBits)
              hs hefhi hmf
            constructor
            · rw [hfields, if_neg (by omega), if_neg (by omega)]
              congr 1
              have hback : 2 ^ f.mantBits
                    + (v.natAbs >>> (v.natAbs.size - 1 - f.mantBits) - 2 ^ f.mantBits)
                  = v.natAbs >>> (v.natAbs.size - 1 - f.mantBits) := by omega
              rw [hback]
              rw [show v.natAbs.size - 1 - (f.offset + f.mantBits) + 1 - 1 + f.offset
                  = v.natAbs.size - 1 - f.mantBits by omega]
              rw [← Nat.shiftLeft_eq, hex]
              have hvne : v ≠ 0 := by
                intro hv0
                apply ha0
                rw [hv0]
                rfl
              rcases lt_or_gt_of_ne hvne with hv | hv
              · rw [if_pos hv, if_pos (show (1 : Nat) = 1 from rfl)]
                omega
              · rw [if_neg (show ¬ v < 0 by omega),
                  if_neg (show ¬ (0 : Nat) = 1 by norm_num)]
                omega
            · exact compose_lt f _ _ _ hs hefhi hmf
          · rw [if_neg hex] at h
            exact absurd h (by simp)
        · -- subnormal encoding
          rw [if_neg hnrm] at h
          by_cases hex : (v.natAbs >>> f.offset) <<< f.offset = v.natAbs
          · rw [if_pos hex] at h
            simp only [Option.some.injEq] at h
            subst h
            have hm2 : v.natAbs >>> f.offset < 2 ^ f.mantBits := by
              rw [Nat.shiftRight_eq_div_pow]
              rw [Nat.div_lt_iff_lt_mul (Nat.two_pow_pos _)]
              calc v.natAbs < 2 ^ v.natAbs.size := hahi
                _ ≤ 2 ^ (f.mantBits + f.offset) := Nat.pow_le_pow_right (by norm_num) (by omega)
                _ = 2 ^ f.mantBits * 2 ^ f.offset := by rw [← Nat.pow_add]
            have hm0 : v.natAbs >>> f.offset ≠ 0 := by
              intro hz
              rw [hz] at hex
              simp [Nat.shiftLeft_eq] at hex
              exact ha0 hex.symm
            have hs : (if v < 0 then (1 : Nat) else 0) ≤ 1 := by split <;> simp
            have hfields := semBits_fields f (if v < 0 then 1 else 0) 0
              (v.natAbs >>> f.offset) hs (by omega) hm2
            have hb0 : (if v < 0 then (1 : Nat) else 0) * 2 ^ (f.expBits + f.mantBits)
                  + v.natAbs >>> f.offset
                = ((if v < 0 then (1 : Nat) else 0) * 2 ^ f.expBits + 0) * 2 ^ f.mantBits
                  + v.natAbs >>> f.offset := by
              rw [Nat.pow_add]
              ring
            constructor
            · rw [hb0, hfields, if_neg (by omega), if_pos rfl, if_neg hm0]
              congr 1
              rw [← Nat.shiftLeft_eq, hex]
              have hvne : v ≠ 0 := by
                intro hv0
                apply ha0
                rw [hv0]
                rfl
              rcases lt_or_gt_of_ne hvne with hv | hv
              · rw [if_pos hv, if_pos (show (1 : Nat) = 1 from rfl)]
                omega
              · rw [if_neg (show ¬ v < 0 by omega),
                  if_neg (show ¬ (0 : Nat) = 1 by norm_num)]
                omega
            · have := compose_lt f (if v < 0 then 1 else 0) 0 (v.natAbs >>> f.offset)
                hs (by omega) hm2
              omega
          · rw [if_neg hex] at h
            exact absurd h (by simp)

----------------------------------------------------------------------------
-- C6: the dynamic buffer's cap check uses capacity(), not size()
----------------------------------------------------------------------------

/-- C6: `ensure_capacity` measures the caller vector's allocated
`capacity()` instead of its committed `size()`.  Both directions of the
claim fail: (1) over a caller vector pre-reserved to 100 bytes with cap 2,
a 10-byte write succeeds and commits 10 bytes past the cap; (2) over a
fresh vector with cap 10 (the constructor reserves
`min(initial_size 8, 10) = 8`), writing 5 bytes and then 5 more fails with
`buffer_overflow` even though the committed size would be exactly the
cap. -/
theorem dynamic_buffer_cap_check_uses_capacity :
    ((dynamicBufferMake ⟨[], 100⟩ (some 2)).write
        [1, 2, 3, 4, 5, 6, 7, 8, 9, 10]).1 = .ok () ∧
    (((dynamicBufferMake ⟨[], 100⟩ (some 2)).write
        [1, 2, 3, 4, 5, 6, 7, 8, 9, 10]).2).vec.data.length = 10 ∧
    (2 : Nat) < 10 ∧
    (((dynamicBufferMake ⟨[], 0⟩ (some 10)).write [1, 2, 3, 4, 5]).2.write
        [6, 7, 8, 9, 10]).1 = .error .bufferOverflow ∧
    ((((dynamicBufferMake ⟨[], 0⟩ (some 10)).write [1, 2, 3, 4, 5]).2).vec.data.length
        + 5 : Nat) ≤ 10 := by
  decide

----------------------------------------------------------------------------
-- Head round trip: reading back an encoded argument
----------------------------------------------------------------------------

theorem ReadBuf.advance_advance (buf : ReadBuf) (a b : Nat) :
    (buf.advance a).advance b = buf.advance (a + b) := by
  simp [ReadBuf.advance, Nat.add_assoc]

theorem beBytes_length (w a : Nat) : (beBytes w a).length = w := by
  simp [beBytes]

theorem lor_shift_byte (A B s t : Nat) (ht : t = s + 8) (hB : B < 256) :
    (A * 2 ^ t) ||| (B <<< s) = (A * 256 + B) * 2 ^ s := by
  subst ht
  have hb : B <<< s < 2 ^ (s + 8) := by
    rw [Nat.shiftLeft_eq, Nat.pow_add]
    calc B * 2 ^ s < 256 * 2 ^ s := mul_lt_mul_of_pos_right hB (Nat.two_pow_pos _)
      _ = 2 ^ s * 2 ^ 8 := by ring
  calc (A * 2 ^ (s + 8)) ||| (B <<< s)
      = (2 ^ (s + 8) * A) ||| (B <<< s) := by rw [Nat.mul_comm]
    _ = 2 ^ (s + 8) * A + B <<< s := (Nat.mul_add_lt_is_or hb A).symm
    _ = (A * 256 + B) * 2 ^ s := by rw [Nat.shiftLeft_eq, Nat.pow_add]; ring

theorem lor_low_byte (A B : Nat) (hB : B < 256) : (A * 2 ^ 8) ||| B = A * 256 + B := by
  calc (A * 2 ^ 8) ||| B = (2 ^ 8 * A) ||| B := by rw [Nat.mul_comm]
    _ = 2 ^ 8 * A + B := (Nat.mul_add_lt_is_or (by norm_num; omega) A).symm
    _ = A * 256 + B := by ring

theorem byte_expr (a k : Nat) : (a >>> k) &&& 0xFF = a / 2 ^ k % 256 := by
  rw [Nat.shiftRight_eq_div_pow]
  have h := Nat.and_pow_two_sub_one_eq_mod (a / 2 ^ k) 8
  norm_num at h
  exact h

theorem decodeArgument_fold_one (raw t s x : Nat) :
    Head.decodeArgument ⟨raw, t, s, 1, [x]⟩ = 0 ||| (x <<< 0) := rfl

theorem decodeArgument_fold_two (raw t s x y : Nat) :
    Head.decodeArgument ⟨raw, t, s, 2, [x, y]⟩ = (0 ||| (x <<< 8)) ||| (y <<< 0) := rfl

theorem decodeArgument_fold_four (raw t s b0 b1 b2 b3 : Nat) :
    Head.decodeArgument ⟨raw, t, s, 4, [b0, b1, b2, b3]⟩
      = (((0 ||| (b0 <<< 24)) ||| (b1 <<< 16)) ||| (b2 <<< 8)) ||| (b3 <<< 0) := rfl

theorem decodeArgument_fold_eight (raw t s b0 b1 b2 b3 b4 b5 b6 b7 : Nat) :
    Head.decodeArgument ⟨raw, t, s, 8, [b0, b1, b2, b3, b4, b5, b6, b7]⟩
      = ((((((((0 ||| (b0 <<< 56)) ||| (b1 <<< 48)) ||| (b2 <<< 40)) ||| (b3 <<< 32))
          ||| (b4 <<< 24)) ||| (b5 <<< 16)) ||| (b6 <<< 8)) ||| (b7 <<< 0)) := rfl

theorem decodeArg_one (raw t s a : Nat) :
    Head.decodeArgument ⟨raw, t, s, 1, [a]⟩ = a := by
  rw [decodeArgument_fold_one, Nat.zero_or, Nat.shiftLeft_zero]

theorem decodeArg_two (raw t s a : Nat) (ha : a < 2 ^ 16) :
    Head.decodeArgument ⟨raw, t, s, 2, [(a >>> 8) &&& 0xFF, a &&& 0xFF]⟩ = a := by
  rw [decodeArgument_fold_two]
  rw [Nat.zero_or, Nat.shiftLeft_zero]
  rw [byte_expr]
  have h0 := Nat.and_pow_two_sub_one_eq_mod a 8
  norm_num at h0
  rw [h0]
  rw [show ((a / 2 ^ 8 % 256) <<< 8) = (a / 2 ^ 8 % 256) * 2 ^ 8 from Nat.shiftLeft_eq _ _]
  rw [lor_low_byte _ _ (Nat.mod_lt _ (by norm_num))]
  omega

theorem decodeArg_four (raw t s a : Nat) (ha : a < 2 ^ 32) :
    Head.decodeArgument ⟨raw, t, s, 4,
      [(a >>> 24) &&& 0xFF, (a >>> 16) &&& 0xFF, (a >>> 8) &&& 0xFF, a &&& 0xFF]⟩ = a := by
  rw [decodeArgument_fold_four]
  rw [Nat.zero_or, Nat.shiftLeft_zero]
  rw [byte_expr, byte_expr, byte_expr]
  have h0 := Nat.and_pow_two_sub_one_eq_mod a 8
  norm_num at h0
  rw [h0]
  have hm : ∀ k : Nat, a / 2 ^ k % 256 < 256 := fun k => Nat.mod_lt _ (by norm_num)
  rw [show ((a / 2 ^ 24 % 256) <<< 24) = (a / 2 ^ 24 % 256) * 2 ^ 24 from Nat.shiftLeft_eq _ _]
  rw [lor_shift_byte _ _ 16 24 (by norm_num) (hm _)]
  rw [lor_shift_byte _ _ 8 16 (by norm_num) (hm _)]
  rw [lor_low_byte _ _ (Nat.mod_lt _ (by norm_num))]
  omega

theorem decodeArg_eight (raw t s a : Nat) (ha : a < 2 ^ 64) :
    Head.decodeArgument ⟨raw, t, s, 8,
      [(a >>> 56) &&& 0xFF, (a >>> 48) &&& 0xFF, (a >>> 40) &&& 0xFF, (a >>> 32) &&& 0xFF,
       (a >>> 24) &&& 0xFF, (a >>> 16) &&& 0xFF, (a >>> 8) &&& 0xFF, a &&& 0xFF]⟩ = a := by
  rw [decodeArgument_fold_eight]
  rw [Nat.zero_or, Nat.shiftLeft_zero]
  rw [byte_expr, byte_expr, byte_expr, byte_expr, byte_expr, byte_expr, byte_expr]
  have h0 := Nat.and_pow_two_sub_one_eq_mod a 8
  norm_num at h0
  rw [h0]
  have hm : ∀ k : Nat, a / 2 ^ k % 256 < 256 := fun k => Nat.mod_lt _ (by norm_num)
  rw [show ((a / 2 ^ 56 % 256) <<< 56) = (a / 2 ^ 56 % 256) * 2 ^ 56 from Nat.shiftLeft_eq _ _]
  rw [lor_shift_byte _ _ 48 56 (by norm_num) (hm _)]
  rw [lor_shift_byte _ _ 40 48 (by norm_num) (hm _)]
  rw [lor_shift_byte _ _ 32 40 (by norm_num) (hm _)]
  rw [lor_shift_byte _ _ 24 32 (by norm_num) (hm _)]
  rw [lor_shift_byte _ _ 16 24 (by norm_num) (hm _)]
  rw [lor_shift_byte _ _ 8 16 (by norm_num) (hm _)]
  rw [lor_low_byte _ _ (Nat.mod_lt _ (by norm_num))]
  omega

theorem major_bits : ∀ ty ∈ ([0x00, 0x20, 0x40, 0x60, 0x80, 0xA0, 0xE0] : List Nat),
    ∀ x, x < 32 →
      (ty ||| x) &&& 0x1F = x ∧ (ty ||| x) &&& 0xE0 = ty := by decide

/-- The five value ranges of the `encode_argument` dispatch, with the
bytes each one emits. -/
theorem encodeArgument_cases (ty a : Nat) :
    (a ≤ 23 ∧ encodeArgument ty a = [ty ||| a]) ∨
    (24 ≤ a ∧ a ≤ 0xFF ∧ encodeArgument ty a = [ty ||| 0x18, a]) ∨
    (0xFF < a ∧ a ≤ 0xFFFF ∧
      encodeArgument ty a = (ty ||| 0x19) :: [(a >>> 8) &&& 0xFF, a &&& 0xFF]) ∨
    (0xFFFF < a ∧ a ≤ 0xFFFFFFFF ∧
      encodeArgument ty a = (ty ||| 0x1A)
        :: [(a >>> 24) &&& 0xFF, (a >>> 16) &&& 0xFF, (a >>> 8) &&& 0xFF, a &&& 0xFF]) ∨
    (0xFFFFFFFF < a ∧
      encodeArgument ty a = (ty ||| 0x1B)
        :: [(a >>> 56) &&& 0xFF, (a >>> 48) &&& 0xFF, (a >>> 40) &&& 0xFF,
            (a >>> 32) &&& 0xFF, (a >>> 24) &&& 0xFF, (a >>> 16) &&& 0xFF,
            (a >>> 8) &&& 0xFF, a &&& 0xFF]) := by
  by_cases h0 : a ≤ 23
  · exact Or.inl ⟨h0, by
      simp [encodeArgument, encodeArgument8, ZERO_EXTRA_BYTES_VALUE_LIMIT, h0,
        show a ≤ 0xFF by omega]⟩
  · by_cases h1 : a ≤ 0xFF
    · exact Or.inr (Or.inl ⟨by omega, h1, by
        simp [encodeArgument, encodeArgument8, ZERO_EXTRA_BYTES_VALUE_LIMIT, h0, h1]⟩)
    · by_cases h2 : a ≤ 0xFFFF
      · exact Or.inr (Or.inr (Or.inl ⟨by omega, h2, by
          simp [encodeArgument, encodeArgument16, ONE_EXTRA_BYTE_VALUE_LIMIT, h1, h2]⟩))
      · by_cases h3 : a ≤ 0xFFFFFFFF
        · exact Or.inr (Or.inr (Or.inr (Or.inl ⟨by omega, h3, by
            simp [encodeArgument, encodeArgument32, ONE_EXTRA_BYTE_VALUE_LIMIT,
              TWO_EXTRA_BYTES_VALUE_LIMIT, h1, h2, h3]⟩)))
        · exact Or.inr (Or.inr (Or.inr (Or.inr ⟨by omega, by
            simp [encodeArgument, encodeArgument64, ONE_EXTRA_BYTE_VALUE_LIMIT,
              TWO_EXTRA_BYTES_VALUE_LIMIT, FOUR_EXTRA_BYTES_VALUE_LIMIT, h1, h2, h3]⟩)))

/-- `head::read` on a buffer whose next bytes are an initial byte with a
non-reserved additional-information value followed by the matching number
of argument bytes. -/
theorem headRead_cons (buf : ReadBuf) (b0 : Nat) (tail rest : List Nat)
    (hbuf : buf.remaining = b0 :: (tail ++ rest))
    (hres : ¬ (b0 &&& 0x1F = 0x1C ∨ b0 &&& 0x1F = 0x1D ∨ b0 &&& 0x1F = 0x1E))
    (hlen : tail.length =
      (if b0 &&& 0x1F = 0x18 then 1
       else if b0 &&& 0x1F = 0x19 then 2
       else if b0 &&& 0x1F = 0x1A then 4
       else if b0 &&& 0x1F = 0x1B then 8
       else 0)) :
    headRead buf = (.ok ⟨b0, b0 &&& 0xE0, b0 &&& 0x1F, tail.length, tail⟩,
      buf.advance (1 + tail.length)) := by
  unfold headRead
  rw [read1_cons buf b0 (tail ++ rest) hbuf]
  dsimp only
  rw [if_neg hres, ← hlen,
    readN_split (buf.advance 1) tail.length tail rest
      (by rw [ReadBuf.remaining_advance, hbuf]; simp) rfl,
    ReadBuf.advance_advance]

/-- Reading back the head encoded by `encode_argument` recovers the major
type and the argument, consuming exactly the encoded bytes. -/
theorem headRead_encodeArgument (ty a : Nat)
    (hty : ty ∈ ([0x00, 0x20, 0x40, 0x60, 0x80, 0xA0, 0xE0] : List Nat))
    (ha : a < 2 ^ 64) (buf : ReadBuf) (rest : List Nat)
    (hbuf : buf.remaining = encodeArgument ty a ++ rest) :
    ∃ hd : Head,
      headRead buf = (.ok hd, buf.advance (encodeArgument ty a).length) ∧
      hd.type = ty ∧ hd.decodeArgument = a := by
  rcases encodeArgument_cases ty a with ⟨h0, he⟩ | ⟨h0, h1, he⟩ | ⟨h0, h1, he⟩
    | ⟨h0, h1, he⟩ | ⟨h0, he⟩
  · obtain ⟨mb1, mb2⟩ := major_bits ty hty a (by omega)
    have hc := headRead_cons buf (ty ||| a) [] rest (by rw [hbuf, he]; rfl)
      (by rw [mb1]; omega)
      (by
        rw [mb1]
        rw [if_neg (show ¬ a = 0x18 by omega), if_neg (show ¬ a = 0x19 by omega),
          if_neg (show ¬ a = 0x1A by omega), if_neg (show ¬ a = 0x1B by omega)]
        rfl)
    refine ⟨⟨ty ||| a, (ty ||| a) &&& 0xE0, (ty ||| a) &&& 0x1F, 0, []⟩, ?_, mb2, ?_⟩
    · rw [he]
      simpa using hc
    · simp [Head.decodeArgument, mb1]
  · obtain ⟨mb1, mb2⟩ := major_bits ty hty 0x18 (by norm_num)
    have hc := headRead_cons buf (ty ||| 0x18) [a] rest (by rw [hbuf, he]; rfl)
      (by rw [mb1]; norm_num)
      (by rw [mb1]; simp)
    refine ⟨⟨ty ||| 0x18, (ty ||| 0x18) &&& 0xE0, (ty ||| 0x18) &&& 0x1F, 1, [a]⟩,
      ?_, mb2, ?_⟩
    · rw [he]
      simpa using hc
    · exact decodeArg_one _ _ _ a
  · obtain ⟨mb1, mb2⟩ := major_bits ty hty 0x19 (by norm_num)
    have hc := headRead_cons buf (ty ||| 0x19) [(a >>> 8) &&& 0xFF, a &&& 0xFF] rest
      (by rw [hbuf, he]; rfl)
      (by rw [mb1]; norm_num)
      (by rw [mb1]; simp)
    refine ⟨⟨ty ||| 0x19, (ty ||| 0x19) &&& 0xE0, (ty ||| 0x19) &&& 0x1F, 2,
      [(a >>> 8) &&& 0xFF, a &&& 0xFF]⟩, ?_, mb2, ?_⟩
    · rw [he]
      simpa using hc
    · exact decodeArg_two _ _ _ a (by omega)
  · obtain ⟨mb1, mb2⟩ := major_bits ty hty 0x1A (by norm_num)
    have hc := headRead_cons buf (ty ||| 0x1A)
      [(a >>> 24) &&& 0xFF, (a >>> 16) &&& 0xFF, (a >>> 8) &&& 0xFF, a &&& 0xFF] rest
      (by rw [hbuf, he]; rfl)
      (by rw [mb1]; norm_num)
      (by rw [mb1]; simp)
    refine ⟨⟨ty ||| 0x1A, (ty ||| 0x1A) &&& 0xE0, (ty ||| 0x1A) &&& 0x1F, 4,
      [(a >>> 24) &&& 0xFF, (a >>> 16) &&& 0xFF, (a >>> 8) &&& 0xFF, a &&& 0xFF]⟩,
      ?_, mb2, ?_⟩
    · rw [he]
      simpa using hc
    · exact decodeArg_four _ _ _ a (by omega)
  · obtain ⟨mb1, mb2⟩ := major_bits ty hty 0x1B (by norm_num)
    have hc := headRead_cons buf (ty ||| 0x1B)
      [(a >>> 56) &&& 0xFF, (a >>> 48) &&& 0xFF, (a >>> 40) &&& 0xFF, (a >>> 32) &&& 0xFF,
       (a >>> 24) &&& 0xFF, (a >>> 16) &&& 0xFF, (a >>> 8) &&& 0xFF, a &&& 0xFF] rest
      (by rw [hbuf, he]; rfl)
      (by rw [mb1]; norm_num)
      (by rw [mb1]; simp)
    refine ⟨⟨ty ||| 0x1B, (ty ||| 0x1B) &&& 0xE0, (ty ||| 0x1B) &&& 0x1F, 8,
      [(a >>> 56) &&& 0xFF, (a >>> 48) &&& 0xFF, (a >>> 40) &&& 0xFF, (a >>> 32) &&& 0xFF,
       (a >>> 24) &&& 0xFF, (a >>> 16) &&& 0xFF, (a >>> 8) &&& 0xFF, a &&& 0xFF]⟩,
      ?_, mb2, ?_⟩
    · rw [he]
      simpa using hc
    · exact decodeArg_eight _ _ _ a ha

----------------------------------------------------------------------------
-- C10: nested optionals are ambiguous
----------------------------------------------------------------------------

/-- C10: the optional encoding is ambiguous under nesting: a present outer
optional holding an absent inner optional encodes as the single byte `F6`
(the present case emits the bare payload, the absent inner payload is the
null byte), and decoding `F6` yields an absent outer optional, so decode
after encode is not the identity for nested optionals. -/
theorem nested_optional_roundtrip_ambiguous :
    encodeItem (.optV (some (.optV none))) = [0xF6] ∧
    decodeTy (.optT (.optT (.uintT 8))) ⟨[0xF6], 0⟩ =
      (.ok (.optV none), ⟨[0xF6], 1⟩) ∧
    Item.optV none ≠ Item.optV (some (.optV none)) := by
  refine ⟨rfl, rfl, fun h => ?_⟩
  injection h with h2
  exact Option.noConfusion h2

----------------------------------------------------------------------------
-- C2: what the variant encoder actually writes
----------------------------------------------------------------------------

/-- C2 counterexample: encoding the variant with active alternative of
type ID `0xDEAF` holding `true` writes the ID head `19 DE AF` directly,
with no two-element array head: the first emitted byte is `0x19`, not
`0x82`.  (The `0x82`-prefixed form is produced only by the separate
`boxed<T>` encoder.) -/
theorem variant_encode_first_byte_not_boxed :
    encodeItem (.variantV 0xDEAF (.boolV true)) = [0x19, 0xDE, 0xAF, 0xF5] ∧
    (encodeItem (.variantV 0xDEAF (.boolV true))).head? ≠ some 0x82 := by
  refine ⟨rfl, ?_⟩
  intro h
  rw [show encodeItem (.variantV 0xDEAF (.boolV true)) = [0x19, 0xDE, 0xAF, 0xF5]
    from rfl] at h
  simp at h

/-- C2 amended: `encode(buffer&, const std::variant<T...>&)` emits the
active alternative's type ID as an unsigned integer followed by the
alternative's payload encoding, with no array head; the boxed two-element
form (leading byte `0x82`) is emitted by `encode(buffer&, const
boxed<T>&)`, not by the variant encoder. -/
theorem variant_encodes_id_then_payload (id : Nat) (p : Item) :
    encodeItem (.variantV id p) = encodeUInt id ++ encodeItem p ∧
    encodeItem (.boxedV id p) = 0x82 :: (encodeUInt id ++ encodeItem p) :=
  ⟨rfl, rfl⟩

----------------------------------------------------------------------------
-- C9: the variant out-parameter is untouched on failure
----------------------------------------------------------------------------

theorem tryDecodeAll_error_keeps_out (alts : List (Nat × Ty)) (tid : Nat)
    (buf : ReadBuf) (v : Item) (e : Err)
    (h : (tryDecodeAll alts tid buf v).1 = .error e) :
    (tryDecodeAll alts tid buf v).2.1 = v := by
  induction alts generalizing buf with
  | nil => rfl
  | cons a rest ih =>
    obtain ⟨atid, t⟩ := a
    by_cases hid : atid ≠ tid
    · rw [show tryDecodeAll ((atid, t) :: rest) tid buf v
          = tryDecodeAll rest tid buf v from by rw [tryDecodeAll, if_pos hid]] at h ⊢
      exact ih buf h
    · rw [show tryDecodeAll ((atid, t) :: rest) tid buf v
          = match decodeTy t buf with
            | (.ok res, b2) => (.ok (), .variantV atid res, b2)
            | (.error e, b2) => (.error e, v, b2) from by
          rw [tryDecodeAll, if_neg hid]] at h ⊢
      rcases hdec : decodeTy t buf with ⟨r, b2⟩
      cases r with
      | ok res =>
        rw [hdec] at h
        exact Except.noConfusion (show Except.ok () = Except.error e from h)
      | error e2 => rfl

/-- C9: if decoding into a variant fails for any reason (input exhausted,
wrong header byte, unknown type identifier, or failure while decoding the
selected alternative's payload), the variant out-parameter is left exactly
as it was before the call: `try_decode` assigns the alternative to the
variant only after its payload has decoded successfully. -/
theorem variant_decode_failure_keeps_out (alts : List (Nat × Ty))
    (buf : ReadBuf) (v : Item) (e : Err)
    (h : (decodeVariantInto alts buf v).1 = .error e) :
    (decodeVariantInto alts buf v).2.1 = v := by
  unfold decodeVariantInto at h ⊢
  rcases h1 : read1 buf with ⟨r1, b⟩
  cases r1 with
  | error e1 => rfl
  | ok headByte =>
    rw [h1] at h
    dsimp only at h ⊢
    by_cases hh : headByte ≠ 0x82
    · rw [if_pos hh]
    · rw [if_neg hh] at h ⊢
      rcases h2 : decodeSIntW 64 b with ⟨r2, b2⟩
      cases r2 with
      | error e2 => rfl
      | ok typeId =>
        rw [h2] at h
        dsimp only at h ⊢
        exact tryDecodeAll_error_keeps_out alts (toU64 typeId) b2 v e h

/-- C9 witness: a variant decode whose selected alternative's payload
fails (the boolean payload byte is `F6`) leaves the out-parameter at its
pre-call value `false`. -/
theorem variant_decode_failure_keeps_out_witness :
    (decodeVariantInto [(1, .boolT)] ⟨[0x82, 0x01, 0xF6], 0⟩
      (.boolV false)).2.1 = .boolV false :=
  variant_decode_failure_keeps_out [(1, .boolT)] ⟨[0x82, 0x01, 0xF6], 0⟩
    (.boolV false) .unexpectedType rfl

----------------------------------------------------------------------------
-- IEEE 754 conversions: exact widening, round-trip narrowing
----------------------------------------------------------------------------

theorem shr_shl_eq_iff (a s : Nat) : ((a >>> s) <<< s = a) ↔ 2 ^ s ∣ a := by
  rw [Nat.shiftRight_eq_div_pow, Nat.shiftLeft_eq]
  constructor
  · intro h
    exact ⟨a / 2 ^ s, by rw [Nat.mul_comm]; exact h.symm⟩
  · intro h
    exact Nat.div_mul_cancel h

/-- A value representable in a narrower format is representable in any
wider one (smaller subnormal offset, larger bias, wider mantissa). -/
theorem toBits_mono (f g : FFmt) (hO : g.offset ≤ f.offset) (hB : f.bias ≤ g.bias)
    (hM : f.mantBits ≤ g.mantBits) (fv : FVal) (b : Nat) (h : toBits f fv = some b) :
    (toBits g fv).isSome := by
  cases fv with
  | nan => simp [toBits] at h
  | inf neg => simp [toBits]
  | zero neg => simp [toBits]
  | fin v =>
    simp only [toBits] at h ⊢
    unfold finToBits at h ⊢
    by_cases ha0 : v.natAbs = 0
    · rw [if_pos ha0] at h
      exact absurd h (by simp)
    · rw [if_neg ha0] at h
      rw [if_neg ha0]
      by_cases hovf : 1074 + f.bias < v.natAbs.size - 1
      · rw [if_pos hovf] at h
        exact absurd h (by simp)
      · rw [if_neg hovf] at h
        rw [if_neg (show ¬ 1074 + g.bias < v.natAbs.size - 1 by omega)]
        by_cases hnf : f.offset + f.mantBits ≤ v.natAbs.size - 1
        · rw [if_pos hnf] at h
          by_cases hex : (v.natAbs >>> (v.natAbs.size - 1 - f.mantBits))
              <<< (v.natAbs.size - 1 - f.mantBits) = v.natAbs
          · have hdvd : 2 ^ (v.natAbs.size - 1 - f.mantBits) ∣ v.natAbs :=
              (shr_shl_eq_iff _ _).mp hex
            by_cases hng : g.offset + g.mantBits ≤ v.natAbs.size - 1
            · rw [if_pos hng, if_pos ((shr_shl_eq_iff _ _).mpr
                (dvd_trans (pow_dvd_pow 2 (by omega)) hdvd))]
              rfl
            · rw [if_neg hng, if_pos ((shr_shl_eq_iff _ _).mpr
                (dvd_trans (pow_dvd_pow 2 (by omega)) hdvd))]
              rfl
          · rw [if_neg hex] at h
            exact absurd h (by simp)
        · rw [if_neg hnf] at h
          by_cases hex : (v.natAbs >>> f.offset) <<< f.offset = v.natAbs
          · have hdvd : 2 ^ f.offset ∣ v.natAbs := (shr_shl_eq_iff _ _).mp hex
            by_cases hng : g.offset + g.mantBits ≤ v.natAbs.size - 1
            · rw [if_pos hng, if_pos ((shr_shl_eq_iff _ _).mpr
                (dvd_trans (pow_dvd_pow 2 (by omega)) hdvd))]
              rfl
            · rw [if_neg hng, if_pos ((shr_shl_eq_iff _ _).mpr
                (dvd_trans (pow_dvd_pow 2 (by omega)) hdvd))]
              rfl
          · rw [if_neg hex] at h
            exact absurd h (by simp)

/-- The pattern produced by round-to-nearest-even is the canonical pattern
of some non-NaN semantic value. -/
theorem rtne_canonical (g : FFmt) (v : Int) :
    ∃ fv, fv ≠ FVal.nan ∧ toBits g fv = some (rtneFin g v) := by
  generalize hq : rtneFin g v = q
  unfold rtneFin at hq
  dsimp only at hq
  split at hq
  all_goals split at hq
  · exact ⟨.zero (decide (v < 0)), by simp, by rw [← hq]; rfl⟩
  · split at hq
    next b hb => exact ⟨.fin _, by simp, by rw [hq] at hb; exact hb⟩
    next hn => exact ⟨.inf (decide (v < 0)), by simp, by rw [← hq]; rfl⟩
  · exact ⟨.zero (decide (v < 0)), by simp, by rw [← hq]; rfl⟩
  · split at hq
    next b hb => exact ⟨.fin _, by simp, by rw [hq] at hb; exact hb⟩
    next hn => exact ⟨.inf (decide (v < 0)), by simp, by rw [← hq]; rfl⟩

theorem beqF_refl (x : FVal) (h : x ≠ .nan) : FVal.beqF x x = true := by
  cases x with
  | nan => exact absurd rfl h
  | inf n => simp [FVal.beqF]
  | zero n => rfl
  | fin v => simp [FVal.beqF]

theorem beqF_eq_cases (x y : FVal) (h : FVal.beqF x y = true) :
    x = y ∨ (∃ a b, x = .zero a ∧ y = .zero b) := by
  cases x <;> cases y <;>
    first
      | exact Or.inr ⟨_, _, rfl, rfl⟩
      | (simp [FVal.beqF] at h; simp [h])
      | simp [FVal.beqF] at h

/-- Widening a representable value converts exactly, to the canonical
pattern in the wider format. -/
theorem widen_exact (f g : FFmt) (hf : f.Good) (hg : g.Good)
    (hO : g.offset ≤ f.offset) (hB : f.bias ≤ g.bias) (hM : f.mantBits ≤ g.mantBits)
    (b : Nat) (hb : b < 2 ^ (1 + f.expBits + f.mantBits)) (hnan : semBits f b ≠ .nan) :
    toBits g (semBits f b) = some (fconvert f g b) ∧
    semBits g (fconvert f g b) = semBits f b ∧
    fconvert f g b < 2 ^ (1 + g.expBits + g.mantBits) := by
  have hcan := toBits_sem f hf b hb hnan
  obtain ⟨bg, hbg⟩ := Option.isSome_iff_exists.mp
    (toBits_mono f g hO hB hM (semBits f b) b hcan)
  have hfc : fconvert f g b = bg := by
    unfold fconvert
    cases hsem : semBits f b with
    | nan => exact absurd hsem hnan
    | inf neg =>
      dsimp only
      rw [hsem] at hbg
      rw [hbg]
    | zero neg =>
      dsimp only
      rw [hsem] at hbg
      rw [hbg]
    | fin v =>
      dsimp only
      rw [hsem] at hbg
      rw [hbg]
  have hsb := sem_toBits g hg (semBits f b) bg hbg
  exact ⟨by rw [hfc]; exact hbg, by rw [hfc]; exact hsb.1, by rw [hfc]; exact hsb.2⟩

/-- Narrowing a value that the narrow format represents exactly: the
conversion gives the canonical narrow pattern, and converting back gives
the original pattern. -/
theorem narrow_some (f g : FFmt) (hf : f.Good) (hg : g.Good)
    (hO : f.offset ≤ g.offset) (hB : g.bias ≤ f.bias) (hM : g.mantBits ≤ f.mantBits)
    (b bg : Nat) (hb : b < 2 ^ (1 + f.expBits + f.mantBits)) (hnan : semBits f b ≠ .nan)
    (hrep : toBits g (semBits f b) = some bg) :
    fconvert f g b = bg ∧ fconvert g f bg = b ∧
    bg < 2 ^ (1 + g.expBits + g.mantBits) ∧ semBits g bg = semBits f b := by
  have h1 : fconvert f g b = bg := by
    unfold fconvert
    cases hsem : semBits f b with
    | nan => exact absurd hsem hnan
    | inf neg =>
      dsimp only
      rw [hsem] at hrep
      rw [hrep]
    | zero neg =>
      dsimp only
      rw [hsem] at hrep
      rw [hrep]
    | fin v =>
      dsimp only
      rw [hsem] at hrep
      rw [hrep]
  have hsg := sem_toBits g hg (semBits f b) bg hrep
  have hcanf := toBits_sem f hf b hb hnan
  have h2 : fconvert g f bg = b := by
    unfold fconvert
    cases hsem : semBits g bg with
    | nan =>
      exact absurd (hsg.1.symm.trans hsem ▸ hnan) (by simp [hsg.1.symm.trans hsem])
    | inf neg =>
      dsimp only
      have hC : semBits f b = .inf neg := hsg.1.symm.trans hsem
      rw [hC] at hcanf
      rw [hcanf]
    | zero neg =>
      dsimp only
      have hC : semBits f b = .zero neg := hsg.1.symm.trans hsem
      rw [hC] at hcanf
      rw [hcanf]
    | fin v =>
      dsimp only
      have hC : semBits f b = .fin v := hsg.1.symm.trans hsem
      rw [hC] at hcanf
      rw [hcanf]
  exact ⟨h1, h2, hsg.2, hsg.1⟩

/-- Narrowing a value the narrow format cannot represent exactly: the
round-trip through the narrow format compares unequal to the original. -/
theorem narrow_none (f g : FFmt) (hf : f.Good) (hg : g.Good)
    (hO : f.offset ≤ g.offset) (hB : g.bias ≤ f.bias) (hM : g.mantBits ≤ f.mantBits)
    (b : Nat) (hb : b < 2 ^ (1 + f.expBits + f.mantBits)) (hnan : semBits f b ≠ .nan)
    (hrep : toBits g (semBits f b) = none) :
    FVal.beqF (semBits f (fconvert g f (fconvert f g b))) (semBits f b) = false := by
  cases hsem : semBits f b with
  | nan => exact absurd hsem hnan
  | inf neg =>
    rw [hsem] at hrep
    simp [toBits] at hrep
  | zero neg =>
    rw [hsem] at hrep
    simp [toBits] at hrep
  | fin v =>
    rw [hsem] at hrep
    have h1 : fconvert f g b = rtneFin g v := by
      unfold fconvert
      rw [hsem]
      dsimp only
      rw [show toBits g (.fin v) = finToBits g v from rfl,
        show finToBits g v = none from hrep]
    obtain ⟨fv', hfv'nan, hfv'⟩ := rtne_canonical g v
    have hsg := sem_toBits g hg fv' (rtneFin g v) hfv'
    obtain ⟨bf, hbf⟩ := Option.isSome_iff_exists.mp
      (toBits_mono g f hO hB hM fv' (rtneFin g v) hfv')
    have h2 : fconvert g f (rtneFin g v) = bf := by
      unfold fconvert
      cases hsem2 : semBits g (rtneFin g v) with
      | nan => exact absurd (hsg.1.symm.trans hsem2) hfv'nan
      | inf neg2 =>
        dsimp only
        have hC : fv' = .inf neg2 := hsg.1.symm.trans hsem2
        rw [hC] at hbf
        rw [hbf]
      | zero neg2 =>
        dsimp only
        have hC : fv' = .zero neg2 := hsg.1.symm.trans hsem2
        rw [hC] at hbf
        rw [hbf]
      | fin w =>
        dsimp only
        have hC : fv' = .fin w := hsg.1.symm.trans hsem2
        rw [hC] at hbf
        rw [hbf]
    have hsf := sem_toBits f hf fv' bf hbf
    rw [h1, h2, hsf.1]
    have hne : fv' ≠ .fin v := by
      intro he
      rw [he] at hfv'
      exact Option.noConfusion (hrep.symm.trans hfv')
    cases fv' with
    | nan => exact absurd rfl hfv'nan
    | inf n => rfl
    | zero n => rfl
    | fin w =>
      have hwv : ¬ w = v := fun he => hne (by rw [he])
      simp [FVal.beqF, hwv]

----------------------------------------------------------------------------
-- C8: canonical floating-point encoding
----------------------------------------------------------------------------

theorem encodeArgument16_nc (v : Nat) :
    encodeArgument16 0xE0 v false = 0xF9 :: beBytes 2 v := by
  rw [beBytes_two]
  rfl

theorem encodeArgument32_nc (v : Nat) :
    encodeArgument32 0xE0 v false = 0xFA :: beBytes 4 v := by
  rw [beBytes_four]
  rfl

theorem encodeArgument64_nc (v : Nat) :
    encodeArgument64 0xE0 v false = 0xFB :: beBytes 8 v := by
  rw [beBytes_eight]
  rfl

theorem encodeFloat64_nan (b64 : Nat) (h : sem64 b64 = .nan) :
    encodeFloat64 b64 = [0xF9, 0x7E, 0x00] := by
  unfold encodeFloat64
  rw [h]
  rfl

theorem encodeFloat64_inf (b64 : Nat) (s : Bool) (h : sem64 b64 = .inf s) :
    encodeFloat64 b64 = if s then [0xF9, 0xFC, 0x00] else [0xF9, 0x7C, 0x00] := by
  unfold encodeFloat64
  rw [h]
  cases s <;> rfl

theorem encodeFloat32_nan (b32 : Nat) (h : sem32 b32 = .nan) :
    encodeFloat32 b32 = [0xF9, 0x7E, 0x00] := by
  unfold encodeFloat32
  rw [h]
  rfl

theorem encodeFloat32_inf (b32 : Nat) (s : Bool) (h : sem32 b32 = .inf s) :
    encodeFloat32 b32 = if s then [0xF9, 0xFC, 0x00] else [0xF9, 0x7C, 0x00] := by
  unfold encodeFloat32
  rw [h]
  cases s <;> rfl

theorem encodeFloat64_red (b64 : Nat) (hnan : sem64 b64 ≠ .nan)
    (hinf : ∀ s, sem64 b64 ≠ .inf s) :
    encodeFloat64 b64 =
      (if FVal.beqF (sem64 (promoteSingle (demoteDouble b64))) (sem64 b64) then
         if FVal.beqF (sem32 (unpackHalf (packHalf (demoteDouble b64))))
             (sem32 (demoteDouble b64)) then
           encodeArgument16 0xE0 (packHalf (demoteDouble b64)) false
         else encodeArgument32 0xE0 (demoteDouble b64) false
       else encodeArgument64 0xE0 b64 false) := by
  unfold encodeFloat64
  cases hsem : sem64 b64 with
  | nan => exact absurd hsem hnan
  | inf s => exact absurd hsem (hinf s)
  | zero s => rfl
  | fin v => rfl

theorem encodeFloat32_red (b32 : Nat) (hnan : sem32 b32 ≠ .nan)
    (hinf : ∀ s, sem32 b32 ≠ .inf s) :
    encodeFloat32 b32 =
      (if FVal.beqF (sem32 (unpackHalf (packHalf b32))) (sem32 b32) then
         encodeArgument16 0xE0 (packHalf b32) false
       else encodeArgument32 0xE0 b32 false) := by
  unfold encodeFloat32
  cases hsem : sem32 b32 with
  | nan => exact absurd hsem hnan
  | inf s => exact absurd hsem (hinf s)
  | zero s => rfl
  | fin v => rfl

/-- The default branch of the `double` encoder: emit the canonical
binary16 pattern when the value is representable at binary16, else the
canonical binary32 pattern when representable there, else the raw
binary64 pattern. -/
theorem encodeFloat64_default (b64 : Nat) (hb : b64 < 2 ^ 64)
    (hnan : sem64 b64 ≠ .nan) (hinf : ∀ s, sem64 b64 ≠ .inf s) :
    (∃ h16, toBits fmt16 (sem64 b64) = some h16 ∧
       encodeFloat64 b64 = 0xF9 :: beBytes 2 h16 ∧ h16 < 2 ^ 16 ∧
       sem16 h16 = sem64 b64) ∨
    (toBits fmt16 (sem64 b64) = none ∧
       ∃ s32, toBits fmt32 (sem64 b64) = some s32 ∧
         encodeFloat64 b64 = 0xFA :: beBytes 4 s32 ∧ s32 < 2 ^ 32 ∧
         sem32 s32 = sem64 b64) ∨
    (toBits fmt32 (sem64 b64) = none ∧ encodeFloat64 b64 = 0xFB :: beBytes 8 b64) := by
  have hb' : b64 < 2 ^ (1 + fmt64.expBits + fmt64.mantBits) := hb
  rw [encodeFloat64_red b64 hnan hinf]
  cases hrep32 : toBits fmt32 (sem64 b64) with
  | none =>
    refine Or.inr (Or.inr ⟨rfl, ?_⟩)
    have hg := narrow_none fmt64 fmt32 fmt64_good fmt32_good (by decide) (by decide)
      (by decide) b64 hb' hnan hrep32
    rw [if_neg (by rw [show FVal.beqF (sem64 (promoteSingle (demoteDouble b64)))
        (sem64 b64) = false from hg]; simp)]
    exact encodeArgument64_nc b64
  | some s32 =>
    have hcs := narrow_some fmt64 fmt32 fmt64_good fmt32_good (by decide) (by decide)
      (by decide) b64 s32 hb' hnan hrep32
    obtain ⟨hdem, hpro, hs32lt, hs32sem⟩ := hcs
    have hguard : FVal.beqF (sem64 (promoteSingle (demoteDouble b64))) (sem64 b64)
        = true := by
      rw [show demoteDouble b64 = s32 from hdem, show promoteSingle s32 = b64 from hpro]
      exact beqF_refl _ hnan
    rw [if_pos hguard, show demoteDouble b64 = s32 from hdem]
    have hs32nan : sem32 s32 ≠ .nan := by
      rw [show sem32 s32 = sem64 b64 from hs32sem]
      exact hnan
    have hs32lt' : s32 < 2 ^ (1 + fmt32.expBits + fmt32.mantBits) := hs32lt
    cases hrep16 : toBits fmt16 (sem32 s32) with
    | none =>
      have hrep16' : toBits fmt16 (sem64 b64) = none := by
        rw [← show sem32 s32 = sem64 b64 from hs32sem]
        exact hrep16
      refine Or.inr (Or.inl ⟨hrep16', s32, rfl, ?_, hs32lt, hs32sem⟩)
      have hg := narrow_none fmt32 fmt16 fmt32_good fmt16_good (by decide) (by decide)
        (by decide) s32 hs32lt' hs32nan hrep16
      rw [if_neg (by rw [show FVal.beqF (sem32 (unpackHalf (packHalf s32)))
          (sem32 s32) = false from hg]; simp)]
      exact encodeArgument32_nc s32
    | some h16 =>
      have hcs16 := narrow_some fmt32 fmt16 fmt32_good fmt16_good (by decide) (by decide)
        (by decide) s32 h16 hs32lt' hs32nan hrep16
      obtain ⟨hpack, hunp, h16lt, h16sem⟩ := hcs16
      have hrep16' : toBits fmt16 (sem64 b64) = some h16 := by
        rw [← show sem32 s32 = sem64 b64 from hs32sem]
        exact hrep16
      refine Or.inl ⟨h16, hrep16', ?_, h16lt, ?_⟩
      · have hguard2 : FVal.beqF (sem32 (unpackHalf (packHalf s32))) (sem32 s32)
            = true := by
          rw [show packHalf s32 = h16 from hpack, show unpackHalf h16 = s32 from hunp]
          exact beqF_refl _ hs32nan
        rw [if_pos hguard2, show packHalf s32 = h16 from hpack]
        exact encodeArgument16_nc h16
      · rw [show sem16 h16 = sem32 s32 from h16sem]
        exact hs32sem

/-- The default branch of the `float` encoder: emit the canonical binary16
pattern when the value is representable at binary16, else the raw binary32
pattern. -/
theorem encodeFloat32_default (b32 : Nat) (hb : b32 < 2 ^ 32)
    (hnan : sem32 b32 ≠ .nan) (hinf : ∀ s, sem32 b32 ≠ .inf s) :
    (∃ h16, toBits fmt16 (sem32 b32) = some h16 ∧
       encodeFloat32 b32 = 0xF9 :: beBytes 2 h16 ∧ h16 < 2 ^ 16 ∧
       sem16 h16 = sem32 b32) ∨
    (toBits fmt16 (sem32 b32) = none ∧ encodeFloat32 b32 = 0xFA :: beBytes 4 b32) := by
  have hb' : b32 < 2 ^ (1 + fmt32.expBits + fmt32.mantBits) := hb
  rw [encodeFloat32_red b32 hnan hinf]
  cases hrep16 : toBits fmt16 (sem32 b32) with
  | none =>
    refine Or.inr ⟨rfl, ?_⟩
    have hg := narrow_none fmt32 fmt16 fmt32_good fmt16_good (by decide) (by decide)
      (by decide) b32 hb' hnan hrep16
    rw [if_neg (by rw [show FVal.beqF (sem32 (unpackHalf (packHalf b32)))
        (sem32 b32) = false from hg]; simp)]
    exact encodeArgument32_nc b32
  | some h16 =>
    have hcs := narrow_some fmt32 fmt16 fmt32_good fmt16_good (by decide) (by decide)
      (by decide) b32 h16 hb' hnan hrep16
    obtain ⟨hpack, hunp, h16lt, h16sem⟩ := hcs
    refine Or.inl ⟨h16, rfl, ?_, h16lt, h16sem⟩
    have hguard : FVal.beqF (sem32 (unpackHalf (packHalf b32))) (sem32 b32) = true := by
      rw [show packHalf b32 = h16 from hpack, show unpackHalf h16 = b32 from hunp]
      exact beqF_refl _ hnan
    rw [if_pos hguard, show packHalf b32 = h16 from hpack]
    exact encodeArgument16_nc h16

theorem not_rep_of_none (f : FFmt) (hf : f.Good) (fv : FVal) (hnan : fv ≠ .nan)
    (h : toBits f fv = none) :
    ¬ ∃ p, p < 2 ^ (1 + f.expBits + f.mantBits) ∧ semBits f p = fv := by
  rintro ⟨p, hp, hsem⟩
  have hc := toBits_sem f hf p hp (by rw [hsem]; exact hnan)
  rw [hsem, h] at hc
  exact Option.noConfusion hc

/-- C8: floating-point encoding (both the `float` and the `double`
overloads): NaN always yields exactly the three bytes `F9 7E 00`, positive
infinity `F9 7C 00`, negative infinity `F9 FC 00`; every other value is
emitted at the narrowest of half/single/double precision that represents
its value exactly, as head byte `F9`/`FA`/`FB` followed by the full-width
big-endian payload, never argument-compressed.  (Encoding is a pure
function of the bit pattern, so encoding the same value twice trivially
yields identical bytes.) -/
theorem float_encode_canonical_narrowest (b32 b64 : Nat)
    (h32 : b32 < 2 ^ 32) (h64 : b64 < 2 ^ 64) :
    (sem64 b64 = .nan → encodeFloat64 b64 = [0xF9, 0x7E, 0x00]) ∧
    (sem64 b64 = .inf false → encodeFloat64 b64 = [0xF9, 0x7C, 0x00]) ∧
    (sem64 b64 = .inf true → encodeFloat64 b64 = [0xF9, 0xFC, 0x00]) ∧
    (sem32 b32 = .nan → encodeFloat32 b32 = [0xF9, 0x7E, 0x00]) ∧
    (sem32 b32 = .inf false → encodeFloat32 b32 = [0xF9, 0x7C, 0x00]) ∧
    (sem32 b32 = .inf true → encodeFloat32 b32 = [0xF9, 0xFC, 0x00]) ∧
    (sem64 b64 ≠ .nan → (∀ s, sem64 b64 ≠ .inf s) →
      (∃ h16, h16 < 2 ^ 16 ∧ sem16 h16 = sem64 b64 ∧
         encodeFloat64 b64 = 0xF9 :: beBytes 2 h16) ∨
      ((¬ ∃ p, p < 2 ^ 16 ∧ sem16 p = sem64 b64) ∧
       ∃ s32, s32 < 2 ^ 32 ∧ sem32 s32 = sem64 b64 ∧
         encodeFloat64 b64 = 0xFA :: beBytes 4 s32) ∨
      ((¬ ∃ p, p < 2 ^ 32 ∧ sem32 p = sem64 b64) ∧
       encodeFloat64 b64 = 0xFB :: beBytes 8 b64)) ∧
    (sem32 b32 ≠ .nan → (∀ s, sem32 b32 ≠ .inf s) →
      (∃ h16, h16 < 2 ^ 16 ∧ sem16 h16 = sem32 b32 ∧
         encodeFloat32 b32 = 0xF9 :: beBytes 2 h16) ∨
      ((¬ ∃ p, p < 2 ^ 16 ∧ sem16 p = sem32 b32) ∧
       encodeFloat32 b32 = 0xFA :: beBytes 4 b32)) := by
  refine ⟨encodeFloat64_nan b64,
    fun h => by simpa using encodeFloat64_inf b64 false h,
    fun h => by simpa using encodeFloat64_inf b64 true h,
    encodeFloat32_nan b32,
    fun h => by simpa using encodeFloat32_inf b32 false h,
    fun h => by simpa using encodeFloat32_inf b32 true h, ?_, ?_⟩
  · intro hnan hinf
    rcases encodeFloat64_default b64 h64 hnan hinf with
      ⟨h16, hrep, he, hlt, hsem⟩ | ⟨hrep0, s32, hrep, he, hlt, hsem⟩ | ⟨hrep0, he⟩
    · exact Or.inl ⟨h16, hlt, hsem, he⟩
    · exact Or.inr (Or.inl
        ⟨not_rep_of_none fmt16 fmt16_good (sem64 b64) hnan hrep0, s32, hlt, hsem, he⟩)
    · exact Or.inr (Or.inr
        ⟨not_rep_of_none fmt32 fmt32_good (sem64 b64) hnan hrep0, he⟩)
  · intro hnan hinf
    rcases encodeFloat32_default b32 h32 hnan hinf with
      ⟨h16, hrep, he, hlt, hsem⟩ | ⟨hrep0, he⟩
    · exact Or.inl ⟨h16, hlt, hsem, he⟩
    · exact Or.inr ⟨not_rep_of_none fmt16 fmt16_good (sem32 b32) hnan hrep0, he⟩

/-- C8 witness: the single-precision quiet NaN `7FC00000` encodes as
`F9 7E 00` and the double-precision `+inf` pattern encodes as `F9 7C 00`. -/
theorem float_encode_canonical_narrowest_witness :
    encodeFloat32 0x7FC00000 = [0xF9, 0x7E, 0x00] ∧
    encodeFloat64 0x7FF0000000000000 = [0xF9, 0x7C, 0x00] :=
  ⟨(float_encode_canonical_narrowest 0x7FC00000 0x7FF0000000000000 (by norm_num)
      (by norm_num)).2.2.2.1 (by decide),
   (float_encode_canonical_narrowest 0x7FC00000 0x7FF0000000000000 (by norm_num)
      (by norm_num)).2.1 (by decide)⟩

----------------------------------------------------------------------------
-- Decode-of-encode: the scalar and string leaves
----------------------------------------------------------------------------

theorem decodeUIntW_enc (w n : Nat) (hw : w ≤ 64) (hn : n < 2 ^ w)
    (buf : ReadBuf) (rest : List Nat)
    (hbuf : buf.remaining = encodeUInt n ++ rest) :
    decodeUIntW w buf = (.ok n, buf.advance (encodeUInt n).length) := by
  have hn64 : n < 2 ^ 64 :=
    lt_of_lt_of_le hn (Nat.pow_le_pow_right (by norm_num) hw)
  obtain ⟨hd, hr, hty, harg⟩ :=
    headRead_encodeArgument 0x00 n (by decide) hn64 buf rest hbuf
  have hpos := Nat.two_pow_pos w
  unfold decodeUIntW
  rw [hr]
  dsimp only
  rw [if_neg (by rw [hty]; simp), if_neg (by rw [harg]; omega), harg]
  rfl

theorem decodeSIntW_enc (w : Nat) (i : Int) (hw1 : 1 ≤ w) (hw : w ≤ 64)
    (hlo : -(2 ^ (w - 1) : Int) ≤ i) (hhi : i < 2 ^ (w - 1))
    (buf : ReadBuf) (rest : List Nat)
    (hbuf : buf.remaining = encodeSInt i ++ rest) :
    decodeSIntW w buf = (.ok i, buf.advance (encodeSInt i).length) := by
  have hple : (2 : Int) ^ (w - 1) ≤ 2 ^ 63 :=
    pow_le_pow_right₀ (by norm_num) (by omega)
  have hcast : ((2 ^ (w - 1) : Nat) : Int) = 2 ^ (w - 1) := by push_cast; ring
  by_cases hneg : i < 0
  · have he : encodeSInt i = encodeArgument 0x20 ((-1 - i).toNat) := by
      unfold encodeSInt
      rw [if_pos hneg]
    have ha64 : (-1 - i).toNat < 2 ^ 64 := by omega
    obtain ⟨hd, hr, hty, harg⟩ := headRead_encodeArgument 0x20 ((-1 - i).toNat) (by decide)
      ha64 buf rest (by rw [hbuf, he])
    unfold decodeSIntW
    rw [hr]
    dsimp only
    rw [if_neg (by rw [hty]; norm_num), if_neg (by rw [hty]; simp),
      if_neg (by rw [harg]; omega), if_neg (by rw [harg]; omega), he, harg]
    have hni : (-1 - (((-1 - i).toNat : Int))) = i := by omega
    rw [hni]
  · have he : encodeSInt i = encodeArgument 0x00 i.toNat := by
      unfold encodeSInt
      rw [if_neg hneg]
    have ha64 : i.toNat < 2 ^ 64 := by omega
    obtain ⟨hd, hr, hty, harg⟩ := headRead_encodeArgument 0x00 i.toNat (by decide)
      ha64 buf rest (by rw [hbuf, he])
    unfold decodeSIntW
    rw [hr]
    dsimp only
    rw [if_pos hty, if_neg (by rw [harg]; omega), he, harg]
    have hni : ((i.toNat : Int)) = i := by omega
    rw [hni]

theorem decodeBool_enc (b : Bool) (buf : ReadBuf) (rest : List Nat)
    (hbuf : buf.remaining = encodeBool b ++ rest) :
    decodeBool buf = (.ok b, buf.advance (encodeBool b).length) := by
  cases b
  · have hc := headRead_cons buf 0xF4 [] rest (by rw [hbuf]; rfl) (by decide) (by decide)
    unfold decodeBool
    rw [hc]
    rfl
  · have hc := headRead_cons buf 0xF5 [] rest (by rw [hbuf]; rfl) (by decide) (by decide)
    unfold decodeBool
    rw [hc]
    rfl

theorem encodeBytes_length (l : List Nat) :
    (encodeBytes l).length = (encodeArgument 0x40 l.length).length + l.length := by
  simp [encodeBytes]

theorem encodeText_length (l : List Nat) :
    (encodeText l).length = (encodeArgument 0x60 l.length).length + l.length := by
  simp [encodeText]

theorem decodeBytes_enc (l : List Nat) (hl : l.length < 2 ^ 64)
    (buf : ReadBuf) (rest : List Nat)
    (hbuf : buf.remaining = encodeBytes l ++ rest) :
    decodeBytes (2 ^ 64 - 1) buf = (.ok l, buf.advance (encodeBytes l).length) := by
  have hbuf' : buf.remaining = encodeArgument 0x40 l.length ++ (l ++ rest) := by
    rw [hbuf]
    simp [encodeBytes]
  obtain ⟨hd, hr, hty, harg⟩ :=
    headRead_encodeArgument 0x40 l.length (by decide) hl buf (l ++ rest) hbuf'
  unfold decodeBytes
  rw [hr]
  dsimp only
  rw [if_neg (by rw [hty]; simp), if_neg (by rw [harg]; omega)]
  by_cases hz : l.length ≠ 0
  · rw [if_pos (by rw [harg]; exact hz), harg,
      readN_split (buf.advance (encodeArgument 0x40 l.length).length) l.length l rest
        (by rw [ReadBuf.remaining_advance, hbuf']; simp) rfl,
      ReadBuf.advance_advance, ← encodeBytes_length]
  · rw [if_neg (by rw [harg]; exact hz)]
    have hl0 : l = [] := List.eq_nil_of_length_eq_zero (by omega)
    subst hl0
    rw [show (encodeBytes []).length = (encodeArgument 0x40 (0 : Nat)).length from by
      simp [encodeBytes]]
    rfl

theorem decodeBytesN_enc (l : List Nat) (hl : l.length < 2 ^ 64)
    (buf : ReadBuf) (rest : List Nat)
    (hbuf : buf.remaining = encodeBytes l ++ rest) :
    decodeBytesN l.length buf = (.ok l, buf.advance (encodeBytes l).length) := by
  have hbuf' : buf.remaining = encodeArgument 0x40 l.length ++ (l ++ rest) := by
    rw [hbuf]
    simp [encodeBytes]
  obtain ⟨hd, hr, hty, harg⟩ :=
    headRead_encodeArgument 0x40 l.length (by decide) hl buf (l ++ rest) hbuf'
  unfold decodeBytesN
  rw [hr]
  dsimp only
  rw [if_neg (by rw [hty]; simp), if_neg (by rw [harg]; omega),
    if_neg (by rw [harg]; omega)]
  by_cases hz : l.length ≠ 0
  · rw [if_pos (by rw [harg]; exact hz), harg,
      readN_split (buf.advance (encodeArgument 0x40 l.length).length) l.length l rest
        (by rw [ReadBuf.remaining_advance, hbuf']; simp) rfl,
      ReadBuf.advance_advance, ← encodeBytes_length]
  · rw [if_neg (by rw [harg]; exact hz)]
    have hl0 : l = [] := List.eq_nil_of_length_eq_zero (by omega)
    subst hl0
    rw [show (encodeBytes []).length = (encodeArgument 0x40 (0 : Nat)).length from by
      simp [encodeBytes]]
    rfl

theorem decodeText_enc (l : List Nat) (hl : l.length < 2 ^ 64)
    (buf : ReadBuf) (rest : List Nat)
    (hbuf : buf.remaining = encodeText l ++ rest) :
    decodeText (2 ^ 64 - 1) buf = (.ok l, buf.advance (encodeText l).length) := by
  have hbuf' : buf.remaining = encodeArgument 0x60 l.length ++ (l ++ rest) := by
    rw [hbuf]
    simp [encodeText]
  obtain ⟨hd, hr, hty, harg⟩ :=
    headRead_encodeArgument 0x60 l.length (by decide) hl buf (l ++ rest) hbuf'
  unfold decodeText
  rw [hr]
  dsimp only
  rw [if_neg (by rw [hty]; simp), if_neg (by rw [harg]; omega)]
  by_cases hz : l.length ≠ 0
  · rw [if_pos (by rw [harg]; exact hz), harg,
      readN_split (buf.advance (encodeArgument 0x60 l.length).length) l.length l rest
        (by rw [ReadBuf.remaining_advance, hbuf']; simp) rfl,
      ReadBuf.advance_advance, ← encodeText_length]
  · rw [if_neg (by rw [harg]; exact hz)]
    have hl0 : l = [] := List.eq_nil_of_length_eq_zero (by omega)
    subst hl0
    rw [show (encodeText []).length = (encodeArgument 0x60 (0 : Nat)).length from by
      simp [encodeText]]
    rfl

----------------------------------------------------------------------------
-- Decode-of-encode: floating point
----------------------------------------------------------------------------

theorem beBytes2_inj (a b : Nat) (ha : a < 2 ^ 16) (hb : b < 2 ^ 16)
    (h : beBytes 2 a = beBytes 2 b) : a = b := by
  have h1 := decodeArg_two 0 0 0 a ha
  have h2 := decodeArg_two 0 0 0 b hb
  rw [← beBytes_two] at h1 h2
  rw [← h1, ← h2, h]

theorem beBytes4_inj (a b : Nat) (ha : a < 2 ^ 32) (hb : b < 2 ^ 32)
    (h : beBytes 4 a = beBytes 4 b) : a = b := by
  have h1 := decodeArg_four 0 0 0 a ha
  have h2 := decodeArg_four 0 0 0 b hb
  rw [← beBytes_four] at h1 h2
  rw [← h1, ← h2, h]

theorem beBytes8_inj (a b : Nat) (ha : a < 2 ^ 64) (hb : b < 2 ^ 64)
    (h : beBytes 8 a = beBytes 8 b) : a = b := by
  have h1 := decodeArg_eight 0 0 0 a ha
  have h2 := decodeArg_eight 0 0 0 b hb
  rw [← beBytes_eight] at h1 h2
  rw [← h1, ← h2, h]

theorem decodeArgument_beBytes2 (h16 : Nat) (hlt : h16 < 2 ^ 16) :
    Head.decodeArgument ⟨0xF9, 0xE0, 0x19, 2, beBytes 2 h16⟩ = h16 := by
  rw [beBytes_two]
  exact decodeArg_two _ _ _ h16 hlt

theorem decodeArgument_beBytes4 (s32 : Nat) (hlt : s32 < 2 ^ 32) :
    Head.decodeArgument ⟨0xFA, 0xE0, 0x1A, 4, beBytes 4 s32⟩ = s32 := by
  rw [beBytes_four]
  exact decodeArg_four _ _ _ s32 hlt

theorem decodeArgument_beBytes8 (b64 : Nat) (hlt : b64 < 2 ^ 64) :
    Head.decodeArgument ⟨0xFB, 0xE0, 0x1B, 8, beBytes 8 b64⟩ = b64 := by
  rw [beBytes_eight]
  exact decodeArg_eight _ _ _ b64 hlt

theorem decodeHPBits_plain32 (h16 : Nat) (hlt : h16 < 2 ^ 16)
    (h7C : h16 ≠ 0x7C00) (hFC : h16 ≠ 0xFC00) (h7E : h16 ≠ 0x7E00) :
    decodeHPBits ⟨0xF9, 0xE0, 0x19, 2, beBytes 2 h16⟩ 32 = unpackHalf h16 := by
  unfold decodeHPBits
  dsimp only
  rw [if_neg (show ¬ ((2 : Nat) = 2 ∧ beBytes 2 h16 = [0x7C, 0x00]) from
      fun hh => h7C (beBytes2_inj h16 0x7C00 hlt (by norm_num) (hh.2.trans (by decide)))),
    if_neg (show ¬ ((2 : Nat) = 2 ∧ beBytes 2 h16 = [0xFC, 0x00]) from
      fun hh => hFC (beBytes2_inj h16 0xFC00 hlt (by norm_num) (hh.2.trans (by decide)))),
    if_neg (show ¬ ((2 : Nat) = 2 ∧ beBytes 2 h16 = [0x7E, 0x00]) from
      fun hh => h7E (beBytes2_inj h16 0x7E00 hlt (by norm_num) (hh.2.trans (by decide)))),
    decodeArgument_beBytes2 h16 hlt, Nat.mod_eq_of_lt hlt]
  rfl

theorem decodeHPBits_plain64 (h16 : Nat) (hlt : h16 < 2 ^ 16)
    (h7C : h16 ≠ 0x7C00) (hFC : h16 ≠ 0xFC00) (h7E : h16 ≠ 0x7E00) :
    decodeHPBits ⟨0xF9, 0xE0, 0x19, 2, beBytes 2 h16⟩ 64
      = promoteSingle (unpackHalf h16) := by
  unfold decodeHPBits
  dsimp only
  rw [if_neg (show ¬ ((2 : Nat) = 2 ∧ beBytes 2 h16 = [0x7C, 0x00]) from
      fun hh => h7C (beBytes2_inj h16 0x7C00 hlt (by norm_num) (hh.2.trans (by decide)))),
    if_neg (show ¬ ((2 : Nat) = 2 ∧ beBytes 2 h16 = [0xFC, 0x00]) from
      fun hh => hFC (beBytes2_inj h16 0xFC00 hlt (by norm_num) (hh.2.trans (by decide)))),
    if_neg (show ¬ ((2 : Nat) = 2 ∧ beBytes 2 h16 = [0x7E, 0x00]) from
      fun hh => h7E (beBytes2_inj h16 0x7E00 hlt (by norm_num) (hh.2.trans (by decide)))),
    decodeArgument_beBytes2 h16 hlt, Nat.mod_eq_of_lt hlt]
  rfl

theorem decodeSPBits_plain (s32 tw : Nat) (hlt : s32 < 2 ^ 32)
    (hA : s32 ≠ 0x7F800000) (hB : s32 ≠ 0xFF800000) (hC : s32 ≠ 0x7FC00000) :
    decodeSPBits ⟨0xFA, 0xE0, 0x1A, 4, beBytes 4 s32⟩ tw
      = (if tw = 32 then s32 else promoteSingle s32) := by
  unfold decodeSPBits
  dsimp only
  rw [if_neg (show ¬ ((4 : Nat) = 4 ∧ beBytes 4 s32 = [0x7F, 0x80, 0x00, 0x00]) from
      fun hh => hA (beBytes4_inj s32 0x7F800000 hlt (by norm_num)
        (hh.2.trans (by decide)))),
    if_neg (show ¬ ((4 : Nat) = 4 ∧ beBytes 4 s32 = [0xFF, 0x80, 0x00, 0x00]) from
      fun hh => hB (beBytes4_inj s32 0xFF800000 hlt (by norm_num)
        (hh.2.trans (by decide)))),
    if_neg (show ¬ ((4 : Nat) = 4 ∧ beBytes 4 s32 = [0x7F, 0xC0, 0x00, 0x00]) from
      fun hh => hC (beBytes4_inj s32 0x7FC00000 hlt (by norm_num)
        (hh.2.trans (by decide)))),
    decodeArgument_beBytes4 s32 hlt, Nat.mod_eq_of_lt hlt]

theorem decodeDPBits_plain64 (b64 : Nat) (hlt : b64 < 2 ^ 64)
    (hnan : sem64 b64 ≠ .nan)
    (hA : b64 ≠ 0x7FF0000000000000) (hB : b64 ≠ 0xFFF0000000000000)
    (hC : b64 ≠ 0x7FF8000000000000) :
    decodeDPBits ⟨0xFB, 0xE0, 0x1B, 8, beBytes 8 b64⟩ 64 = .ok b64 := by
  unfold decodeDPBits
  dsimp only
  rw [if_neg (show ¬ ((8 : Nat) = 8 ∧
        beBytes 8 b64 = [0x7F, 0xF0, 0x00, 0x00, 0x00, 0x00, 0x00, 0x00]) from
      fun hh => hA (beBytes8_inj b64 0x7FF0000000000000 hlt (by norm_num)
        (hh.2.trans (by decide)))),
    if_neg (show ¬ ((8 : Nat) = 8 ∧
        beBytes 8 b64 = [0xFF, 0xF0, 0x00, 0x00, 0x00, 0x00, 0x00, 0x00]) from
      fun hh => hB (beBytes8_inj b64 0xFFF0000000000000 hlt (by norm_num)
        (hh.2.trans (by decide)))),
    if_neg (show ¬ ((8 : Nat) = 8 ∧
        beBytes 8 b64 = [0x7F, 0xF8, 0x00, 0x00, 0x00, 0x00, 0x00, 0x00]) from
      fun hh => hC (beBytes8_inj b64 0x7FF8000000000000 hlt (by norm_num)
        (hh.2.trans (by decide)))),
    decodeArgument_beBytes8 b64 hlt,
    if_neg (show ¬ ((64 : Nat) = 32) from by norm_num),
    if_neg (show ¬ ((64 : Nat) = 32) from by norm_num),
    if_neg (show ¬ ¬ (FVal.beqF (semBits fmt64 b64) (sem64 b64) = true) from
      fun hh => hh (beqF_refl _ hnan))]

theorem decodeFloat32_enc (b32 : Nat) (hb : b32 < 2 ^ 32) (hnan : sem32 b32 ≠ .nan)
    (buf : ReadBuf) (rest : List Nat)
    (hbuf : buf.remaining = encodeFloat32 b32 ++ rest) :
    decodeFloatW 32 buf = (.ok b32, buf.advance (encodeFloat32 b32).length) := by
  have hb' : b32 < 2 ^ (1 + fmt32.expBits + fmt32.mantBits) := hb
  have hcan : toBits fmt32 (sem32 b32) = some b32 := toBits_sem fmt32 fmt32_good b32 hb' hnan
  by_cases hinf : ∃ s, sem32 b32 = .inf s
  · obtain ⟨s, hs⟩ := hinf
    rw [hs] at hcan
    cases s
    · have he : encodeFloat32 b32 = [0xF9, 0x7C, 0x00] := by
        simpa using encodeFloat32_inf b32 false hs
      have hc := headRead_cons buf 0xF9 [0x7C, 0x00] rest (by rw [hbuf, he]; rfl)
        (by decide) (by decide)
      rw [show (encodeFloat32 b32).length = 3 from by rw [he]; rfl]
      unfold decodeFloatW
      rw [hc]
      show (Except.ok (infBits fmt32 false), buf.advance 3)
        = ((Except.ok b32 : Except Err Nat), buf.advance 3)
      rw [show infBits fmt32 false = b32 from by unfold infBits; rw [hcan]; rfl]
    · have he : encodeFloat32 b32 = [0xF9, 0xFC, 0x00] := by
        simpa using encodeFloat32_inf b32 true hs
      have hc := headRead_cons buf 0xF9 [0xFC, 0x00] rest (by rw [hbuf, he]; rfl)
        (by decide) (by decide)
      rw [show (encodeFloat32 b32).length = 3 from by rw [he]; rfl]
      unfold decodeFloatW
      rw [hc]
      show (Except.ok (infBits fmt32 true), buf.advance 3)
        = ((Except.ok b32 : Except Err Nat), buf.advance 3)
      rw [show infBits fmt32 true = b32 from by unfold infBits; rw [hcan]; rfl]
  · have hinf' : ∀ s, sem32 b32 ≠ .inf s := fun s hs0 => hinf ⟨s, hs0⟩
    rcases encodeFloat32_default b32 hb hnan hinf' with
      ⟨h16, hrep, he, h16lt, h16sem⟩ | ⟨hrep0, he⟩
    · obtain ⟨hpack, hunp, _, _⟩ := narrow_some fmt32 fmt16 fmt32_good fmt16_good
        (by decide) (by decide) (by decide) b32 h16 hb' hnan hrep
      have hunp' : unpackHalf h16 = b32 := hunp
      have hn7C : h16 ≠ 0x7C00 := by
        intro hq
        rw [hq] at h16sem
        exact hinf ⟨false, h16sem.symm.trans (by decide : sem16 0x7C00 = FVal.inf false)⟩
      have hnFC : h16 ≠ 0xFC00 := by
        intro hq
        rw [hq] at h16sem
        exact hinf ⟨true, h16sem.symm.trans (by decide : sem16 0xFC00 = FVal.inf true)⟩
      have hn7E : h16 ≠ 0x7E00 := by
        intro hq
        rw [hq] at h16sem
        exact hnan (h16sem.symm.trans (by decide : sem16 0x7E00 = FVal.nan))
      have hc : headRead buf = (.ok ⟨0xF9, 0xE0, 0x19, 2, beBytes 2 h16⟩,
          buf.advance 3) :=
        headRead_cons buf 0xF9 (beBytes 2 h16) rest (by rw [hbuf, he]; rfl)
          (by decide) (by rw [beBytes_length]; decide)
      rw [show (encodeFloat32 b32).length = 3 from by rw [he]; simp [beBytes_length]]
      unfold decodeFloatW
      rw [hc]
      show (Except.ok (decodeHPBits ⟨0xF9, 0xE0, 0x19, 2, beBytes 2 h16⟩ 32),
        buf.advance 3) = ((Except.ok b32 : Except Err Nat), buf.advance 3)
      rw [decodeHPBits_plain32 h16 h16lt hn7C hnFC hn7E, hunp']
    · have hnA : b32 ≠ 0x7F800000 := by
        intro hq
        subst hq
        exact hinf ⟨false, by decide⟩
      have hnB : b32 ≠ 0xFF800000 := by
        intro hq
        subst hq
        exact hinf ⟨true, by decide⟩
      have hnC : b32 ≠ 0x7FC00000 := by
        intro hq
        subst hq
        exact hnan (by decide)
      have hc : headRead buf = (.ok ⟨0xFA, 0xE0, 0x1A, 4, beBytes 4 b32⟩,
          buf.advance 5) :=
        headRead_cons buf 0xFA (beBytes 4 b32) rest (by rw [hbuf, he]; rfl)
          (by decide) (by rw [beBytes_length]; decide)
      rw [show (encodeFloat32 b32).length = 5 from by rw [he]; simp [beBytes_length]]
      unfold decodeFloatW
      rw [hc]
      show (Except.ok (decodeSPBits ⟨0xFA, 0xE0, 0x1A, 4, beBytes 4 b32⟩ 32),
        buf.advance 5) = ((Except.ok b32 : Except Err Nat), buf.advance 5)
      rw [decodeSPBits_plain b32 32 hb hnA hnB hnC]
      rfl

theorem decodeFloat64_enc (b64 : Nat) (hb : b64 < 2 ^ 64) (hnan : sem64 b64 ≠ .nan)
    (buf : ReadBuf) (rest : List Nat)
    (hbuf : buf.remaining = encodeFloat64 b64 ++ rest) :
    decodeFloatW 64 buf = (.ok b64, buf.advance (encodeFloat64 b64).length) := by
  have hb' : b64 < 2 ^ (1 + fmt64.expBits + fmt64.mantBits) := hb
  have hcan : toBits fmt64 (sem64 b64) = some b64 := toBits_sem fmt64 fmt64_good b64 hb' hnan
  by_cases hinf : ∃ s, sem64 b64 = .inf s
  · obtain ⟨s, hs⟩ := hinf
    rw [hs] at hcan
    cases s
    · have he : encodeFloat64 b64 = [0xF9, 0x7C, 0x00] := by
        simpa using encodeFloat64_inf b64 false hs
      have hc := headRead_cons buf 0xF9 [0x7C, 0x00] rest (by rw [hbuf, he]; rfl)
        (by decide) (by decide)
      rw [show (encodeFloat64 b64).length = 3 from by rw [he]; rfl]
      unfold decodeFloatW
      rw [hc]
      show (Except.ok (infBits fmt64 false), buf.advance 3)
        = ((Except.ok b64 : Except Err Nat), buf.advance 3)
      rw [show infBits fmt64 false = b64 from by unfold infBits; rw [hcan]; rfl]
    · have he : encodeFloat64 b64 = [0xF9, 0xFC, 0x00] := by
        simpa using encodeFloat64_inf b64 true hs
      have hc := headRead_cons buf 0xF9 [0xFC, 0x00] rest (by rw [hbuf, he]; rfl)
        (by decide) (by decide)
      rw [show (encodeFloat64 b64).length = 3 from by rw [he]; rfl]
      unfold decodeFloatW
      rw [hc]
      show (Except.ok (infBits fmt64 true), buf.advance 3)
        = ((Except.ok b64 : Except Err Nat), buf.advance 3)
      rw [show infBits fmt64 true = b64 from by unfold infBits; rw [hcan]; rfl]
  · have hinf' : ∀ s, sem64 b64 ≠ .inf s := fun s hs0 => hinf ⟨s, hs0⟩
    rcases encodeFloat64_default b64 hb hnan hinf' with
      ⟨h16, hrep, he, h16lt, h16sem⟩ | ⟨hrep0, s32, hrep, he, hs32lt, hs32sem⟩
      | ⟨hrep0, he⟩
    · have h16lt' : h16 < 2 ^ (1 + fmt16.expBits + fmt16.mantBits) := h16lt
      have h16nan : semBits fmt16 h16 ≠ .nan := by
        rw [show semBits fmt16 h16 = sem64 b64 from h16sem]
        exact hnan
      obtain ⟨hw1a, hw1b, hw1c⟩ := widen_exact fmt16 fmt32 fmt16_good fmt32_good
        (by decide) (by decide) (by decide) h16 h16lt' h16nan
      have hu2 : semBits fmt32 (unpackHalf h16) = sem64 b64 := by
        rw [show semBits fmt32 (unpackHalf h16)
          = semBits fmt16 h16 from hw1b]
        exact h16sem
      obtain ⟨hw2a, hw2b, hw2c⟩ := widen_exact fmt32 fmt64 fmt32_good fmt64_good
        (by decide) (by decide) (by decide) (unpackHalf h16) hw1c
        (by rw [hu2]; exact hnan)
      rw [hu2] at hw2a
      have hpu : promoteSingle (unpackHalf h16) = b64 :=
        Option.some_injective _ (hw2a.symm.trans hcan)
      have hn7C : h16 ≠ 0x7C00 := by
        intro hq
        rw [hq] at h16sem
        exact hinf ⟨false, h16sem.symm.trans (by decide : sem16 0x7C00 = FVal.inf false)⟩
      have hnFC : h16 ≠ 0xFC00 := by
        intro hq
        rw [hq] at h16sem
        exact hinf ⟨true, h16sem.symm.trans (by decide : sem16 0xFC00 = FVal.inf true)⟩
      have hn7E : h16 ≠ 0x7E00 := by
        intro hq
        rw [hq] at h16sem
        exact hnan (h16sem.symm.trans (by decide : sem16 0x7E00 = FVal.nan))
      have hc : headRead buf = (.ok ⟨0xF9, 0xE0, 0x19, 2, beBytes 2 h16⟩,
          buf.advance 3) :=
        headRead_cons buf 0xF9 (beBytes 2 h16) rest (by rw [hbuf, he]; rfl)
          (by decide) (by rw [beBytes_length]; decide)
      rw [show (encodeFloat64 b64).length = 3 from by rw [he]; simp [beBytes_length]]
      unfold decodeFloatW
      rw [hc]
      show (Except.ok (decodeHPBits ⟨0xF9, 0xE0, 0x19, 2, beBytes 2 h16⟩ 64),
        buf.advance 3) = ((Except.ok b64 : Except Err Nat), buf.advance 3)
      rw [decodeHPBits_plain64 h16 h16lt hn7C hnFC hn7E, hpu]
    · obtain ⟨hdem, hpro, _, _⟩ := narrow_some fmt64 fmt32 fmt64_good fmt32_good
        (by decide) (by decide) (by decide) b64 s32 hb' hnan hrep
      have hpro' : promoteSingle s32 = b64 := hpro
      have hnA : s32 ≠ 0x7F800000 := by
        intro hq
        rw [hq] at hs32sem
        exact hinf ⟨false, hs32sem.symm.trans (by decide : sem32 0x7F800000 = FVal.inf false)⟩
      have hnB : s32 ≠ 0xFF800000 := by
        intro hq
        rw [hq] at hs32sem
        exact hinf ⟨true, hs32sem.symm.trans (by decide : sem32 0xFF800000 = FVal.inf true)⟩
      have hnC : s32 ≠ 0x7FC00000 := by
        intro hq
        rw [hq] at hs32sem
        exact hnan (hs32sem.symm.trans (by decide : sem32 0x7FC00000 = FVal.nan))
      have hc : headRead buf = (.ok ⟨0xFA, 0xE0, 0x1A, 4, beBytes 4 s32⟩,
          buf.advance 5) :=
        headRead_cons buf 0xFA (beBytes 4 s32) rest (by rw [hbuf, he]; rfl)
          (by decide) (by rw [beBytes_length]; decide)
      rw [show (encodeFloat64 b64).length = 5 from by rw [he]; simp [beBytes_length]]
      unfold decodeFloatW
      rw [hc]
      show (Except.ok (decodeSPBits ⟨0xFA, 0xE0, 0x1A, 4, beBytes 4 s32⟩ 64),
        buf.advance 5) = ((Except.ok b64 : Except Err Nat), buf.advance 5)
      rw [decodeSPBits_plain s32 64 hs32lt hnA hnB hnC]
      show (Except.ok (promoteSingle s32), buf.advance 5)
        = ((Except.ok b64 : Except Err Nat), buf.advance 5)
      rw [hpro']
    · have hnA : b64 ≠ 0x7FF0000000000000 := by
        intro hq
        subst hq
        exact hinf ⟨false, by decide⟩
      have hnB : b64 ≠ 0xFFF0000000000000 := by
        intro hq
        subst hq
        exact hinf ⟨true, by decide⟩
      have hnC : b64 ≠ 0x7FF8000000000000 := by
        intro hq
        subst hq
        exact hnan (by decide)
      have hc : headRead buf = (.ok ⟨0xFB, 0xE0, 0x1B, 8, beBytes 8 b64⟩,
          buf.advance 9) :=
        headRead_cons buf 0xFB (beBytes 8 b64) rest (by rw [hbuf, he]; rfl)
          (by decide) (by rw [beBytes_length]; decide)
      rw [show (encodeFloat64 b64).length = 9 from by rw [he]; simp [beBytes_length]]
      unfold decodeFloatW
      rw [hc]
      show (decodeDPBits ⟨0xFB, 0xE0, 0x1B, 8, beBytes 8 b64⟩ 64,
        buf.advance 9) = ((Except.ok b64 : Except Err Nat), buf.advance 9)
      rw [decodeDPBits_plain64 b64 hb hnan hnA hnB hnC]

----------------------------------------------------------------------------
-- Map keys: order lemmas for the supported key kinds
----------------------------------------------------------------------------

theorem lexLtBytes_trans (a : List Nat) : ∀ b c, lexLtBytes a b = true →
    lexLtBytes b c = true → lexLtBytes a c = true := by
  induction a with
  | nil =>
    intro b c h1 h2
    cases b with
    | nil => simp [lexLtBytes] at h1
    | cons y ys =>
      cases c with
      | nil => simp [lexLtBytes] at h2
      | cons z zs => rfl
  | cons x xs ih =>
    intro b c h1 h2
    cases b with
    | nil => simp [lexLtBytes] at h1
    | cons y ys =>
      cases c with
      | nil => simp [lexLtBytes] at h2
      | cons z zs =>
        simp only [lexLtBytes, Bool.or_eq_true, Bool.and_eq_true,
          decide_eq_true_eq] at h1 h2 ⊢
        rcases h1 with h1 | ⟨he1, hr1⟩ <;> rcases h2 with h2 | ⟨he2, hr2⟩
        · exact Or.inl (by omega)
        · exact Or.inl (by omega)
        · exact Or.inl (by omega)
        · exact Or.inr ⟨by omega, ih ys zs hr1 hr2⟩

theorem lexLtBytes_asymm (a : List Nat) : ∀ b, lexLtBytes a b = true →
    lexLtBytes b a = false := by
  induction a with
  | nil =>
    intro b h
    cases b with
    | nil => simp [lexLtBytes] at h
    | cons y ys => rfl
  | cons x xs ih =>
    intro b h
    cases b with
    | nil => simp [lexLtBytes] at h
    | cons y ys =>
      simp only [lexLtBytes, Bool.or_eq_true, Bool.and_eq_true,
        decide_eq_true_eq] at h
      cases hyx : lexLtBytes (y :: ys) (x :: xs)
      · rfl
      · exfalso
        simp only [lexLtBytes, Bool.or_eq_true, Bool.and_eq_true,
          decide_eq_true_eq] at hyx
        rcases h with h | ⟨he, hr⟩ <;> rcases hyx with h2 | ⟨he2, hr2⟩
        · omega
        · omega
        · omega
        · rw [ih ys hr] at hr2
          cases hr2

theorem keyLt_trans (kt : Ty) (hk : keyKindB kt = true) (a b c : Item)
    (ha : wt kt a = true) (hb : wt kt b = true) (hc : wt kt c = true)
    (hab : keyLt a b = true) (hbc : keyLt b c = true) : keyLt a c = true := by
  cases kt with
  | uintT w =>
    cases a <;> simp [wt] at ha
    cases b <;> simp [wt] at hb
    cases c <;> simp [wt] at hc
    simp only [keyLt, decide_eq_true_eq] at hab hbc ⊢
    omega
  | sintT w =>
    cases a <;> simp [wt] at ha
    cases b <;> simp [wt] at hb
    cases c <;> simp [wt] at hc
    simp only [keyLt, decide_eq_true_eq] at hab hbc ⊢
    omega
  | boolT =>
    cases a <;> simp [wt] at ha
    cases b <;> simp [wt] at hb
    cases c <;> simp [wt] at hc
    next x => next y => next z =>
      cases x <;> cases y <;> cases z <;> simp_all [keyLt]
  | textT =>
    cases a <;> simp [wt] at ha
    cases b <;> simp [wt] at hb
    cases c <;> simp [wt] at hc
    exact lexLtBytes_trans _ _ _ hab hbc
  | f32T => exact absurd hk (by simp [keyKindB])
  | f64T => exact absurd hk (by simp [keyKindB])
  | bytesT => exact absurd hk (by simp [keyKindB])
  | bytesNT n => exact absurd hk (by simp [keyKindB])
  | arrT t => exact absurd hk (by simp [keyKindB])
  | mapT k v => exact absurd hk (by simp [keyKindB])
  | optT t => exact absurd hk (by simp [keyKindB])
  | recT fs => exact absurd hk (by simp [keyKindB])
  | variantT alts => exact absurd hk (by simp [keyKindB])

theorem keyLt_asymm (kt : Ty) (hk : keyKindB kt = true) (a b : Item)
    (ha : wt kt a = true) (hb : wt kt b = true)
    (hab : keyLt a b = true) : keyLt b a = false := by
  cases kt with
  | uintT w =>
    cases a <;> simp [wt] at ha
    cases b <;> simp [wt] at hb
    simp only [keyLt, decide_eq_true_eq] at hab
    simp only [keyLt, decide_eq_false_iff_not]
    omega
  | sintT w =>
    cases a <;> simp [wt] at ha
    cases b <;> simp [wt] at hb
    simp only [keyLt, decide_eq_true_eq] at hab
    simp only [keyLt, decide_eq_false_iff_not]
    omega
  | boolT =>
    cases a <;> simp [wt] at ha
    cases b <;> simp [wt] at hb
    next x => next y =>
      cases x <;> cases y <;> simp_all [keyLt]
  | textT =>
    cases a <;> simp [wt] at ha
    cases b <;> simp [wt] at hb
    exact lexLtBytes_asymm _ _ hab
  | f32T => exact absurd hk (by simp [keyKindB])
  | f64T => exact absurd hk (by simp [keyKindB])
  | bytesT => exact absurd hk (by simp [keyKindB])
  | bytesNT n => exact absurd hk (by simp [keyKindB])
  | arrT t => exact absurd hk (by simp [keyKindB])
  | mapT k v => exact absurd hk (by simp [keyKindB])
  | optT t => exact absurd hk (by simp [keyKindB])
  | recT fs => exact absurd hk (by simp [keyKindB])
  | variantT alts => exact absurd hk (by simp [keyKindB])

theorem goodTy_of_keyKind (kt : Ty) (h : keyKindB kt = true) : goodTy kt = true := by
  cases kt <;> simp_all [keyKindB, goodTy]

/-- Strictly sorted keys are pairwise related (with the reverse comparison
false), given transitivity on the key kind. -/
theorem sorted_pairwise (kt : Ty) (hk : keyKindB kt = true) :
    ∀ ps : List (Item × Item), (∀ p ∈ ps, wt kt p.1 = true) →
    sortedKeys ps = true →
    List.Pairwise (fun p q : Item × Item =>
      keyLt p.1 q.1 = true ∧ keyLt q.1 p.1 = false) ps := by
  intro ps
  induction ps with
  | nil => intro _ _; exact List.Pairwise.nil
  | cons a ps' ih =>
    intro hwt hs
    cases ps' with
    | nil => simp
    | cons b rest =>
      have hs' : keyLt a.1 b.1 = true ∧ sortedKeys (b :: rest) = true := by
        simpa [sortedKeys] using hs
      have hpw' := ih (fun p hp => hwt p (by simp [hp])) hs'.2
      refine List.Pairwise.cons ?_ hpw'
      intro q hq
      have hwa := hwt a (by simp)
      have hwb := hwt b (by simp)
      have hwq := hwt q (by simp [hq])
      rcases List.mem_cons.mp hq with rfl | hq'
      · exact ⟨hs'.1, keyLt_asymm kt hk a.1 q.1 hwa hwq hs'.1⟩
      · rw [List.pairwise_cons] at hpw'
        have hbq := hpw'.1 q hq'
        have haq : keyLt a.1 q.1 = true :=
          keyLt_trans kt hk a.1 b.1 q.1 hwa hwb hwq hs'.1 hbq.1
        exact ⟨haq, keyLt_asymm kt hk a.1 q.1 hwa hwq haq⟩

/-- Inserting a key larger than everything in the accumulated map appends
at the end (`std::map::insert` during the pair-decode loop). -/
theorem mapInsert_append : ∀ (acc : List (Item × Item)) (k v : Item),
    (∀ p ∈ acc, keyLt p.1 k = true ∧ keyLt k p.1 = false) →
    mapInsert acc k v = acc ++ [(k, v)] := by
  intro acc
  induction acc with
  | nil => intro k v _; rfl
  | cons p rest ih =>
    intro k v hall
    obtain ⟨k0, v0⟩ := p
    have h0 := hall (k0, v0) (by simp)
    rw [show mapInsert ((k0, v0) :: rest) k v = (k0, v0) :: mapInsert rest k v from by
      rw [mapInsert, if_neg (by rw [h0.2]; simp), if_pos h0.1]]
    rw [ih k v (fun p hp => hall p (by simp [hp]))]
    rfl

----------------------------------------------------------------------------
-- Decode-of-encode: container loops
----------------------------------------------------------------------------

theorem valOkList_mem : ∀ {l : List Item}, valOkList l = true →
    ∀ {x : Item}, x ∈ l → valOk x = true := by
  intro l
  induction l with
  | nil => intro _ x hx; cases hx
  | cons a as ih =>
    intro h x hx
    rw [show valOkList (a :: as) = (valOk a && valOkList as) from rfl,
      Bool.and_eq_true] at h
    rcases List.mem_cons.mp hx with rfl | hx'
    · exact h.1
    · exact ih h.2 hx'

theorem valOkPairs_mem : ∀ {l : List (Item × Item)}, valOkPairs l = true →
    ∀ {p : Item × Item}, p ∈ l → valOk p.1 = true ∧ valOk p.2 = true := by
  intro l
  induction l with
  | nil => intro _ p hp; cases hp
  | cons a as ih =>
    intro h p hp
    obtain ⟨k, v⟩ := a
    rw [show valOkPairs ((k, v) :: as) = (valOk k && valOk v && valOkPairs as) from rfl,
      Bool.and_eq_true, Bool.and_eq_true] at h
    rcases List.mem_cons.mp hp with rfl | hp'
    · exact ⟨h.1.1, h.1.2⟩
    · exact ih h.2 hp'

theorem goodTyList_mem : ∀ {l : List Ty}, goodTyList l = true →
    ∀ {t : Ty}, t ∈ l → goodTy t = true := by
  intro l
  induction l with
  | nil => intro _ t ht; cases ht
  | cons a as ih =>
    intro h t ht
    rw [show goodTyList (a :: as) = (goodTy a && goodTyList as) from rfl,
      Bool.and_eq_true] at h
    rcases List.mem_cons.mp ht with rfl | ht'
    · exact h.1
    · exact ih h.2 ht'

theorem sizeOf_item_pos (v : Item) : 0 < sizeOf v := by
  cases v <;> simp <;> omega

theorem sizeOf_lt_of_mem : ∀ {l : List Item} {x : Item}, x ∈ l → sizeOf x < sizeOf l := by
  intro l
  induction l with
  | nil => intro x hx; cases hx
  | cons a as ih =>
    intro x hx
    rcases List.mem_cons.mp hx with rfl | hx'
    · simp
      omega
    · have := ih hx'
      simp
      omega

theorem sizeOf_pair_lt_of_mem : ∀ {l : List (Item × Item)} {p : Item × Item}, p ∈ l →
    sizeOf p.1 < sizeOf l ∧ sizeOf p.2 < sizeOf l := by
  intro l
  induction l with
  | nil => intro p hp; cases hp
  | cons a as ih =>
    intro p hp
    rcases List.mem_cons.mp hp with rfl | hp'
    · obtain ⟨x, y⟩ := p
      constructor <;> (simp; omega)
    · have := ih hp'
      constructor <;> (simp; omega)

/-- The element loop decodes an encoded element list, given that the
element decoder inverts the element encoder. -/
theorem decodeListN_spec (dec : ReadBuf → Except Err Item × ReadBuf) :
    ∀ (es : List Item),
    (∀ x ∈ es, ∀ (b : ReadBuf) (r : List Nat), b.remaining = encodeItem x ++ r →
      dec b = (.ok x, b.advance (encodeItem x).length)) →
    ∀ (buf : ReadBuf) (rest : List Nat), buf.remaining = encodeItems es ++ rest →
    decodeListN dec es.length buf = (.ok es, buf.advance (encodeItems es).length) := by
  intro es
  induction es with
  | nil =>
    intro _ buf rest _
    rfl
  | cons x xs ih =>
    intro hdec buf rest hbuf
    have hbx : buf.remaining = encodeItem x ++ (encodeItems xs ++ rest) := by
      rw [hbuf]
      simp [encodeItems]
    have h1 := hdec x (by simp) buf (encodeItems xs ++ rest) hbx
    have h2 := ih (fun y hy => hdec y (by simp [hy]))
      (buf.advance (encodeItem x).length) rest
      (by rw [ReadBuf.remaining_advance, hbx]; simp)
    rw [show decodeListN dec (x :: xs).length buf
        = (match dec buf with
           | (.error e, b) => (.error e, b)
           | (.ok y, b) =>
             match decodeListN dec xs.length b with
             | (.ok ys, b2) => (.ok (y :: ys), b2)
             | (.error e, b2) => (.error e, b2)) from rfl,
      h1]
    dsimp only
    rw [h2]
    dsimp only
    rw [ReadBuf.advance_advance]
    rw [show (encodeItems (x :: xs)).length
        = (encodeItem x).length + (encodeItems xs).length from by simp [encodeItems]]

/-- The pair loop decodes an encoded pair list into the accumulated map,
appending in order, given sorted keys and correct element decoders. -/
theorem decodePairsN_spec (decK decV : ReadBuf → Except Err Item × ReadBuf) :
    ∀ (ps : List (Item × Item)),
    (∀ p ∈ ps, ∀ (b : ReadBuf) (r : List Nat), b.remaining = encodeItem p.1 ++ r →
      decK b = (.ok p.1, b.advance (encodeItem p.1).length)) →
    (∀ p ∈ ps, ∀ (b : ReadBuf) (r : List Nat), b.remaining = encodeItem p.2 ++ r →
      decV b = (.ok p.2, b.advance (encodeItem p.2).length)) →
    List.Pairwise (fun p q : Item × Item =>
      keyLt p.1 q.1 = true ∧ keyLt q.1 p.1 = false) ps →
    ∀ (acc : List (Item × Item)),
    (∀ p ∈ acc, ∀ q ∈ ps, keyLt p.1 q.1 = true ∧ keyLt q.1 p.1 = false) →
    ∀ (buf : ReadBuf) (rest : List Nat), buf.remaining = encodePairs ps ++ rest →
    decodePairsN decK decV ps.length acc buf
      = (.ok (acc ++ ps), buf.advance (encodePairs ps).length) := by
  intro ps
  induction ps with
  | nil =>
    intro _ _ _ acc _ buf rest _
    rw [List.append_nil]
    rfl
  | cons p ps' ih =>
    intro hdecK hdecV hpw acc hacc buf rest hbuf
    obtain ⟨k0, v0⟩ := p
    rw [List.pairwise_cons] at hpw
    have hbk : buf.remaining
        = encodeItem k0 ++ (encodeItem v0 ++ (encodePairs ps' ++ rest)) := by
      rw [hbuf]
      simp [encodePairs]
    have h1 := hdecK (k0, v0) (by simp) buf _ hbk
    have h2 := hdecV (k0, v0) (by simp) (buf.advance (encodeItem k0).length)
      (encodePairs ps' ++ rest) (by rw [ReadBuf.remaining_advance, hbk]; simp)
    have hins : mapInsert acc k0 v0 = acc ++ [(k0, v0)] :=
      mapInsert_append acc k0 v0 (fun q hq => hacc q hq (k0, v0) (by simp))
    have hacc2 : ∀ q ∈ acc ++ [(k0, v0)], ∀ r ∈ ps',
        keyLt q.1 r.1 = true ∧ keyLt r.1 q.1 = false := by
      intro q hq r hr
      rcases List.mem_append.mp hq with hq' | hq'
      · exact hacc q hq' r (by simp [hr])
      · rw [List.mem_singleton.mp hq']
        exact hpw.1 r hr
    have h3 := ih (fun q hq => hdecK q (by simp [hq]))
      (fun q hq => hdecV q (by simp [hq])) hpw.2 (acc ++ [(k0, v0)]) hacc2
      ((buf.advance (encodeItem k0).length).advance (encodeItem v0).length) rest
      (by rw [ReadBuf.remaining_advance, ReadBuf.remaining_advance, hbk]; simp)
    rw [show decodePairsN decK decV ((k0, v0) :: ps').length acc buf
        = (match decK buf with
           | (.error e, b) => (.error e, b)
           | (.ok k, b) =>
             match decV b with
             | (.error e, b2) => (.error e, b2)
             | (.ok v, b2) => decodePairsN decK decV ps'.length (mapInsert acc k v) b2)
        from rfl,
      h1]
    dsimp only
    rw [h2]
    dsimp only
    rw [hins, h3, ReadBuf.advance_advance, ReadBuf.advance_advance]
    rw [show (encodePairs ((k0, v0) :: ps')).length
        = (encodeItem k0).length + (encodeItem v0).length + (encodePairs ps').length
        from by simp [encodePairs]; omega]
    rw [show (acc ++ [(k0, v0)]) ++ ps' = acc ++ ((k0, v0) :: ps') from by simp,
      ← Nat.add_assoc]

/-- The reflected-record member loop decodes an encoded member list, given
correct member decoders. -/
theorem decodeFields_spec : ∀ (fs : List Ty) (vs : List Item),
    (∀ t ∈ fs, ∀ x ∈ vs, goodTy t = true → wt t x = true → valOk x = true →
      ∀ (b : ReadBuf) (r : List Nat), b.remaining = encodeItem x ++ r →
        decodeTy t b = (.ok x, b.advance (encodeItem x).length)) →
    goodTyList fs = true → wtFields fs vs = true → valOkList vs = true →
    ∀ (buf : ReadBuf) (rest : List Nat), buf.remaining = encodeItems vs ++ rest →
    decodeFields fs buf = (.ok vs, buf.advance (encodeItems vs).length) := by
  intro fs
  induction fs with
  | nil =>
    intro vs _ _ hwt _ buf rest hbuf
    cases vs with
    | nil => rfl
    | cons y ys => simp [wtFields] at hwt
  | cons f fs' ih =>
    intro vs hdec hg hwt hok buf rest hbuf
    cases vs with
    | nil => simp [wtFields] at hwt
    | cons x xs =>
      rw [show wtFields (f :: fs') (x :: xs) = (wt f x && wtFields fs' xs) from rfl,
        Bool.and_eq_true] at hwt
      rw [show goodTyList (f :: fs') = (goodTy f && goodTyList fs') from rfl,
        Bool.and_eq_true] at hg
      rw [show valOkList (x :: xs) = (valOk x && valOkList xs) from rfl,
        Bool.and_eq_true] at hok
      have hbx : buf.remaining = encodeItem x ++ (encodeItems xs ++ rest) := by
        rw [hbuf]
        simp [encodeItems]
      have h1 := hdec f (by simp) x (by simp) hg.1 hwt.1 hok.1 buf _ hbx
      have h2 := ih xs
        (fun t ht y hy => hdec t (by simp [ht]) y (by simp [hy]))
        hg.2 hwt.2 hok.2 (buf.advance (encodeItem x).length) rest
        (by rw [ReadBuf.remaining_advance, hbx]; simp)
      rw [show decodeFields (f :: fs') buf
          = (match decodeTy f buf with
             | (.error e, b) => (.error e, b)
             | (.ok y, b) =>
               match decodeFields fs' b with
               | (.ok ys, b2) => (.ok (y :: ys), b2)
               | (.error e, b2) => (.error e, b2)) from rfl,
        h1]
      dsimp only
      rw [h2]
      dsimp only
      rw [ReadBuf.advance_advance]
      rw [show (encodeItems (x :: xs)).length
          = (encodeItem x).length + (encodeItems xs).length from by simp [encodeItems]]

----------------------------------------------------------------------------
-- The round trip, by strong induction on the value size
----------------------------------------------------------------------------

theorem roundtrip_aux : ∀ (n : Nat) (t : Ty) (v : Item), sizeOf v ≤ n →
    goodTy t = true → wt t v = true → valOk v = true →
    ∀ (buf : ReadBuf) (rest : List Nat), buf.remaining = encodeItem v ++ rest →
    decodeTy t buf = (.ok v, buf.advance (encodeItem v).length) := by
  intro n
  induction n with
  | zero =>
    intro t v hsz
    exact absurd hsz (by have := sizeOf_item_pos v; omega)
  | succ n ih =>
    intro t v hsz hg hwt hok buf rest hbuf
    cases t with
    | uintT w =>
      cases v <;> try simp [wt] at hwt
      rename_i m
      simp only [goodTy, decide_eq_true_eq] at hg
      have hres := decodeUIntW_enc w m hg hwt buf rest hbuf
      rw [show decodeTy (.uintT w) buf
          = (match decodeUIntW w buf with
             | (.ok n2, b) => ((.ok (.uintV n2) : Except Err Item), b)
             | (.error e, b) => (.error e, b)) from rfl, hres]
      rfl
    | sintT w =>
      cases v <;> try simp [wt] at hwt
      rename_i i
      simp only [goodTy, decide_eq_true_eq] at hg
      have hres := decodeSIntW_enc w i hg.1 hg.2 hwt.1 hwt.2 buf rest hbuf
      rw [show decodeTy (.sintT w) buf
          = (match decodeSIntW w buf with
             | (.ok i2, b) => ((.ok (.sintV i2) : Except Err Item), b)
             | (.error e, b) => (.error e, b)) from rfl, hres]
      rfl
    | boolT =>
      cases v <;> try simp [wt] at hwt
      rename_i b
      have hres := decodeBool_enc b buf rest hbuf
      rw [show decodeTy .boolT buf
          = (match decodeBool buf with
             | (.ok b2, b) => ((.ok (.boolV b2) : Except Err Item), b)
             | (.error e, b) => (.error e, b)) from rfl, hres]
      rfl
    | f32T =>
      cases v <;> try simp [wt] at hwt
      rename_i bits
      simp only [valOk, decide_eq_true_eq] at hok
      have hres := decodeFloat32_enc bits hwt hok buf rest hbuf
      rw [show decodeTy .f32T buf
          = (match decodeFloatW 32 buf with
             | (.ok v2, b) => ((.ok (.f32V v2) : Except Err Item), b)
             | (.error e, b) => (.error e, b)) from rfl, hres]
      rfl
    | f64T =>
      cases v <;> try simp [wt] at hwt
      rename_i bits
      simp only [valOk, decide_eq_true_eq] at hok
      have hres := decodeFloat64_enc bits hwt hok buf rest hbuf
      rw [show decodeTy .f64T buf
          = (match decodeFloatW 64 buf with
             | (.ok v2, b) => ((.ok (.f64V v2) : Except Err Item), b)
             | (.error e, b) => (.error e, b)) from rfl, hres]
      rfl
    | bytesT =>
      cases v <;> try simp [wt] at hwt
      rename_i l
      have hres := decodeBytes_enc l hwt.1 buf rest hbuf
      rw [show decodeTy .bytesT buf
          = (match decodeBytes (2 ^ 64 - 1) buf with
             | (.ok l2, b) => ((.ok (.bytesV l2) : Except Err Item), b)
             | (.error e, b) => (.error e, b)) from rfl, hres]
      rfl
    | bytesNT nn =>
      cases v <;> try simp [wt] at hwt
      rename_i l
      have hres := decodeBytesN_enc l (by omega) buf rest hbuf
      rw [hwt.1.1] at hres
      rw [show decodeTy (.bytesNT nn) buf
          = (match decodeBytesN nn buf with
             | (.ok l2, b) => ((.ok (.bytesNV l2) : Except Err Item), b)
             | (.error e, b) => (.error e, b)) from rfl, hres]
      rfl
    | textT =>
      cases v <;> try simp [wt] at hwt
      rename_i l
      have hres := decodeText_enc l hwt.1 buf rest hbuf
      rw [show decodeTy .textT buf
          = (match decodeText (2 ^ 64 - 1) buf with
             | (.ok l2, b) => ((.ok (.textV l2) : Except Err Item), b)
             | (.error e, b) => (.error e, b)) from rfl, hres]
      rfl
    | arrT t =>
      cases v <;> try simp [wt] at hwt
      rename_i es
      simp only [goodTy] at hg
      rw [show valOk (.arrV es) = valOkList es from rfl] at hok
      have hszes : sizeOf es ≤ n := by
        have h1 : sizeOf (Item.arrV es) = 1 + sizeOf es := by simp
        omega
      have hbuf' : buf.remaining
          = encodeArgument 0x80 es.length ++ (encodeItems es ++ rest) := by
        rw [hbuf]
        simp [encodeItem]
      obtain ⟨hd, hr, hty, harg⟩ := headRead_encodeArgument 0x80 es.length (by decide)
        hwt.1 buf _ hbuf'
      have hlist := decodeListN_spec (fun bb => decodeTy t bb) es
        (fun x hx b r hb => ih t x
          (by have := sizeOf_lt_of_mem hx; omega)
          hg (hwt.2 x hx) (valOkList_mem hok hx) b r hb)
        (buf.advance (encodeArgument 0x80 es.length).length) rest
        (by rw [ReadBuf.remaining_advance, hbuf']; simp)
      rw [show decodeTy (.arrT t) buf
          = (match headRead buf with
             | (.error e, b) => ((.error e : Except Err Item), b)
             | (.ok h, b) =>
               if h.type ≠ 0x80 then (.error .unexpectedType, b)
               else if h.decodeArgument > 2 ^ 64 - 1 then (.error .bufferOverflow, b)
               else
                 match decodeListN (fun bb => decodeTy t bb) h.decodeArgument b with
                 | (.ok es2, b2) => (.ok (.arrV es2), b2)
                 | (.error e, b2) => (.error e, b2)) from rfl, hr]
      dsimp only
      rw [if_neg (by rw [hty]; simp), harg, if_neg (by omega), hlist]
      dsimp only
      rw [ReadBuf.advance_advance]
      rw [show (encodeItem (.arrV es)).length
          = (encodeArgument 0x80 es.length).length + (encodeItems es).length from by
        simp [encodeItem]]
    | mapT kt vt =>
      cases v <;> try simp [wt] at hwt
      rename_i ps
      rw [show goodTy (.mapT kt vt) = (keyKindB kt && goodTy vt) from rfl,
        Bool.and_eq_true] at hg
      rw [show valOk (.mapV ps) = (sortedKeys ps && valOkPairs ps) from rfl,
        Bool.and_eq_true] at hok
      have hgk := goodTy_of_keyKind kt hg.1
      have hpw := sorted_pairwise kt hg.1 ps (fun p hp => (hwt.2 p.1 p.2 hp).1) hok.1
      have hszps : sizeOf ps ≤ n := by
        have h1 : sizeOf (Item.mapV ps) = 1 + sizeOf ps := by simp
        omega
      have hbuf' : buf.remaining
          = encodeArgument 0xA0 ps.length ++ (encodePairs ps ++ rest) := by
        rw [hbuf]
        simp [encodeItem]
      obtain ⟨hd, hr, hty, harg⟩ := headRead_encodeArgument 0xA0 ps.length (by decide)
        hwt.1 buf _ hbuf'
      have hpairs := decodePairsN_spec (fun bb => decodeTy kt bb)
        (fun bb => decodeTy vt bb) ps
        (fun p hp b r hb => ih kt p.1
          (by obtain ⟨h1, h2⟩ := sizeOf_pair_lt_of_mem hp; omega)
          hgk (hwt.2 p.1 p.2 hp).1 (valOkPairs_mem hok.2 hp).1 b r hb)
        (fun p hp b r hb => ih vt p.2
          (by obtain ⟨h1, h2⟩ := sizeOf_pair_lt_of_mem hp; omega)
          hg.2 (hwt.2 p.1 p.2 hp).2 (valOkPairs_mem hok.2 hp).2 b r hb)
        hpw [] (by intro p hp; cases hp)
        (buf.advance (encodeArgument 0xA0 ps.length).length) rest
        (by rw [ReadBuf.remaining_advance, hbuf']; simp)
      rw [show decodeTy (.mapT kt vt) buf
          = (match headRead buf with
             | (.error e, b) => ((.error e : Except Err Item), b)
             | (.ok h, b) =>
               if h.type ≠ 0xA0 then (.error .unexpectedType, b)
               else if h.decodeArgument > 2 ^ 64 - 1 then (.error .bufferOverflow, b)
               else
                 match decodePairsN (fun bb => decodeTy kt bb)
                     (fun bb => decodeTy vt bb) h.decodeArgument [] b with
                 | (.ok ps2, b2) => (.ok (.mapV ps2), b2)
                 | (.error e, b2) => (.error e, b2)) from rfl, hr]
      dsimp only
      rw [if_neg (by rw [hty]; simp), harg, if_neg (by omega), hpairs]
      dsimp only
      rw [ReadBuf.advance_advance]
      rw [show (encodeItem (.mapV ps)).length
          = (encodeArgument 0xA0 ps.length).length + (encodePairs ps).length from by
        simp [encodeItem]]
      rfl
    | optT t =>
      cases v <;> try simp [wt] at hwt
      rename_i o
      simp only [goodTy] at hg
      cases o with
      | none =>
        have hread : read1 buf = (.ok 0xF6, buf.advance 1) :=
          read1_cons buf 0xF6 rest (by rw [hbuf]; rfl)
        rw [show decodeTy (.optT t) buf
            = (match read1 buf with
               | (.error e, b) => ((.error e : Except Err Item), b)
               | (.ok byte, b) =>
                 if byte = 0xF6 then (.ok (.optV none), b)
                 else
                   match decodeTy t buf with
                   | (.ok x, b2) => (.ok (.optV (some x)), b2)
                   | (.error e, b2) => (.error e, b2)) from rfl, hread]
        dsimp only
        rw [if_pos rfl]
        rfl
      | some x =>
        rw [show wt (.optT t) (.optV (some x)) = wt t x from rfl] at hwt
        rw [show valOk (.optV (some x))
            = (headNotNull (encodeItem x) && valOk x) from rfl,
          Bool.and_eq_true] at hok
        have hszx : sizeOf x ≤ n := by
          have h1 : sizeOf (Item.optV (some x)) = 1 + (1 + sizeOf x) := by simp
          omega
        rcases henc : encodeItem x with _ | ⟨b0, tail⟩
        · rw [henc] at hok
          exact absurd hok.1 (by simp [headNotNull])
        · have hb6 : b0 ≠ 0xF6 := by
            have h1 := hok.1
            rw [henc] at h1
            simpa [headNotNull] using h1
          have hread : read1 buf = (.ok b0, buf.advance 1) :=
            read1_cons buf b0 (tail ++ rest) (by
              rw [hbuf, show encodeItem (.optV (some x)) = encodeItem x from rfl, henc]
              rfl)
          have hih := ih t x hszx hg hwt hok.2 buf rest hbuf
          rw [show decodeTy (.optT t) buf
              = (match read1 buf with
                 | (.error e, b) => ((.error e : Except Err Item), b)
                 | (.ok byte, b) =>
                   if byte = 0xF6 then (.ok (.optV none), b)
                   else
                     match decodeTy t buf with
                     | (.ok x2, b2) => (.ok (.optV (some x2)), b2)
                     | (.error e, b2) => (.error e, b2)) from rfl, hread]
          dsimp only
          rw [if_neg hb6, hih]
          rfl
    | recT fs =>
      cases v <;> try simp [wt] at hwt
      rename_i vs
      rw [show goodTy (.recT fs) = goodTyList fs from rfl] at hg
      rw [show valOk (.recV vs) = valOkList vs from rfl] at hok
      have hszvs : sizeOf vs ≤ n := by
        have h1 : sizeOf (Item.recV vs) = 1 + sizeOf vs := by simp
        omega
      have hfields := decodeFields_spec fs vs
        (fun tt htt x hx hgt hwtx hokx b r hb => ih tt x
          (by have := sizeOf_lt_of_mem hx; omega) hgt hwtx hokx b r hb)
        hg hwt hok buf rest hbuf
      rw [show decodeTy (.recT fs) buf
          = (match decodeFields fs buf with
             | (.ok vs2, b) => ((.ok (.recV vs2) : Except Err Item), b)
             | (.error e, b) => (.error e, b)) from rfl, hfields]
      rfl
    | variantT alts =>
      rw [show goodTy (.variantT alts) = false from rfl] at hg
      cases hg

----------------------------------------------------------------------------
-- C1: the round trip
----------------------------------------------------------------------------

/-- C1 counterexample: a type-ID-tagged union in the claimed scope breaks
the round trip.  The variant value is well-typed at its shape, but the
encoder writes the bare `id ++ payload` form (`01 F5`), which the variant
decoder rejects with `decoding_error` because it demands the `0x82` array
head byte first.  (`boxed<T>` values fail the claim even more directly:
the sources contain no decode overload for `boxed<T>` at all.) -/
theorem variant_roundtrip_fails :
    wt (.variantT [(1, .boolT)]) (.variantV 1 (.boolV true)) = true ∧
    encodeItem (.variantV 1 (.boolV true)) = [0x01, 0xF5] ∧
    (decodeTy (.variantT [(1, .boolT)]) ⟨[0x01, 0xF5], 0⟩).1
      = .error .decodingError :=
  ⟨rfl, rfl, rfl⟩

/-- C1 (amended): for every shape with no variant anywhere, machine-width
integers and key-kind map keys (`goodTy`), and every well-typed value
satisfying the value-level conditions (`valOk`: no NaN floats, map entries
strictly key-sorted as a `std::map` iterates them, no present optional
whose payload encoding starts with `F6`), decoding the encoding yields the
value back and consumes exactly the encoded bytes.  Variants are excluded
(their decoder demands a `0x82` header the encoder never writes), boxed
values have no decoder, and a present optional encoding to a leading `F6`
decodes as an absent optional instead. -/
theorem roundtrip_good (t : Ty) (v : Item) (hg : goodTy t = true)
    (hwt : wt t v = true) (hok : valOk v = true)
    (buf : ReadBuf) (rest : List Nat) (hbuf : buf.remaining = encodeItem v ++ rest) :
    decodeTy t buf = (.ok v, buf.advance (encodeItem v).length) :=
  roundtrip_aux (sizeOf v) t v (Nat.le_refl _) hg hwt hok buf rest hbuf

/-- C1 witness: a reflected record holding an 8-bit integer, a present
optional boolean and a text string encodes to `05 F5 61 61` and decodes
back to itself, consuming all four bytes. -/
theorem roundtrip_good_witness :
    encodeItem (.recV [.uintV 5, .optV (some (.boolV true)), .textV [0x61]])
      = [0x05, 0xF5, 0x61, 0x61] ∧
    decodeTy (.recT [.uintT 8, .optT .boolT, .textT]) ⟨[0x05, 0xF5, 0x61, 0x61], 0⟩
      = (.ok (.recV [.uintV 5, .optV (some (.boolV true)), .textV [0x61]]),
         ⟨[0x05, 0xF5, 0x61, 0x61], 4⟩) :=
  ⟨rfl,
   roundtrip_good (.recT [.uintT 8, .optT .boolT, .textT])
     (.recV [.uintV 5, .optV (some (.boolV true)), .textV [0x61]])
     (by decide) (by decide) (by decide)
     ⟨[0x05, 0xF5, 0x61, 0x61], 0⟩ [] (by decide)⟩

end CBOR
